import Mathlib

/-!
Verification development for the maze generator / A* path finder
(`DSA_MAZE_SOLVER.py`).

The program is embedded shallowly:

* a `MazeNode` becomes a `Cell` record; the four adjacency object references
  become the coordinates of the pointed-to node (every node of a maze built by
  the program is uniquely identified by its `(row, col)` pair, and object
  identity on nodes coincides with coordinate equality);
* the maze (a Python list of lists of nodes) becomes a `List (List Cell)`;
  mutation becomes functional update of that list;
* `float('inf')` distances become `Option Nat` with `none` for infinity
  (all finite distances the program stores are the integers `g`);
* the float priorities `g + math.sqrt(m)` (with `g m` integers) are
  represented by the pair `(g, m)` and compared exactly over the reals by
  integer arithmetic (`fLtB`, `fEqB`).  For the integer ranges a maze
  produces, IEEE double comparisons of these values agree with the exact
  real comparisons, so this is a faithful model of the float comparisons;
* `heapq.heappush` / `heapq.heappop` are transcribed from CPython's
  pure-python reference implementation (`_siftdown`, `_siftup`);
* `random.randint` / `random.choice` consume successive values of an
  arbitrary draw sequence `Nat → Nat`; `randint lo hi` with `hi < lo`
  models the `ValueError` Python raises on an empty range;
* the unbounded `while` loops (the A* main loop, the path reconstruction
  descent, the recursive border-destination retry) take an explicit fuel
  argument; exhausting fuel yields `none`, a genuinely diverging loop is a
  loop that yields `none` for every fuel.
-/

namespace MazeSolver

/-- Coordinates `(row, col)` of a maze node. -/
abbrev Coord : Type := Nat × Nat

/-- One maze node, mirroring `MazeNode.__init__` (lines 6-19): four adjacency
pointers (as coordinates of the pointed-to node, `none` = Python `None`),
the transient search state `distance` (`none` = `float('inf')`) and
`visited`, and the obstacle flag `is_enemy`. -/
structure Cell where
  left : Option Coord := none
  right : Option Coord := none
  up : Option Coord := none
  down : Option Coord := none
  distance : Option Nat := none
  visited : Bool := false
  is_enemy : Bool := false
deriving Repr, DecidableEq, Inhabited

/-- The maze: a list of rows of cells, mirroring the Python list of lists. -/
abbrev Maze : Type := List (List Cell)

/-- `maze[p.1][p.2]`; out-of-range indices give the default cell (the Python
program never dereferences an out-of-range index on the runs we reason
about, which is enforced by in-bounds hypotheses in the theorems). -/
def cellAt (mz : Maze) (p : Coord) : Cell :=
  (mz.getD p.1 []).getD p.2 {}

/-- Functional update of the cell at `p` (no-op out of range). -/
def updateCell (mz : Maze) (p : Coord) (f : Cell → Cell) : Maze :=
  mz.set p.1 ((mz.getD p.1 []).set p.2 (f (cellAt mz p)))

/-- Lines 76-79 of `astar`: reset `visited` and `distance` of every node. -/
def resetMaze (mz : Maze) : Maze :=
  mz.map (fun row => row.map (fun c => { c with visited := false, distance := none }))

/-- The integer under the square root in `heuristic` (lines 70-71):
`abs((node.row - end[0]) * 2 + (node.col - end[1]) * 2)`.
The heuristic value itself is `Real.sqrt` of this number. -/
def hArg (p e : Coord) : Nat :=
  (((p.1 : Int) - (e.1 : Int)) * 2 + ((p.2 : Int) - (e.2 : Int)) * 2).natAbs

/-- Exact decision of `g1 + sqrt m1 < g2 + sqrt m2` (real comparison of the
float priorities), by case analysis and squaring over `Int`. -/
def fLtB (g1 m1 g2 m2 : Nat) : Bool :=
  let d : Int := (g2 : Int) - (g1 : Int)
  if 0 ≤ d then
    let L : Int := (m1 : Int) - d ^ 2 - (m2 : Int)
    decide (L < 0) || decide (L ^ 2 < 4 * d ^ 2 * (m2 : Int))
  else
    let e : Int := -d
    let L2 : Int := (m2 : Int) - (m1 : Int) - e ^ 2
    decide (0 < L2) && decide (4 * e ^ 2 * (m1 : Int) < L2 ^ 2)

/-- Exact decision of `g1 + sqrt m1 = g2 + sqrt m2`. -/
def fEqB (g1 m1 g2 m2 : Nat) : Bool :=
  let d : Int := (g2 : Int) - (g1 : Int)
  if 0 ≤ d then
    let L : Int := (m1 : Int) - d ^ 2 - (m2 : Int)
    decide (0 ≤ L) && decide (L ^ 2 = 4 * d ^ 2 * (m2 : Int))
  else
    let e : Int := -d
    let L2 : Int := (m2 : Int) - (m1 : Int) - e ^ 2
    decide (0 ≤ L2) && decide (4 * e ^ 2 * (m1 : Int) = L2 ^ 2)

/-- `MazeNode.__lt__` (lines 21-22): `self.distance < other.distance`, with
`none` playing `float('inf')` (so `inf < x` is false and `x < inf` is true
for finite `x`). -/
def distLt (a b : Option Nat) : Bool :=
  match a, b with
  | none, _ => false
  | some _, none => true
  | some x, some y => decide (x < y)

/-- A priority-queue entry `(f, g, node)` of line 86 / line 111: the float
`f = g + sqrt m` is represented exactly by the pair `(g, m)`. -/
structure PQEntry where
  g : Nat
  m : Nat
  pos : Coord
deriving Repr, DecidableEq, Inhabited

/-- Python tuple comparison `(f1, g1, n1) < (f2, g2, n2)`: floats first, then
the integer `g`, then the nodes via `MazeNode.__lt__` (node equality is
object identity, i.e. coordinate equality here; the node tie-break reads the
*current* mutable distances, hence the `mz` parameter). -/
def cmpEntry (mz : Maze) (x y : PQEntry) : Bool :=
  if fLtB x.g x.m y.g y.m then true
  else if fEqB x.g x.m y.g y.m then
    if x.g < y.g then true
    else if y.g < x.g then false
    else if x.pos = y.pos then false
    else distLt (cellAt mz x.pos).distance (cellAt mz y.pos).distance
  else false

/-- Default entry for list indexing. -/
def pqDefault : PQEntry := ⟨0, 0, (0, 0)⟩

/-- CPython `heapq._siftdown(heap, startpos, pos)` with `newitem = heap[pos]`
passed explicitly: bubble `newitem` up towards `startpos`.  The first `Nat`
is fuel making the recursion structural (so that concrete runs evaluate);
`pos` strictly decreases each iteration, so any fuel `≥ pos` - which every
call site supplies - makes the fuel-out branch unreachable. -/
def siftdownLoop (cmp : PQEntry → PQEntry → Bool) (newitem : PQEntry) :
    Nat → List PQEntry → Nat → Nat → List PQEntry
  | 0, heap, _, pos => heap.set pos newitem
  | fuel + 1, heap, startpos, pos =>
    if startpos < pos then
      let parentpos := (pos - 1) / 2
      let parent := heap.getD parentpos pqDefault
      if cmp newitem parent then
        siftdownLoop cmp newitem fuel (heap.set pos parent) startpos parentpos
      else heap.set pos newitem
    else heap.set pos newitem

/-- The descent phase of CPython `heapq._siftup`: walk the smaller-child path
down to a leaf, moving children up; returns the heap and the leaf position.
The fuel argument makes the recursion structural; `heap.length - pos`
strictly decreases, so fuel `≥ heap.length` never runs out. -/
def siftupLoop (cmp : PQEntry → PQEntry → Bool) :
    Nat → List PQEntry → Nat → List PQEntry × Nat
  | 0, heap, pos => (heap, pos)
  | fuel + 1, heap, pos =>
    let endpos := heap.length
    let childpos := 2 * pos + 1
    if childpos < endpos then
      let rightpos := childpos + 1
      let cp :=
        if rightpos < endpos &&
            !(cmp (heap.getD childpos pqDefault) (heap.getD rightpos pqDefault)) then
          rightpos
        else childpos
      siftupLoop cmp fuel (heap.set pos (heap.getD cp pqDefault)) cp
    else (heap, pos)

/-- CPython `heapq._siftup(heap, pos)`. -/
def siftup (cmp : PQEntry → PQEntry → Bool) (heap : List PQEntry) (pos : Nat) :
    List PQEntry :=
  let newitem := heap.getD pos pqDefault
  let hp := siftupLoop cmp heap.length heap pos
  siftdownLoop cmp newitem hp.2 hp.1 pos hp.2

/-- CPython `heapq.heappush`. -/
def heapPush (cmp : PQEntry → PQEntry → Bool) (heap : List PQEntry)
    (item : PQEntry) : List PQEntry :=
  siftdownLoop cmp item heap.length (heap ++ [item]) 0 heap.length

/-- CPython `heapq.heappop` (`none` on an empty heap, where Python raises). -/
def heapPop (cmp : PQEntry → PQEntry → Bool) (heap : List PQEntry) :
    Option (PQEntry × List PQEntry) :=
  match heap with
  | [] => none
  | _ :: _ =>
    let lastelt := heap.getLastD pqDefault
    let rest := heap.dropLast
    match rest with
    | [] => some (lastelt, [])
    | r0 :: _ => some (r0, siftup cmp (rest.set 0 lastelt) 0)

/-- Line 102 / line 122: `[node.left, node.right, node.up, node.down]` with
the `None`s dropped (`filter(None, neighbors)` keeps this order). -/
def ptrNbrs (mz : Maze) (p : Coord) : List Coord :=
  [(cellAt mz p).left, (cellAt mz p).right, (cellAt mz p).up,
    (cellAt mz p).down].filterMap id

/-- `new_g < neighbor.distance` of line 109, with `none` = infinity. -/
def ltDist (n : Nat) (d : Option Nat) : Bool :=
  match d with
  | none => true
  | some v => decide (n < v)

/-- Lines 103-111 for a single neighbor `q` of a node popped with cost `g`:
relax the edge and push the updated entry (the push compares entries using
the maze state that already contains the new distance, as in Python). -/
def relaxOne (endc : Coord) (g : Nat) (st : Maze × List PQEntry) (q : Coord) :
    Maze × List PQEntry :=
  let c := cellAt st.1 q
  if !c.visited && !c.is_enemy then
    let ng := g + 1
    if ltDist ng c.distance then
      let mz' := updateCell st.1 q (fun cc => { cc with distance := some ng })
      (mz', heapPush (cmpEntry mz') st.2 ⟨ng, hArg q endc, q⟩)
    else st
  else st

/-- The A* main loop, lines 89-111; one unit of fuel per iteration, `none`
when fuel runs out with a nonempty frontier. -/
def astarLoop (endc : Coord) : Nat → Maze → List PQEntry → Option Maze
  | _, mz, [] => some mz
  | 0, _, _ :: _ => none
  | fuel + 1, mz, x :: xs =>
    match heapPop (cmpEntry mz) (x :: xs) with
    | none => some mz
    | some (e, h') =>
      if (cellAt mz e.pos).visited then astarLoop endc fuel mz h'
      else
        let mz1 := updateCell mz e.pos
          (fun c => { c with visited := true, distance := some e.g })
        let st := (ptrNbrs mz1 e.pos).foldl (relaxOne endc e.g) (mz1, h')
        astarLoop endc fuel st.1 st.2

/-- `min(valid_neighbors, key=lambda x: x.distance)` (line 126): the first
element whose key is minimal. -/
def minByDist (mz : Maze) (v : Coord) (vs : List Coord) : Coord :=
  vs.foldl
    (fun best q =>
      if distLt (cellAt mz q).distance (cellAt mz best).distance then q else best)
    v

/-- The reconstruction descent, lines 118-130, accumulating the reversed
path (so the result is already in source-to-destination order).
`none` = fuel ran out; `some none` = `min` over an empty list, the
`ValueError` Python would raise; `some (some p)` = the returned path. -/
def reconLoop (s : Coord) : Nat → Maze → Coord → List Coord →
    Option (Option (List Coord))
  | 0, _, _, _ => none
  | fuel + 1, mz, cur, acc =>
    if cur = s then some (some (s :: acc))
    else
      let valid := (ptrNbrs mz cur).filter (fun q => !(cellAt mz q).is_enemy)
      match valid with
      | [] => some none
      | v :: vs => reconLoop s fuel mz (minByDist mz v vs) (cur :: acc)

/-- The possible outcomes of a (fueled) `astar` call. -/
inductive AstarResult where
  | fuelOut : AstarResult
  | valueError (mz : Maze) : AstarResult
  | noPath (mz : Maze) : AstarResult
  | found (mz : Maze) (path : List Coord) : AstarResult
deriving Repr, DecidableEq

/-- `astar(maze, start, end)` (lines 74-130).  The returned maze is the
argument object after the call's mutations (Python mutates in place). -/
def astar (fuel reconFuel : Nat) (mz0 : Maze) (start endc : Coord) :
    AstarResult :=
  let mz := resetMaze mz0
  let h0 : List PQEntry := [⟨0, hArg start endc, start⟩]
  match astarLoop endc fuel mz h0 with
  | none => .fuelOut
  | some mz1 =>
    match (cellAt mz1 endc).distance with
    | none => .noPath mz1
    | some _ =>
      match reconLoop start reconFuel mz1 endc [] with
      | none => .fuelOut
      | some none => .valueError mz1
      | some (some p) => .found mz1 p

/-! ### Randomness model and the generator functions -/

/-- A sequence of raw random draws. -/
abbrev Rand : Type := Nat → Nat

/-- `random.randint(lo, hi)`: error on an empty range (the `ValueError`),
otherwise one draw mapped into `[lo, hi]`, plus the advanced draw index. -/
def randint (lo hi : Int) (rs : Rand) (k : Nat) : Except Unit (Int × Nat) :=
  if hi < lo then .error () else .ok (lo + (rs k : Int) % (hi - lo + 1), k + 1)

/-- `random.choice([True, False])`. -/
def coin (rs : Rand) (k : Nat) : Bool × Nat := (rs k % 2 == 0, k + 1)

/-- The fresh `rows × cols` maze of line 26 (all pointers `None`). -/
def emptyMaze (rows cols : Nat) : Maze :=
  (List.range rows).map (fun _ => (List.range cols).map (fun _ => ({} : Cell)))

/-- The body of the connection loop (lines 31-36) at one `(row, col)`:
maybe connect rightwards, then maybe connect downwards (each coin is drawn
only when the bound check passes, as with Python's short-circuit `and`). -/
def connectStep (rows cols : Nat) (rs : Rand) (st : Maze × Nat) (rc : Coord) :
    Maze × Nat :=
  let r := rc.1
  let c := rc.2
  let st1 :=
    if c + 1 < cols then
      let bk := coin rs st.2
      if bk.1 then
        (updateCell (updateCell st.1 (r, c) (fun cc => { cc with right := some (r, c + 1) }))
          (r, c + 1) (fun cc => { cc with left := some (r, c) }), bk.2)
      else (st.1, bk.2)
    else st
  if r + 1 < rows then
    let bk := coin rs st1.2
    if bk.1 then
      (updateCell (updateCell st1.1 (r, c) (fun cc => { cc with down := some (r + 1, c) }))
        (r + 1, c) (fun cc => { cc with up := some (r, c) }), bk.2)
    else (st1.1, bk.2)
  else st1

/-- The row-major traversal order of the nested loops of lines 29-30. -/
def rowMajor (rows cols : Nat) : List Coord :=
  ((List.range rows).map (fun r => (List.range cols).map (fun c => (r, c)))).flatten

/-- The enemy-placement loop of lines 39-42. -/
def enemiesLoop (rows cols : Nat) (rs : Rand) :
    Nat → Maze → Nat → Except Unit (Maze × Nat)
  | 0, mz, k => .ok (mz, k)
  | n + 1, mz, k => do
    let rk ← randint 0 ((rows : Int) - 1) rs k
    let ck ← randint 0 ((cols : Int) - 1) rs rk.2
    enemiesLoop rows cols rs n
      (updateCell mz (rk.1.toNat, ck.1.toNat) (fun cc => { cc with is_enemy := true}))
      ck.2

/-- `generate_random_maze(rows, cols, num_enemies)` (lines 25-44). -/
def generate_random_maze (rows cols num_enemies : Nat) (rs : Rand) (k : Nat) :
    Except Unit (Maze × Nat) :=
  let st := (rowMajor rows cols).foldl (connectStep rows cols rs) (emptyMaze rows cols, k)
  enemiesLoop rows cols rs num_enemies st.1 st.2

/-- `generate_start_on_border` (lines 47-48). -/
def generate_start_on_border (rows : Nat) (rs : Rand) (k : Nat) :
    Except Unit (Coord × Nat) := do
  let rk ← randint 1 ((rows : Int) - 2) rs k
  .ok ((rk.1.toNat, 0), rk.2)

/-- `generate_end_on_border` (lines 51-67); the recursion carries fuel.
Sides: draw mod 4 with 0 = top, 1 = bottom, 2 = left, 3 = right. -/
def generate_end_on_border (rows cols : Nat) (start : Coord) (rs : Rand) :
    Nat → Nat → Option (Except Unit (Coord × Nat))
  | 0, _ => none
  | fuel + 1, k =>
    let side := rs k % 4
    let k1 := k + 1
    if side = 0 ∧ start.1 ≠ 0 then
      some (do
        let ck ← randint 1 ((cols : Int) - 2) rs k1
        .ok ((0, ck.1.toNat), ck.2))
    else if side = 1 ∧ start.1 ≠ rows - 1 then
      some (do
        let ck ← randint 1 ((cols : Int) - 2) rs k1
        .ok ((rows - 1, ck.1.toNat), ck.2))
    else if side = 2 ∧ start.2 ≠ 0 then
      some (do
        let rk ← randint 1 ((rows : Int) - 2) rs k1
        .ok ((rk.1.toNat, 0), rk.2))
    else if side = 3 ∧ start.2 ≠ cols - 1 then
      some (do
        let rk ← randint 1 ((rows : Int) - 2) rs k1
        .ok ((rk.1.toNat, cols - 1), rk.2))
    else generate_end_on_border rows cols start rs fuel k1

/-- `add_enemies_along_path(maze, path, num_enemies)` (lines 133-141); the
`Nat` next to the maze in the result is `enemies_added`. -/
def add_enemies_along_path (rs : Rand) (path : List Coord) :
    Nat → Maze → Nat → Nat → Except Unit (Maze × Nat × Nat)
  | 0, mz, acc, k => .ok (mz, acc, k)
  | n + 1, mz, acc, k => do
    let ik ← randint 1 ((path.length : Int) - 2) rs k
    let rc := path.getD ik.1.toNat (0, 0)
    if (cellAt mz rc).is_enemy then
      add_enemies_along_path rs path n mz acc ik.2
    else
      add_enemies_along_path rs path n
        (updateCell mz rc (fun cc => { cc with is_enemy := true })) (acc + 1) ik.2

/-- Number of obstacle cells of a maze. -/
def countEnemies (mz : Maze) : Nat :=
  (mz.map (fun row => (row.filter (fun c => c.is_enemy)).length)).sum

/-! ### Specification-side predicates -/

/-- The maze is a `rows × cols` rectangular array. -/
def Dims (mz : Maze) (rows cols : Nat) : Prop :=
  mz.length = rows ∧ ∀ r, (mz.getD r []).length = cols ∨ rows ≤ r

/-- The rightward adjacency of `(r, c)`, if present, points to the east
neighbour, stays inside the bounds, and is mirrored by that neighbour's
leftward adjacency. -/
def RightOk (mz : Maze) (cols r c : Nat) : Prop :=
  ∀ q, (cellAt mz (r, c)).right = some q →
    q = (r, c + 1) ∧ c + 1 < cols ∧ (cellAt mz (r, c + 1)).left = some (r, c)

/-- Mirror image of `RightOk` for the leftward adjacency. -/
def LeftOk (mz : Maze) (r c : Nat) : Prop :=
  ∀ q, (cellAt mz (r, c)).left = some q →
    q = (r, c - 1) ∧ 0 < c ∧ (cellAt mz (r, c - 1)).right = some (r, c)

/-- The downward adjacency points south, in bounds, mirrored by `up`. -/
def DownOk (mz : Maze) (rows r c : Nat) : Prop :=
  ∀ q, (cellAt mz (r, c)).down = some q →
    q = (r + 1, c) ∧ r + 1 < rows ∧ (cellAt mz (r + 1, c)).up = some (r, c)

/-- Mirror image of `DownOk` for the upward adjacency. -/
def UpOk (mz : Maze) (r c : Nat) : Prop :=
  ∀ q, (cellAt mz (r, c)).up = some q →
    q = (r - 1, c) ∧ 0 < r ∧ (cellAt mz (r - 1, c)).down = some (r, c)

/-- The grid adjacency invariant: every adjacency is mutual, axis-aligned
to the immediate neighbour, and never crosses the rectangular bounds. -/
def Mutual (mz : Maze) (rows cols : Nat) : Prop :=
  ∀ r c, r < rows → c < cols →
    RightOk mz cols r c ∧ LeftOk mz r c ∧ DownOk mz rows r c ∧ UpOk mz r c

/-- A well-formed grid: rectangular and satisfying the adjacency invariant
(this is the data-model invariant of every maze the program builds). -/
def WF (mz : Maze) (rows cols : Nat) : Prop :=
  Dims mz rows cols ∧ Mutual mz rows cols

/-- No adjacency at all (every pointer of every cell is `None`). -/
def NoAdj (mz : Maze) : Prop :=
  ∀ p : Coord, (cellAt mz p).left = none ∧ (cellAt mz p).right = none ∧
    (cellAt mz p).up = none ∧ (cellAt mz p).down = none

/-- Two mazes with the same wall layout and obstacles (they may differ in
the transient search state only). -/
def ShapeEq (mz mz' : Maze) : Prop :=
  mz.length = mz'.length ∧
  (∀ r, (mz.getD r []).length = (mz'.getD r []).length) ∧
  ∀ p : Coord, (cellAt mz p).left = (cellAt mz' p).left ∧
    (cellAt mz p).right = (cellAt mz' p).right ∧
    (cellAt mz p).up = (cellAt mz' p).up ∧
    (cellAt mz p).down = (cellAt mz' p).down ∧
    (cellAt mz p).is_enemy = (cellAt mz' p).is_enemy

/-- A search route: a nonempty chain of pointer steps starting at `s` in
which every cell after the first is free of obstacles (the first cell is
`s` itself, whose obstacle flag the search never consults). -/
def SRoute (mz : Maze) (s : Coord) (l : List Coord) : Prop :=
  l.head? = some s ∧ l.Chain' (fun a b => b ∈ ptrNbrs mz a) ∧
    ∀ q ∈ l.tail, (cellAt mz q).is_enemy = false

/-- There is a search route from `s` to `v` with exactly `n` edges. -/
def RouteN (mz : Maze) (s v : Coord) (n : Nat) : Prop :=
  ∃ l, SRoute mz s l ∧ l.getLast? = some v ∧ l.length = n + 1

/-- An obstacle-free route from `s` to `e`: consecutive cells are joined by
a present adjacency and no cell on it (endpoints included) is an obstacle.
This is the "route" of the specification's shortest-path property. -/
def FreeRoute (mz : Maze) (s e : Coord) (l : List Coord) : Prop :=
  l.head? = some s ∧ l.getLast? = some e ∧
    l.Chain' (fun a b => b ∈ ptrNbrs mz a) ∧
    ∀ q ∈ l, (cellAt mz q).is_enemy = false

/-- Invariant of the A* main loop used for the path-validity and
descent-termination claims.  `mz0` is the maze at entry (after the reset),
`s` the source; `mzC`/`hp` are the current maze and frontier.  It records:
the search mutates only transient fields (`shape`); visited cells have a
finite distance (`vfin`); every finite distance was produced either by the
initial source entry or by relaxing an edge out of a visited cell into a
non-obstacle cell (`dsrc`); and the same bookkeeping for the pending
frontier entries (`ent`). -/
structure LightInv (mz0 : Maze) (s : Coord) (mzC : Maze)
    (hp : List PQEntry) : Prop where
  shape : ShapeEq mz0 mzC
  vfin : ∀ p : Coord, (cellAt mzC p).visited = true →
    ∃ d, (cellAt mzC p).distance = some d
  dsrc : ∀ p d, (cellAt mzC p).distance = some d →
    (p = s ∧ d = 0) ∨
    (∃ u du, p ∈ ptrNbrs mz0 u ∧ (cellAt mzC u).visited = true ∧
      (cellAt mzC u).distance = some du ∧ d = du + 1 ∧
      (cellAt mz0 p).is_enemy = false)
  ent : ∀ e ∈ hp, (e.pos = s ∧ e.g = 0) ∨
    (∃ u du, e.pos ∈ ptrNbrs mz0 u ∧ (cellAt mzC u).visited = true ∧
      (cellAt mzC u).distance = some du ∧ e.g = du + 1 ∧
      (cellAt mz0 e.pos).is_enemy = false)

/-- Projections of an `AstarResult`, used to name the concrete outputs of
concrete runs in witnesses and counterexamples. -/
def resMaze : AstarResult → Maze
  | .valueError mz => mz
  | .noPath mz => mz
  | .found mz _ => mz
  | .fuelOut => []

/-- The path component of an `AstarResult` (empty if none). -/
def resPath : AstarResult → List Coord
  | .found _ p => p
  | _ => []

/-! ### Concrete mazes for witnesses and counterexamples -/

/-- The all-zero draw sequence (every coin lands `True`: a fully connected
maze when fed to the generator). -/
def zRand : Rand := fun _ => 0

/-- A fully connected `rows × cols` maze with no obstacles, as built by
`generate_random_maze` on the all-zero draw sequence. -/
def fullMaze (rows cols : Nat) : Maze :=
  match generate_random_maze rows cols 0 zRand 0 with
  | .ok st => st.1
  | .error _ => []

/-- A single obstacle cell: source = destination = the obstacle. -/
def mzObs1 : Maze := [[{ is_enemy := true }]]

/-- A 1 × 3 corridor whose source cell `(0,0)` is an obstacle: the
reconstruction descent oscillates between `(0,1)` and `(0,2)` forever. -/
def mzCorr : Maze :=
  [[{ right := some (0, 1), is_enemy := true },
    { left := some (0, 0), right := some (0, 2) },
    { left := some (0, 1) }]]

/-- A 1 × 1 maze with a single free cell. -/
def mzOne : Maze := [[{}]]

/-- The 1 × 2 maze `generate_random_maze 1 2 2` builds on the all-zero draw
sequence: both obstacle draws land on `(0,0)`, so only one cell is marked. -/
def mzC4 : Maze :=
  [[{ right := some (0, 1), is_enemy := true }, { left := some (0, 0) }]]

/-- The maze produced by inserting one obstacle along `[(0,0),(0,1),(0,2)]`
in the fully connected 1 × 3 corridor. -/
def c5wMaze : Maze :=
  match add_enemies_along_path zRand [(0, 0), (0, 1), (0, 2)] 1
      (fullMaze 1 3) 0 0 with
  | .ok st => st.1
  | .error _ => []

/-- The maze of a concrete 2 × 2 generation with one obstacle draw. -/
def c4wMaze : Maze :=
  match generate_random_maze 2 2 1 zRand 0 with
  | .ok st => st.1
  | .error _ => []

/-- The final draw index of that generation. -/
def c4wK : Nat :=
  match generate_random_maze 2 2 1 zRand 0 with
  | .ok st => st.2
  | .error _ => 0

/-- The 3 × 3 fully connected maze (the end-to-end example of the spec). -/
def full3 : Maze := fullMaze 3 3

/-- The first search of the end-to-end example. -/
def runFull3 : AstarResult := astar 100 100 full3 (1, 0) (1, 2)

/-- The corridor maze after a completed search loop from `(0,0)` towards
`(0,2)` (the state on which the reconstruction descent runs). -/
def corrSearched : Maze :=
  match astarLoop (0, 2) 100 (resetMaze mzCorr) [⟨0, hArg (0, 0) (0, 2), (0, 0)⟩] with
  | some mz => mz
  | none => []

/-- The fully connected 3 × 3 maze after a completed search loop from
`(1, 0)` towards `(1, 2)` (the state on which the descent of the
termination witness runs). -/
def full3S : Maze :=
  match astarLoop (1, 2) 100 (resetMaze full3) [⟨0, hArg (1, 0) (1, 2), (1, 0)⟩] with
  | some mz => mz
  | none => []

/-! ### The priority preorder and the binary-heap ordering invariant -/

/-- The strict part of the immutable priority preorder on heap entries:
strictly smaller real priority `g + sqrt m`, or equal priority and strictly
smaller `g`. -/
def ltFG (x y : PQEntry) : Prop :=
  fLtB x.g x.m y.g y.m = true ∨ (fEqB x.g x.m y.g y.m = true ∧ x.g < y.g)

/-- The non-strict priority preorder on heap entries. -/
def leFG (x y : PQEntry) : Prop := ¬ ltFG y x

/-- A comparator compatible with the priority preorder: answering `true`
certifies `≤` one way, answering `false` the other way.  `cmpEntry mz`
satisfies this for every maze `mz`, whatever its mutable tie-break reads. -/
def CmpOK (c : PQEntry → PQEntry → Bool) : Prop :=
  ∀ x y, (c x y = true → leFG x y) ∧ (c x y = false → leFG y x)

/-- The binary-heap ordering: every non-root element is dominated by its
parent (w.r.t. a preorder `le` on entries). -/
def IsHeap (le : PQEntry → PQEntry → Prop) (l : List PQEntry) : Prop :=
  ∀ j, 0 < j → j < l.length →
    le (l.getD ((j - 1) / 2) pqDefault) (l.getD j pqDefault)

/-- The invariant of `_siftdown` (bubble-up): the array is a heap except
that the slot `pos` is a hole whose eventual occupant `x` already dominates
the children of `pos`, and those children are also dominated by the parent
of `pos`. -/
def HoleUp (le : PQEntry → PQEntry → Prop) (l : List PQEntry) (pos : Nat)
    (x : PQEntry) : Prop :=
  (∀ j, 0 < j → j < l.length → j ≠ pos → (j - 1) / 2 ≠ pos →
    le (l.getD ((j - 1) / 2) pqDefault) (l.getD j pqDefault)) ∧
  (∀ j, 0 < j → j < l.length → (j - 1) / 2 = pos →
    le x (l.getD j pqDefault)) ∧
  (∀ j, 0 < j → j < l.length → (j - 1) / 2 = pos → 0 < pos →
    le (l.getD ((pos - 1) / 2) pqDefault) (l.getD j pqDefault))

/-- The invariant of the descent phase of `_siftup`: the array is a heap
except for the edges touching the hole `pos`, whose children are dominated
by the hole's parent. -/
def HoleDown (le : PQEntry → PQEntry → Prop) (l : List PQEntry)
    (pos : Nat) : Prop :=
  (∀ j, 0 < j → j < l.length → j ≠ pos → (j - 1) / 2 ≠ pos →
    le (l.getD ((j - 1) / 2) pqDefault) (l.getD j pqDefault)) ∧
  (∀ j, 0 < j → j < l.length → (j - 1) / 2 = pos → 0 < pos →
    le (l.getD ((pos - 1) / 2) pqDefault) (l.getD j pqDefault))

/-- The full invariant of the A* search loop used for the shortest-path
claim.  `mz` is the original maze, `s`/`e` the endpoints, `mzC`/`hp` the
current maze object and frontier.  It records: only transient fields are
mutated (`shape`); the frontier is heap-ordered for the priority preorder
(`heap`); every entry carries the heuristic of its own cell (`hm`) and a
`g` realised by an actual search route (`went`); every visited cell's
recorded distance is the exact shortest search-route length (`vopt`);
every unvisited cell with a finite distance has a matching frontier entry
(`uent`); and every route to an unvisited cell is covered by a frontier
entry together with an all-unvisited continuation of the route (`cover`). -/
structure SearchInv (mz : Maze) (s e : Coord) (mzC : Maze)
    (hp : List PQEntry) : Prop where
  shape : ShapeEq mz mzC
  heap : IsHeap leFG hp
  hm : ∀ en ∈ hp, en.m = hArg en.pos e
  went : ∀ en ∈ hp, RouteN mz s en.pos en.g
  vopt : ∀ p : Coord, (cellAt mzC p).visited = true →
    ∃ n, (cellAt mzC p).distance = some n ∧ RouteN mz s p n ∧
      ∀ n2, RouteN mz s p n2 → n ≤ n2
  uent : ∀ q dq, (cellAt mzC q).visited = false →
    (cellAt mzC q).distance = some dq →
    ∃ en ∈ hp, en.pos = q ∧ en.g = dq
  cover : ∀ p n, RouteN mz s p n → (cellAt mzC p).visited = false →
    ∃ en ∈ hp, ∃ l : List Coord,
      l.head? = some en.pos ∧ l.getLast? = some p ∧
      l.Chain' (fun a b => b ∈ ptrNbrs mz a) ∧
      (∀ q ∈ l, (cellAt mzC q).visited = false) ∧
      (∀ q ∈ l.tail, (cellAt mz q).is_enemy = false) ∧
      en.g + (l.length - 1) ≤ n

/-- The part of `SearchInv` preserved by every single edge relaxation,
stated of the running fold state `st`; `mzV` is the maze right after the
popped cell was marked visited (relaxations never touch visited flags, so
`st.1` agrees with `mzV` on them). -/
structure RelaxInv (mz : Maze) (s e : Coord) (mzV : Maze)
    (st : Maze × List PQEntry) : Prop where
  shape : ShapeEq mz st.1
  hvis : ∀ p : Coord, (cellAt st.1 p).visited = (cellAt mzV p).visited
  heap : IsHeap leFG st.2
  hm : ∀ en ∈ st.2, en.m = hArg en.pos e
  went : ∀ en ∈ st.2, RouteN mz s en.pos en.g
  vopt : ∀ p : Coord, (cellAt st.1 p).visited = true →
    ∃ n, (cellAt st.1 p).distance = some n ∧ RouteN mz s p n ∧
      ∀ n2, RouteN mz s p n2 → n ≤ n2
  uent : ∀ q dq, (cellAt st.1 q).visited = false →
    (cellAt st.1 q).distance = some dq →
    ∃ en ∈ st.2, en.pos = q ∧ en.g = dq

/-! ### List infrastructure -/

theorem getD_set_self {α : Type} (l : List α) (i : Nat) (x d : α)
    (h : i < l.length) : (l.set i x).getD i d = x := by
  induction l generalizing i with
  | nil => simp at h
  | cons a t ih =>
    cases i with
    | zero => rfl
    | succ j => exact ih j (by simpa using h)

theorem getD_set_ne {α : Type} (l : List α) {i j : Nat} (x d : α)
    (h : i ≠ j) : (l.set i x).getD j d = l.getD j d := by
  induction l generalizing i j with
  | nil => simp
  | cons a t ih =>
    cases i with
    | zero => cases j with
      | zero => exact absurd rfl h
      | succ j' => rfl
    | succ i' => cases j with
      | zero => rfl
      | succ j' => exact ih (fun hh => h (by simp [hh]))

theorem getD_map_fix {α β : Type} (f : α → β) (l : List α) (i : Nat)
    (d : α) : (l.map f).getD i (f d) = f (l.getD i d) := by
  induction l generalizing i with
  | nil => simp
  | cons a t ih =>
    cases i with
    | zero => rfl
    | succ j => simpa using ih j

theorem length_set_getD {α : Type} (l : List α) (i : Nat) (x : α) :
    (l.set i x).length = l.length := by simp

/-! ### Cell access and update -/

theorem cellAt_updateCell_self (mz : Maze) (p : Coord) (f : Cell → Cell)
    (h1 : p.1 < mz.length) (h2 : p.2 < (mz.getD p.1 []).length) :
    cellAt (updateCell mz p f) p = f (cellAt mz p) := by
  unfold cellAt updateCell
  rw [getD_set_self _ _ _ _ h1, getD_set_self _ _ _ _ h2]
  rfl

theorem cellAt_updateCell_ne (mz : Maze) {p q : Coord} (f : Cell → Cell)
    (h : q ≠ p) : cellAt (updateCell mz p f) q = cellAt mz q := by
  unfold cellAt updateCell
  by_cases h1 : p.1 = q.1
  · have h2 : p.2 ≠ q.2 := by
      intro h2; exact h (Prod.ext h1.symm h2.symm)
    by_cases hb : p.1 < mz.length
    · rw [h1, getD_set_self _ _ _ _ (h1 ▸ hb), ← h1, getD_set_ne _ _ _ h2]
    · rw [List.set_eq_of_length_le (Nat.le_of_not_lt hb)]
  · rw [getD_set_ne _ _ _ h1]

theorem updateCell_length (mz : Maze) (p : Coord) (f : Cell → Cell) :
    (updateCell mz p f).length = mz.length := by
  simp [updateCell]

theorem updateCell_rowLength (mz : Maze) (p : Coord) (f : Cell → Cell)
    (r : Nat) : ((updateCell mz p f).getD r []).length = (mz.getD r []).length := by
  unfold updateCell
  by_cases h1 : p.1 = r
  · subst h1
    by_cases hb : p.1 < mz.length
    · rw [getD_set_self _ _ _ _ hb]; simp
    · rw [List.set_eq_of_length_le (Nat.le_of_not_lt hb)]
  · rw [getD_set_ne _ _ _ h1]

theorem dims_updateCell {mz : Maze} {rows cols : Nat} (p : Coord)
    (f : Cell → Cell) (h : Dims mz rows cols) :
    Dims (updateCell mz p f) rows cols := by
  refine ⟨by rw [updateCell_length]; exact h.1, fun r => ?_⟩
  rw [updateCell_rowLength]; exact h.2 r

theorem cellAt_resetMaze (mz : Maze) (p : Coord) :
    cellAt (resetMaze mz) p =
      { cellAt mz p with visited := false, distance := none } := by
  unfold cellAt resetMaze
  have h1 := getD_map_fix (fun row : List Cell => row.map
      (fun c => { c with visited := false, distance := none })) mz p.1 []
  simp only [List.map_nil] at h1
  rw [h1]
  have h2 := getD_map_fix
    (fun c : Cell => { c with visited := false, distance := none })
    (mz.getD p.1 []) p.2 {}
  exact h2

theorem resetMaze_length (mz : Maze) : (resetMaze mz).length = mz.length := by
  simp [resetMaze]

theorem resetMaze_rowLength (mz : Maze) (r : Nat) :
    ((resetMaze mz).getD r []).length = (mz.getD r []).length := by
  unfold resetMaze
  have h1 := getD_map_fix (fun row : List Cell => row.map
    (fun c => { c with visited := false, distance := none })) mz r []
  simp only [List.map_nil] at h1
  rw [h1]; simp

/-! ### `randint` -/

theorem randint_ok {lo hi : Int} {rs : Rand} {k : Nat} {v : Int} {k' : Nat}
    (h : randint lo hi rs k = .ok (v, k')) :
    lo ≤ v ∧ v ≤ hi ∧ k' = k + 1 := by
  unfold randint at h
  split at h
  · exact absurd h (by simp)
  · rename_i hlo
    have hpos : 0 < hi - lo + 1 := by omega
    have h1 : 0 ≤ (rs k : Int) % (hi - lo + 1) :=
      Int.emod_nonneg _ (by omega)
    have h2 : (rs k : Int) % (hi - lo + 1) < hi - lo + 1 :=
      Int.emod_lt_of_pos _ hpos
    simp only [Except.ok.injEq, Prod.mk.injEq] at h
    refine ⟨?_, ?_, h.2.symm⟩ <;> omega

theorem randint_err {lo hi : Int} (rs : Rand) (k : Nat) (h : hi < lo) :
    randint lo hi rs k = .error () := by
  unfold randint
  simp [h]

theorem randint_isOk {lo hi : Int} (rs : Rand) (k : Nat) (h : lo ≤ hi) :
    ∃ v k', randint lo hi rs k = .ok (v, k') := by
  unfold randint
  rw [if_neg (Int.not_lt.mpr h)]
  exact ⟨_, _, rfl⟩

/-! ### Obstacle insertion (`add_enemies_along_path`) -/

theorem add_enemies_spec (rs : Rand) (path : List Coord) :
    ∀ (num : Nat) (mz : Maze) (acc k : Nat) (mz' : Maze) (added k' : Nat),
      add_enemies_along_path rs path num mz acc k = .ok (mz', added, k') →
      added ≤ acc + num ∧
      ((∀ i, 1 ≤ i → i + 1 < path.length →
          path.getD i (0, 0) ≠ path.getD 0 (0, 0) ∧
          path.getD i (0, 0) ≠ path.getD (path.length - 1) (0, 0)) →
        cellAt mz' (path.getD 0 (0, 0)) = cellAt mz (path.getD 0 (0, 0)) ∧
        cellAt mz' (path.getD (path.length - 1) (0, 0)) =
          cellAt mz (path.getD (path.length - 1) (0, 0))) := by
  intro num
  induction num with
  | zero =>
    intro mz acc k mz' added k' h
    simp only [add_enemies_along_path, Except.ok.injEq, Prod.mk.injEq] at h
    obtain ⟨h1, h2, h3⟩ := h
    subst h1; subst h2
    exact ⟨Nat.le_refl _, fun _ => ⟨rfl, rfl⟩⟩
  | succ n ih =>
    intro mz acc k mz' added k' h
    simp only [add_enemies_along_path] at h
    cases hr : randint 1 ((path.length : Int) - 2) rs k with
    | error e => rw [hr] at h; exact absurd h (by simp [Bind.bind, Except.bind])
    | ok vk =>
      rw [hr] at h
      simp only [Bind.bind, Except.bind] at h
      obtain ⟨h1, h2, _⟩ := randint_ok hr
      have hlen : (3 : Int) ≤ (path.length : Int) := by
        by_contra hc
        rw [randint_err rs k (by omega)] at hr
        exact absurd hr (by simp)
      have hidx1 : 1 ≤ vk.1.toNat := by omega
      have hidx2 : vk.1.toNat + 1 < path.length := by omega
      set rc := path.getD vk.1.toNat (0, 0) with hrc
      have hne : (∀ i, 1 ≤ i → i + 1 < path.length →
          path.getD i (0, 0) ≠ path.getD 0 (0, 0) ∧
          path.getD i (0, 0) ≠ path.getD (path.length - 1) (0, 0)) →
          rc ≠ path.getD 0 (0, 0) ∧ rc ≠ path.getD (path.length - 1) (0, 0) :=
        fun hh => hh vk.1.toNat hidx1 hidx2
      split at h
      · have := ih mz acc vk.2 mz' added k' h
        refine ⟨by omega, fun hh => this.2 hh⟩
      · have := ih (updateCell mz rc (fun cc => { cc with is_enemy := true }))
          (acc + 1) vk.2 mz' added k' h
        refine ⟨by omega, fun hh => ?_⟩
        obtain ⟨hs, hd⟩ := this.2 hh
        obtain ⟨hn1, hn2⟩ := hne hh
        rw [hs, hd, cellAt_updateCell_ne mz _ (Ne.symm hn1),
          cellAt_updateCell_ne mz _ (Ne.symm hn2)]
        exact ⟨rfl, rfl⟩

/-- C5 (counterexample).  The claim quantifies over *every* path; on the
degenerate path `[(0,0),(0,0),(0,0)]` the interior draw lands on the same
coordinate as the path's first (and last) coordinate, and the insertion
sets that cell's obstacle flag. -/
theorem insertion_endpoints_counterexample :
    add_enemies_along_path zRand [(0, 0), (0, 0), (0, 0)] 1 mzOne 0 0 =
      .ok (mzObs1, 1, 1) ∧
    (cellAt mzOne (0, 0)).is_enemy = false ∧
    (cellAt mzObs1 (0, 0)).is_enemy = true := by
  refine ⟨rfl, rfl, rfl⟩

/-- C5 (amended).  For every maze, requested count and path whose interior
entries avoid the first and last coordinates (true of any path with
pairwise distinct coordinates), `add_enemies_along_path` never changes the
obstacle flag of the cells at the path's first and last coordinates, and
the count of obstacles it reports as added never exceeds the requested
count. -/
theorem insertion_endpoints_amended (rs : Rand) (path : List Coord)
    (num : Nat) (mz : Maze) (k : Nat) (mz' : Maze) (added k' : Nat)
    (hgood : ∀ i, 1 ≤ i → i + 1 < path.length →
      path.getD i (0, 0) ≠ path.getD 0 (0, 0) ∧
      path.getD i (0, 0) ≠ path.getD (path.length - 1) (0, 0))
    (h : add_enemies_along_path rs path num mz 0 k = .ok (mz', added, k')) :
    added ≤ num ∧
    (cellAt mz' (path.getD 0 (0, 0))).is_enemy =
      (cellAt mz (path.getD 0 (0, 0))).is_enemy ∧
    (cellAt mz' (path.getD (path.length - 1) (0, 0))).is_enemy =
      (cellAt mz (path.getD (path.length - 1) (0, 0))).is_enemy := by
  obtain ⟨h1, h2⟩ := add_enemies_spec rs path num mz 0 k mz' added k' h
  obtain ⟨hs, hd⟩ := h2 hgood
  exact ⟨by omega, by rw [hs], by rw [hd]⟩

/-- Closed witness for the amended C5 on a concrete 1 × 3 corridor. -/
theorem insertion_endpoints_amended_witness :
    1 ≤ 1 ∧
    (cellAt c5wMaze (0, 0)).is_enemy = (cellAt (fullMaze 1 3) (0, 0)).is_enemy ∧
    (cellAt c5wMaze (0, 2)).is_enemy = (cellAt (fullMaze 1 3) (0, 2)).is_enemy := by
  have h := insertion_endpoints_amended zRand [(0, 0), (0, 1), (0, 2)] 1
    (fullMaze 1 3) 0 c5wMaze 1 1
    (by
      intro i h1 h2
      simp only [List.length_cons, List.length_nil] at h2
      have hi : i = 1 := by omega
      subst hi
      exact ⟨by decide, by decide⟩) rfl
  exact ⟨h.1, h.2.1, h.2.2⟩

/-- C10.  Called with a 2-coordinate path and a positive requested count,
`add_enemies_along_path` hits `random.randint(1, 0)`'s empty range and
raises (the `ValueError`); with a path of 3 or more coordinates it always
returns a count normally. -/
theorem insertion_short_path_error (rs : Rand) (path : List Coord)
    (num : Nat) (mz : Maze) (acc k : Nat) :
    (path.length = 2 → 1 ≤ num →
      add_enemies_along_path rs path num mz acc k = .error ()) ∧
    (3 ≤ path.length →
      ∃ mz' a k', add_enemies_along_path rs path num mz acc k = .ok (mz', a, k')) := by
  constructor
  · intro hlen hnum
    match num, hnum with
    | n + 1, _ =>
      simp only [add_enemies_along_path]
      rw [randint_err rs k (by rw [hlen]; norm_num)]
      rfl
  · intro hlen
    induction num generalizing mz acc k with
    | zero => exact ⟨mz, acc, k, rfl⟩
    | succ n ih =>
      obtain ⟨v, k1, hr⟩ := @randint_isOk 1
        ((path.length : Int) - 2) rs k (by omega)
      simp only [add_enemies_along_path, hr, Bind.bind, Except.bind]
      split
      · exact ih mz acc k1
      · exact ih _ (acc + 1) k1

/-! ### More update lemmas -/

theorem set_getD_self {α : Type} (l : List α) (i : Nat) (d : α) :
    l.set i (l.getD i d) = l := by
  induction l generalizing i with
  | nil => rfl
  | cons a t ih =>
    cases i with
    | zero => rfl
    | succ j => simp only [List.set, List.getD_cons_succ, ih]

theorem updateCell_out (mz : Maze) (p : Coord) (f : Cell → Cell)
    (h : ¬(p.1 < mz.length ∧ p.2 < (mz.getD p.1 []).length)) :
    updateCell mz p f = mz := by
  unfold updateCell
  by_cases h1 : p.1 < mz.length
  · have h2 : (mz.getD p.1 []).length ≤ p.2 := by
      rcases Nat.lt_or_ge p.2 (mz.getD p.1 []).length with hlt | hge
      · exact absurd ⟨h1, hlt⟩ h
      · exact hge
    rw [List.set_eq_of_length_le h2, set_getD_self]
  · rw [List.set_eq_of_length_le (Nat.le_of_not_lt h1)]

theorem cellAt_updateCell (mz : Maze) (p q : Coord) (f : Cell → Cell) :
    cellAt (updateCell mz p f) q =
      if q = p ∧ p.1 < mz.length ∧ p.2 < (mz.getD p.1 []).length then
        f (cellAt mz p)
      else cellAt mz q := by
  split
  · rename_i hc
    rw [hc.1, cellAt_updateCell_self mz p f hc.2.1 hc.2.2]
  · rename_i hc
    by_cases hq : q = p
    · subst hq
      rw [updateCell_out mz q f (fun hb => hc ⟨rfl, hb⟩)]
    · exact cellAt_updateCell_ne mz f hq

theorem ptrNbrs_updateCell_vd (mz : Maze) (p q : Coord) (f : Cell → Cell)
    (hf : ∀ c, (f c).left = c.left ∧ (f c).right = c.right ∧
      (f c).up = c.up ∧ (f c).down = c.down) :
    ptrNbrs (updateCell mz p f) q = ptrNbrs mz q := by
  unfold ptrNbrs
  rw [cellAt_updateCell]
  split
  · rename_i hc
    rw [hc.1, (hf _).1, (hf _).2.1, (hf _).2.2.1, (hf _).2.2.2]
  · rfl

theorem getD_replicate_ite {α : Type} (n i : Nat) (x d : α) :
    (List.replicate n x).getD i d = if i < n then x else d := by
  induction n generalizing i with
  | zero => simp
  | succ m ih =>
    cases i with
    | zero => simp [List.replicate]
    | succ j =>
      simp only [List.replicate, List.getD_cons_succ, ih,
        Nat.succ_lt_succ_iff]

theorem cellAt_emptyMaze (rows cols : Nat) (p : Coord) :
    cellAt (emptyMaze rows cols) p = {} := by
  unfold cellAt emptyMaze
  rw [List.map_const', List.length_range, getD_replicate_ite]
  split
  · rw [List.map_const', List.length_range, getD_replicate_ite]
    split <;> rfl
  · rfl

theorem noAdj_emptyMaze (rows cols : Nat) : NoAdj (emptyMaze rows cols) := by
  intro p
  rw [cellAt_emptyMaze]
  exact ⟨rfl, rfl, rfl, rfl⟩

/-! ### C6: unreachable destinations -/

theorem astarLoop_nil (endc : Coord) (fuel : Nat) (mz : Maze) :
    astarLoop endc fuel mz [] = some mz := by
  cases fuel <;> rfl

/-- C6.  On a grid with no adjacencies at all and distinct endpoints the
search returns the no-path value (never an error); and in general, whenever
the main loop drains the frontier leaving the destination's distance at
infinity, `astar` returns the no-path value. -/
theorem astar_unreachable :
    (∀ (mz : Maze) (s e : Coord) (fuel rf : Nat), NoAdj mz → s ≠ e →
      1 ≤ fuel → ∃ mz1, astar fuel rf mz s e = .noPath mz1) ∧
    (∀ (fuel rf : Nat) (mz : Maze) (s e : Coord) (mz1 : Maze),
      astarLoop e fuel (resetMaze mz) [⟨0, hArg s e, s⟩] = some mz1 →
      (cellAt mz1 e).distance = none →
      astar fuel rf mz s e = .noPath mz1) := by
  have hpart2 : ∀ (fuel rf : Nat) (mz : Maze) (s e : Coord) (mz1 : Maze),
      astarLoop e fuel (resetMaze mz) [⟨0, hArg s e, s⟩] = some mz1 →
      (cellAt mz1 e).distance = none →
      astar fuel rf mz s e = .noPath mz1 := by
    intro fuel rf mz s e mz1 hloop hdist
    unfold astar
    simp only [hloop, hdist]
  refine ⟨?_, hpart2⟩
  intro mz s e fuel rf hno hne hfuel
  match fuel, hfuel with
  | f + 1, _ =>
    have hvis : (cellAt (resetMaze mz) s).visited = false := by
      rw [cellAt_resetMaze]
    have hnbrs : ptrNbrs (updateCell (resetMaze mz) s
        (fun c => { c with visited := true, distance := some 0 })) s = [] := by
      rw [ptrNbrs_updateCell_vd (resetMaze mz) s s
        (fun c => { c with visited := true, distance := some 0 })
        (fun c => ⟨rfl, rfl, rfl, rfl⟩)]
      unfold ptrNbrs
      rw [cellAt_resetMaze]
      have h1 := hno s
      simp only [h1.1, h1.2.1, h1.2.2.1, h1.2.2.2]
      rfl
    have step1 : astarLoop e (f + 1) (resetMaze mz) [⟨0, hArg s e, s⟩] =
        if (cellAt (resetMaze mz) s).visited then
          astarLoop e f (resetMaze mz) []
        else
          let mz1 := updateCell (resetMaze mz) s
            (fun c => { c with visited := true, distance := some 0 })
          let st := (ptrNbrs mz1 s).foldl (relaxOne e 0) (mz1, [])
          astarLoop e f st.1 st.2 := rfl
    have hloop : astarLoop e (f + 1) (resetMaze mz) [⟨0, hArg s e, s⟩] =
        some (updateCell (resetMaze mz) s
          (fun c => { c with visited := true, distance := some 0 })) := by
      rw [step1, hvis]
      simp only [Bool.false_eq_true, if_false]
      rw [hnbrs]
      simp only [List.foldl_nil]
      exact astarLoop_nil e f _
    have hdist : (cellAt (updateCell (resetMaze mz) s
        (fun c => { c with visited := true, distance := some 0 })) e).distance
        = none := by
      rw [cellAt_updateCell]
      split
      · rename_i hc
        exact absurd hc.1.symm hne
      · rw [cellAt_resetMaze]
    exact ⟨_, hpart2 (f + 1) rf mz s e _ hloop hdist⟩

/-! ### C9: the generator establishes the adjacency invariant -/

theorem dims_row {mz : Maze} {rows cols r : Nat} (h : Dims mz rows cols)
    (hr : r < rows) : (mz.getD r []).length = cols :=
  (h.2 r).resolve_right (by omega)

theorem dims_emptyMaze (rows cols : Nat) :
    Dims (emptyMaze rows cols) rows cols := by
  constructor
  · simp [emptyMaze]
  · intro r
    unfold emptyMaze
    rw [List.map_const', List.length_range, getD_replicate_ite]
    split
    · left; simp
    · rename_i hge
      right; omega

theorem mutual_emptyMaze (rows cols : Nat) :
    Mutual (emptyMaze rows cols) rows cols := by
  intro r c _ _
  refine ⟨?_, ?_, ?_, ?_⟩ <;> intro q hq <;>
    rw [cellAt_emptyMaze] at hq <;> exact absurd hq (by simp)

theorem connRight_mutual {mz : Maze} {rows cols r c : Nat}
    (hd : Dims mz rows cols) (hm : Mutual mz rows cols)
    (hr : r < rows) (hc : c + 1 < cols) :
    Mutual (updateCell (updateCell mz (r, c)
        (fun cc => { cc with right := some (r, c + 1) })) (r, c + 1)
        (fun cc => { cc with left := some (r, c) })) rows cols := by
  have hAbound : (r, c).1 < mz.length ∧ (r, c).2 < (mz.getD r []).length := by
    rw [hd.1, dims_row hd hr]
    exact ⟨hr, by omega⟩
  have hB1 : (r, c + 1).1 < (updateCell mz (r, c)
      (fun cc => { cc with right := some (r, c + 1) })).length := by
    rw [updateCell_length, hd.1]; exact hr
  have hB2 : (r, c + 1).2 < ((updateCell mz (r, c)
      (fun cc => { cc with right := some (r, c + 1) })).getD r []).length := by
    rw [updateCell_rowLength, dims_row hd hr]; exact hc
  have hcellN : ∀ q : Coord,
      cellAt (updateCell (updateCell mz (r, c)
        (fun cc => { cc with right := some (r, c + 1) })) (r, c + 1)
        (fun cc => { cc with left := some (r, c) })) q =
      if q = (r, c + 1) then
        { cellAt mz (r, c + 1) with left := some (r, c) }
      else if q = (r, c) then
        { cellAt mz (r, c) with right := some (r, c + 1) }
      else cellAt mz q := by
    intro q
    rw [cellAt_updateCell]
    by_cases hqB : q = (r, c + 1)
    · rw [if_pos ⟨hqB, hB1, hB2⟩, if_pos hqB]
      rw [cellAt_updateCell]
      rw [if_neg (fun hcon => by
        have h1 : ((r, c + 1) : Coord) = (r, c) := hcon.1
        simp only [Prod.mk.injEq] at h1
        omega)]
    · rw [if_neg (fun hcon => hqB hcon.1), if_neg hqB]
      rw [cellAt_updateCell]
      by_cases hqA : q = (r, c)
      · rw [if_pos ⟨hqA, hAbound⟩, if_pos hqA]
      · rw [if_neg (fun hcon => hqA hcon.1), if_neg hqA]
  have hright : ∀ p : Coord,
      (cellAt (updateCell (updateCell mz (r, c)
        (fun cc => { cc with right := some (r, c + 1) })) (r, c + 1)
        (fun cc => { cc with left := some (r, c) })) p).right =
      if p = (r, c) then some (r, c + 1) else (cellAt mz p).right := by
    intro p
    rw [hcellN p]
    split_ifs with h1 h2
    · exfalso; rw [h2] at h1; simp only [Prod.mk.injEq] at h1; omega
    · subst h1; rfl
    · rfl
    · rfl
  have hleft : ∀ p : Coord,
      (cellAt (updateCell (updateCell mz (r, c)
        (fun cc => { cc with right := some (r, c + 1) })) (r, c + 1)
        (fun cc => { cc with left := some (r, c) })) p).left =
      if p = (r, c + 1) then some (r, c) else (cellAt mz p).left := by
    intro p
    rw [hcellN p]
    split_ifs with h1 h2
    · rfl
    · subst h2; rfl
    · rfl
  have hdown : ∀ p : Coord,
      (cellAt (updateCell (updateCell mz (r, c)
        (fun cc => { cc with right := some (r, c + 1) })) (r, c + 1)
        (fun cc => { cc with left := some (r, c) })) p).down =
      (cellAt mz p).down := by
    intro p
    rw [hcellN p]
    split_ifs with h1 h2
    · subst h1; rfl
    · subst h2; rfl
    · rfl
  have hup : ∀ p : Coord,
      (cellAt (updateCell (updateCell mz (r, c)
        (fun cc => { cc with right := some (r, c + 1) })) (r, c + 1)
        (fun cc => { cc with left := some (r, c) })) p).up =
      (cellAt mz p).up := by
    intro p
    rw [hcellN p]
    split_ifs with h1 h2
    · subst h1; rfl
    · subst h2; rfl
    · rfl
  intro r' c' hr' hc'
  refine ⟨?_, ?_, ?_, ?_⟩
  · intro q hq
    rw [hright] at hq
    by_cases hA : ((r', c') : Coord) = (r, c)
    · rw [if_pos hA] at hq
      simp only [Option.some.injEq] at hq
      have e : r' = r ∧ c' = c := by
        simpa [Prod.mk.injEq] using hA
      refine ⟨by rw [← hq, e.1, e.2], by omega, ?_⟩
      rw [hleft, if_pos (by simp [Prod.mk.injEq, e.1, e.2])]
      rw [e.1, e.2]
    · rw [if_neg hA] at hq
      obtain ⟨hq1, hq2, hq3⟩ := (hm r' c' hr' hc').1 q hq
      refine ⟨hq1, hq2, ?_⟩
      rw [hleft, if_neg (by
        intro hcon
        apply hA
        simp only [Prod.mk.injEq] at hcon ⊢
        omega)]
      exact hq3
  · intro q hq
    rw [hleft] at hq
    by_cases hB : ((r', c') : Coord) = (r, c + 1)
    · rw [if_pos hB] at hq
      simp only [Option.some.injEq] at hq
      have e : r' = r ∧ c' = c + 1 := by
        simpa [Prod.mk.injEq] using hB
      refine ⟨by rw [← hq, e.1, e.2]; simp only [Nat.add_sub_cancel],
        by omega, ?_⟩
      rw [hright, if_pos (by simp only [Prod.mk.injEq]; omega)]
      rw [e.1, e.2]
    · rw [if_neg hB] at hq
      obtain ⟨hq1, hq2, hq3⟩ := (hm r' c' hr' hc').2.1 q hq
      refine ⟨hq1, hq2, ?_⟩
      rw [hright]
      by_cases hP : ((r', c' - 1) : Coord) = (r, c)
      · exfalso
        obtain ⟨hx1, hx2, hx3⟩ := (hm r c hr (by omega)).1 (r', c')
          (by rw [← hP]; exact hq3)
        exact hB hx1
      · rw [if_neg hP]
        exact hq3
  · intro q hq
    rw [hdown] at hq
    obtain ⟨hq1, hq2, hq3⟩ := (hm r' c' hr' hc').2.2.1 q hq
    refine ⟨hq1, hq2, ?_⟩
    rw [hup]
    exact hq3
  · intro q hq
    rw [hup] at hq
    obtain ⟨hq1, hq2, hq3⟩ := (hm r' c' hr' hc').2.2.2 q hq
    refine ⟨hq1, hq2, ?_⟩
    rw [hdown]
    exact hq3

theorem connDown_mutual {mz : Maze} {rows cols r c : Nat}
    (hd : Dims mz rows cols) (hm : Mutual mz rows cols)
    (hr : r + 1 < rows) (hc : c < cols) :
    Mutual (updateCell (updateCell mz (r, c)
        (fun cc => { cc with down := some (r + 1, c) })) (r + 1, c)
        (fun cc => { cc with up := some (r, c) })) rows cols := by
  have hAbound : (r, c).1 < mz.length ∧ (r, c).2 < (mz.getD r []).length := by
    rw [hd.1, dims_row hd (by omega)]
    exact ⟨by omega, hc⟩
  have hB1 : (r + 1, c).1 < (updateCell mz (r, c)
      (fun cc => { cc with down := some (r + 1, c) })).length := by
    rw [updateCell_length, hd.1]; exact hr
  have hB2 : (r + 1, c).2 < ((updateCell mz (r, c)
      (fun cc => { cc with down := some (r + 1, c) })).getD (r + 1) []).length := by
    rw [updateCell_rowLength, dims_row hd hr]; exact hc
  have hcellN : ∀ q : Coord,
      cellAt (updateCell (updateCell mz (r, c)
        (fun cc => { cc with down := some (r + 1, c) })) (r + 1, c)
        (fun cc => { cc with up := some (r, c) })) q =
      if q = (r + 1, c) then
        { cellAt mz (r + 1, c) with up := some (r, c) }
      else if q = (r, c) then
        { cellAt mz (r, c) with down := some (r + 1, c) }
      else cellAt mz q := by
    intro q
    rw [cellAt_updateCell]
    by_cases hqB : q = (r + 1, c)
    · rw [if_pos ⟨hqB, hB1, hB2⟩, if_pos hqB]
      rw [cellAt_updateCell]
      rw [if_neg (fun hcon => by
        have h1 : ((r + 1, c) : Coord) = (r, c) := hcon.1
        simp only [Prod.mk.injEq] at h1
        omega)]
    · rw [if_neg (fun hcon => hqB hcon.1), if_neg hqB]
      rw [cellAt_updateCell]
      by_cases hqA : q = (r, c)
      · rw [if_pos ⟨hqA, hAbound⟩, if_pos hqA]
      · rw [if_neg (fun hcon => hqA hcon.1), if_neg hqA]
  have hdown : ∀ p : Coord,
      (cellAt (updateCell (updateCell mz (r, c)
        (fun cc => { cc with down := some (r + 1, c) })) (r + 1, c)
        (fun cc => { cc with up := some (r, c) })) p).down =
      if p = (r, c) then some (r + 1, c) else (cellAt mz p).down := by
    intro p
    rw [hcellN p]
    split_ifs with h1 h2
    · exfalso; rw [h2] at h1; simp only [Prod.mk.injEq] at h1; omega
    · subst h1; rfl
    · rfl
    · rfl
  have hup : ∀ p : Coord,
      (cellAt (updateCell (updateCell mz (r, c)
        (fun cc => { cc with down := some (r + 1, c) })) (r + 1, c)
        (fun cc => { cc with up := some (r, c) })) p).up =
      if p = (r + 1, c) then some (r, c) else (cellAt mz p).up := by
    intro p
    rw [hcellN p]
    split_ifs with h1 h2
    · rfl
    · subst h2; rfl
    · rfl
  have hright : ∀ p : Coord,
      (cellAt (updateCell (updateCell mz (r, c)
        (fun cc => { cc with down := some (r + 1, c) })) (r + 1, c)
        (fun cc => { cc with up := some (r, c) })) p).right =
      (cellAt mz p).right := by
    intro p
    rw [hcellN p]
    split_ifs with h1 h2
    · subst h1; rfl
    · subst h2; rfl
    · rfl
  have hleft : ∀ p : Coord,
      (cellAt (updateCell (updateCell mz (r, c)
        (fun cc => { cc with down := some (r + 1, c) })) (r + 1, c)
        (fun cc => { cc with up := some (r, c) })) p).left =
      (cellAt mz p).left := by
    intro p
    rw [hcellN p]
    split_ifs with h1 h2
    · subst h1; rfl
    · subst h2; rfl
    · rfl
  intro r' c' hr' hc'
  refine ⟨?_, ?_, ?_, ?_⟩
  · intro q hq
    rw [hright] at hq
    obtain ⟨hq1, hq2, hq3⟩ := (hm r' c' hr' hc').1 q hq
    refine ⟨hq1, hq2, ?_⟩
    rw [hleft]
    exact hq3
  · intro q hq
    rw [hleft] at hq
    obtain ⟨hq1, hq2, hq3⟩ := (hm r' c' hr' hc').2.1 q hq
    refine ⟨hq1, hq2, ?_⟩
    rw [hright]
    exact hq3
  · intro q hq
    rw [hdown] at hq
    by_cases hA : ((r', c') : Coord) = (r, c)
    · rw [if_pos hA] at hq
      simp only [Option.some.injEq] at hq
      have e : r' = r ∧ c' = c := by
        simpa [Prod.mk.injEq] using hA
      refine ⟨by rw [← hq, e.1, e.2], by omega, ?_⟩
      rw [hup, if_pos (by simp [Prod.mk.injEq, e.1, e.2])]
      rw [e.1, e.2]
    · rw [if_neg hA] at hq
      obtain ⟨hq1, hq2, hq3⟩ := (hm r' c' hr' hc').2.2.1 q hq
      refine ⟨hq1, hq2, ?_⟩
      rw [hup, if_neg (by
        intro hcon
        apply hA
        simp only [Prod.mk.injEq] at hcon ⊢
        omega)]
      exact hq3
  · intro q hq
    rw [hup] at hq
    by_cases hB : ((r', c') : Coord) = (r + 1, c)
    · rw [if_pos hB] at hq
      simp only [Option.some.injEq] at hq
      have e : r' = r + 1 ∧ c' = c := by
        simpa [Prod.mk.injEq] using hB
      refine ⟨by rw [← hq, e.1, e.2]; simp only [Nat.add_sub_cancel],
        by omega, ?_⟩
      rw [hdown, if_pos (by simp only [Prod.mk.injEq]; omega)]
      rw [e.1, e.2]
    · rw [if_neg hB] at hq
      obtain ⟨hq1, hq2, hq3⟩ := (hm r' c' hr' hc').2.2.2 q hq
      refine ⟨hq1, hq2, ?_⟩
      rw [hdown]
      by_cases hP : ((r' - 1, c') : Coord) = (r, c)
      · exfalso
        obtain ⟨hx1, hx2, hx3⟩ := (hm r c (by omega) (by omega)).2.2.1 (r', c')
          (by rw [← hP]; exact hq3)
        exact hB hx1
      · rw [if_neg hP]
        exact hq3

theorem connectStep_cases (rows cols : Nat) (rs : Rand) (st : Maze × Nat)
    (rc : Coord) :
    (connectStep rows cols rs st rc).1 = st.1 ∨
    (rc.2 + 1 < cols ∧ (connectStep rows cols rs st rc).1 =
      updateCell (updateCell st.1 (rc.1, rc.2)
        (fun cc => { cc with right := some (rc.1, rc.2 + 1) })) (rc.1, rc.2 + 1)
        (fun cc => { cc with left := some (rc.1, rc.2) })) ∨
    (rc.1 + 1 < rows ∧ (connectStep rows cols rs st rc).1 =
      updateCell (updateCell st.1 (rc.1, rc.2)
        (fun cc => { cc with down := some (rc.1 + 1, rc.2) })) (rc.1 + 1, rc.2)
        (fun cc => { cc with up := some (rc.1, rc.2) })) ∨
    (rc.2 + 1 < cols ∧ rc.1 + 1 < rows ∧ (connectStep rows cols rs st rc).1 =
      updateCell (updateCell (updateCell (updateCell st.1 (rc.1, rc.2)
        (fun cc => { cc with right := some (rc.1, rc.2 + 1) })) (rc.1, rc.2 + 1)
        (fun cc => { cc with left := some (rc.1, rc.2) })) (rc.1, rc.2)
        (fun cc => { cc with down := some (rc.1 + 1, rc.2) })) (rc.1 + 1, rc.2)
        (fun cc => { cc with up := some (rc.1, rc.2) })) := by
  unfold connectStep
  dsimp only
  repeat' split
  all_goals
    first
      | (left; rfl)
      | (right; left; exact ⟨by assumption, rfl⟩)
      | (right; right; left; exact ⟨by assumption, rfl⟩)
      | (right; right; right; exact ⟨by assumption, by assumption, rfl⟩)

theorem connectStep_wf (rows cols : Nat) (rs : Rand) (st : Maze × Nat)
    (rc : Coord) (hd : Dims st.1 rows cols) (hm : Mutual st.1 rows cols) :
    Dims (connectStep rows cols rs st rc).1 rows cols ∧
    Mutual (connectStep rows cols rs st rc).1 rows cols := by
  rcases connectStep_cases rows cols rs st rc with h | ⟨hcc, h⟩ | ⟨hrr, h⟩ |
    ⟨hcc, hrr, h⟩
  · rw [h]; exact ⟨hd, hm⟩
  · rw [h]
    by_cases hr1 : rc.1 < rows
    · exact ⟨dims_updateCell _ _ (dims_updateCell _ _ hd),
        connRight_mutual hd hm hr1 hcc⟩
    · have h1 : updateCell st.1 (rc.1, rc.2)
          (fun cc => { cc with right := some (rc.1, rc.2 + 1) }) = st.1 :=
        updateCell_out _ _ _ (by
          intro hcon
          rw [hd.1] at hcon
          exact hr1 hcon.1)
      rw [h1]
      have h2 : updateCell st.1 (rc.1, rc.2 + 1)
          (fun cc => { cc with left := some (rc.1, rc.2) }) = st.1 :=
        updateCell_out _ _ _ (by
          intro hcon
          rw [hd.1] at hcon
          exact hr1 hcon.1)
      rw [h2]
      exact ⟨hd, hm⟩
  · rw [h]
    by_cases hc1 : rc.2 < cols
    · exact ⟨dims_updateCell _ _ (dims_updateCell _ _ hd),
        connDown_mutual hd hm hrr hc1⟩
    · have h1 : updateCell st.1 (rc.1, rc.2)
          (fun cc => { cc with down := some (rc.1 + 1, rc.2) }) = st.1 :=
        updateCell_out _ _ _ (by
          intro hcon
          by_cases hb : rc.1 < rows
          · rw [dims_row hd hb] at hcon
            exact hc1 hcon.2
          · rw [hd.1] at hcon
            exact hb hcon.1)
      rw [h1]
      have h2 : updateCell st.1 (rc.1 + 1, rc.2)
          (fun cc => { cc with up := some (rc.1, rc.2) }) = st.1 :=
        updateCell_out _ _ _ (by
          intro hcon
          rw [dims_row hd (by rw [← hd.1]; exact hcon.1)] at hcon
          exact hc1 hcon.2)
      rw [h2]
      exact ⟨hd, hm⟩
  · rw [h]
    have hstep1 := connRight_mutual hd hm (by omega : rc.1 < rows) hcc
    have hdims1 : Dims (updateCell (updateCell st.1 (rc.1, rc.2)
        (fun cc => { cc with right := some (rc.1, rc.2 + 1) })) (rc.1, rc.2 + 1)
        (fun cc => { cc with left := some (rc.1, rc.2) })) rows cols :=
      dims_updateCell _ _ (dims_updateCell _ _ hd)
    by_cases hc1 : rc.2 < cols
    · exact ⟨dims_updateCell _ _ (dims_updateCell _ _ hdims1),
        connDown_mutual hdims1 hstep1 hrr hc1⟩
    · exact absurd (by omega : rc.2 < cols) hc1

theorem connectFold_wf (rows cols : Nat) (rs : Rand) :
    ∀ (l : List Coord) (st : Maze × Nat), Dims st.1 rows cols →
      Mutual st.1 rows cols →
      Dims ((l.foldl (connectStep rows cols rs) st).1) rows cols ∧
      Mutual ((l.foldl (connectStep rows cols rs) st).1) rows cols := by
  intro l
  induction l with
  | nil => intro st hd hm; exact ⟨hd, hm⟩
  | cons a t ih =>
    intro st hd hm
    rw [List.foldl_cons]
    have := connectStep_wf rows cols rs st a hd hm
    exact ih _ this.1 this.2

theorem mutual_updateCell_enemy {mz : Maze} {rows cols : Nat} (p : Coord)
    (hm : Mutual mz rows cols) :
    Mutual (updateCell mz p (fun cc => { cc with is_enemy := true })) rows cols := by
  have hfield : ∀ q : Coord,
      (cellAt (updateCell mz p (fun cc => { cc with is_enemy := true })) q).left
        = (cellAt mz q).left ∧
      (cellAt (updateCell mz p (fun cc => { cc with is_enemy := true })) q).right
        = (cellAt mz q).right ∧
      (cellAt (updateCell mz p (fun cc => { cc with is_enemy := true })) q).up
        = (cellAt mz q).up ∧
      (cellAt (updateCell mz p (fun cc => { cc with is_enemy := true })) q).down
        = (cellAt mz q).down := by
    intro q
    rw [cellAt_updateCell]
    split
    · rename_i hcon
      rw [hcon.1]
      exact ⟨rfl, rfl, rfl, rfl⟩
    · exact ⟨rfl, rfl, rfl, rfl⟩
  intro r' c' hr' hc'
  obtain ⟨o1, o2, o3, o4⟩ := hm r' c' hr' hc'
  refine ⟨?_, ?_, ?_, ?_⟩
  · intro q hq
    rw [(hfield _).2.1] at hq
    obtain ⟨a, b, cc⟩ := o1 q hq
    exact ⟨a, b, by rw [(hfield _).1]; exact cc⟩
  · intro q hq
    rw [(hfield _).1] at hq
    obtain ⟨a, b, cc⟩ := o2 q hq
    exact ⟨a, b, by rw [(hfield _).2.1]; exact cc⟩
  · intro q hq
    rw [(hfield _).2.2.2] at hq
    obtain ⟨a, b, cc⟩ := o3 q hq
    exact ⟨a, b, by rw [(hfield _).2.2.1]; exact cc⟩
  · intro q hq
    rw [(hfield _).2.2.1] at hq
    obtain ⟨a, b, cc⟩ := o4 q hq
    exact ⟨a, b, by rw [(hfield _).2.2.2]; exact cc⟩

theorem enemiesLoop_wf (rows cols : Nat) (rs : Rand) :
    ∀ (n : Nat) (mz : Maze) (k : Nat) (mz' : Maze) (k' : Nat),
      enemiesLoop rows cols rs n mz k = .ok (mz', k') →
      Dims mz rows cols → Mutual mz rows cols →
      Dims mz' rows cols ∧ Mutual mz' rows cols := by
  intro n
  induction n with
  | zero =>
    intro mz k mz' k' h hd hm
    simp only [enemiesLoop, Except.ok.injEq, Prod.mk.injEq] at h
    rw [← h.1]
    exact ⟨hd, hm⟩
  | succ m ih =>
    intro mz k mz' k' h hd hm
    simp only [enemiesLoop] at h
    cases h1 : randint 0 ((rows : Int) - 1) rs k with
    | error e => rw [h1] at h; exact absurd h (by simp [Bind.bind, Except.bind])
    | ok rk =>
      rw [h1] at h
      simp only [Bind.bind, Except.bind] at h
      cases h2 : randint 0 ((cols : Int) - 1) rs rk.2 with
      | error e => rw [h2] at h; exact absurd h (by simp)
      | ok ck =>
        rw [h2] at h
        simp only [Except.bind] at h
        exact ih _ _ _ _ h (dims_updateCell _ _ hd)
          (mutual_updateCell_enemy _ hm)

/-- C9.  Every grid `generate_random_maze` produces - any dimensions, any
draw sequence - is rectangular, every adjacency is mutual and axis-aligned,
and no adjacency crosses the bounds; in particular the rightmost column has
no rightward adjacency and the bottom row no downward one. -/
theorem generated_adjacency_mutual (rows cols num : Nat) (rs : Rand)
    (k : Nat) (mz' : Maze) (k' : Nat)
    (h : generate_random_maze rows cols num rs k = .ok (mz', k')) :
    Mutual mz' rows cols ∧ Dims mz' rows cols ∧
    (∀ r c, r < rows → c + 1 = cols → (cellAt mz' (r, c)).right = none) ∧
    (∀ r c, r + 1 = rows → c < cols → (cellAt mz' (r, c)).down = none) := by
  unfold generate_random_maze at h
  have hfold := connectFold_wf rows cols rs (rowMajor rows cols)
    (emptyMaze rows cols, k) (dims_emptyMaze rows cols)
    (mutual_emptyMaze rows cols)
  obtain ⟨hd, hm⟩ := enemiesLoop_wf rows cols rs num _ _ _ _ h hfold.1 hfold.2
  refine ⟨hm, hd, ?_, ?_⟩
  · intro r c hr hc
    cases hright : (cellAt mz' (r, c)).right with
    | none => rfl
    | some q =>
      obtain ⟨-, hb, -⟩ := (hm r c hr (by omega)).1 q hright
      omega
  · intro r c hr hc
    cases hdown : (cellAt mz' (r, c)).down with
    | none => rfl
    | some q =>
      obtain ⟨-, hb, -⟩ := (hm r c (by omega) hc).2.2.1 q hdown
      omega

/-- Closed witness for C9 on a concrete 2 × 2 generation. -/
theorem generated_adjacency_mutual_witness :
    Mutual c4wMaze 2 2 ∧ Dims c4wMaze 2 2 ∧
    (∀ r c, r < 2 → c + 1 = 2 → (cellAt c4wMaze (r, c)).right = none) ∧
    (∀ r c, r + 1 = 2 → c < 2 → (cellAt c4wMaze (r, c)).down = none) :=
  generated_adjacency_mutual 2 2 1 zRand 0 c4wMaze c4wK rfl

/-! ### Heap permutation lemmas -/

theorem swap_set_perm {α : Type} :
    ∀ (t : List α) (n : Nat) (y z : α), n < t.length →
      List.Perm (y :: t.set n z) (z :: t.set n y) := by
  intro t
  induction t with
  | nil => intro n y z h; simp at h
  | cons b t' ih =>
    intro n y z h
    cases n with
    | zero => exact List.Perm.swap _ _ _
    | succ k =>
      have hk : k < t'.length := by simpa using h
      simp only [List.set]
      exact ((List.Perm.swap b y _).trans
        (List.Perm.cons b (ih k y z hk))).trans (List.Perm.swap z b _)

theorem set_set_perm {α : Type} (d : α) :
    ∀ (l : List α) (i j : Nat) (x : α), i ≠ j → i < l.length →
      j < l.length →
      List.Perm ((l.set i (l.getD j d)).set j x) (l.set i x) := by
  intro l
  induction l with
  | nil => intro i j x _ h _; simp at h
  | cons a t ih =>
    intro i j x hij hi hj
    cases i with
    | zero =>
      cases j with
      | zero => exact absurd rfl hij
      | succ m =>
        have hm : m < t.length := by simpa using hj
        simp only [List.getD_cons_succ, List.set]
        have h1 := swap_set_perm t m (t.getD m d) x hm
        rw [set_getD_self t m d] at h1
        exact h1
    | succ n =>
      cases j with
      | zero =>
        have hn : n < t.length := by simpa using hi
        simp only [List.getD_cons_zero, List.set]
        exact swap_set_perm t n x a hn
      | succ m =>
        simp only [List.getD_cons_succ, List.set]
        exact List.Perm.cons a (ih n m x (fun hh => hij (by rw [hh]))
          (by simpa using hi) (by simpa using hj))

theorem siftdownLoop_perm (cmp : PQEntry → PQEntry → Bool) (newitem : PQEntry) :
    ∀ (fuel : Nat) (heap : List PQEntry) (startpos pos : Nat),
      pos < heap.length →
      List.Perm (siftdownLoop cmp newitem fuel heap startpos pos)
        (heap.set pos newitem) := by
  intro fuel
  induction fuel with
  | zero => intro heap startpos pos _; exact List.Perm.refl _
  | succ f ih =>
    intro heap startpos pos hpos
    rw [siftdownLoop]
    split
    · rename_i hlt
      dsimp only
      split
      · rename_i hcmp
        have hdivle : (pos - 1) / 2 ≤ pos - 1 := Nat.div_le_self _ _
        have hpp : (pos - 1) / 2 < (heap.set pos
            (heap.getD ((pos - 1) / 2) pqDefault)).length := by
          rw [List.length_set]; omega
        refine (ih _ _ _ hpp).trans ?_
        exact set_set_perm pqDefault heap pos ((pos - 1) / 2) newitem
          (by omega) hpos (by omega)
      · exact List.Perm.refl _
    · exact List.Perm.refl _

theorem set_concat_self {α : Type} :
    ∀ (l : List α) (a : α), (l ++ [a]).set l.length a = l ++ [a] := by
  intro l
  induction l with
  | nil => intro a; rfl
  | cons b t ih =>
    intro a
    simp only [List.cons_append, List.length_cons, List.set, List.append_eq]
    rw [ih a]

theorem heapPush_perm (cmp : PQEntry → PQEntry → Bool) (heap : List PQEntry)
    (item : PQEntry) : List.Perm (heapPush cmp heap item) (item :: heap) := by
  unfold heapPush
  have h1 := siftdownLoop_perm cmp item heap.length (heap ++ [item]) 0
    heap.length (by simp)
  rw [set_concat_self] at h1
  exact h1.trans (List.perm_append_singleton _ _)

theorem siftupLoop_spec (cmp : PQEntry → PQEntry → Bool) :
    ∀ (fuel : Nat) (heap : List PQEntry) (pos : Nat), pos < heap.length →
      (siftupLoop cmp fuel heap pos).2 < heap.length ∧
      (siftupLoop cmp fuel heap pos).1.length = heap.length ∧
      ∀ x, List.Perm ((siftupLoop cmp fuel heap pos).1.set
        (siftupLoop cmp fuel heap pos).2 x) (heap.set pos x) := by
  intro fuel
  induction fuel with
  | zero =>
    intro heap pos hpos
    exact ⟨hpos, rfl, fun x => List.Perm.refl _⟩
  | succ f ih =>
    intro heap pos hpos
    rw [siftupLoop]
    dsimp only
    split
    · rename_i hchild
      set cp := if 2 * pos + 1 + 1 < heap.length &&
          !(cmp (heap.getD (2 * pos + 1) pqDefault)
            (heap.getD (2 * pos + 1 + 1) pqDefault)) then
          2 * pos + 1 + 1
        else 2 * pos + 1 with hcp
      have hcplt : cp < heap.length := by
        rw [hcp]
        split
        · rename_i hcc
          simp only [Bool.and_eq_true, decide_eq_true_eq] at hcc
          exact hcc.1
        · exact hchild
      have hcpos : pos < cp := by
        rw [hcp]
        split <;> omega
      have hrec := ih (heap.set pos (heap.getD cp pqDefault)) cp
        (by rw [List.length_set]; exact hcplt)
      obtain ⟨r1, r2, r3⟩ := hrec
      rw [List.length_set] at r1 r2
      refine ⟨r1, r2, fun x => ?_⟩
      refine (r3 x).trans ?_
      exact set_set_perm pqDefault heap pos cp x (by omega) hpos hcplt
    · exact ⟨hpos, rfl, fun x => List.Perm.refl _⟩

theorem siftup_perm (cmp : PQEntry → PQEntry → Bool) (heap : List PQEntry)
    (pos : Nat) (hpos : pos < heap.length) :
    List.Perm (siftup cmp heap pos) heap := by
  unfold siftup
  obtain ⟨r1, r2, r3⟩ := siftupLoop_spec cmp heap.length heap pos hpos
  have h1 := siftdownLoop_perm cmp (heap.getD pos pqDefault)
    (siftupLoop cmp heap.length heap pos).2
    (siftupLoop cmp heap.length heap pos).1 pos
    (siftupLoop cmp heap.length heap pos).2 (by rw [r2]; exact r1)
  refine h1.trans ?_
  refine (r3 (heap.getD pos pqDefault)).trans ?_
  rw [set_getD_self]

theorem heapPop_perm (cmp : PQEntry → PQEntry → Bool) (heap : List PQEntry)
    (hne : heap ≠ []) :
    ∃ e h', heapPop cmp heap = some (e, h') ∧ List.Perm heap (e :: h') := by
  cases heap with
  | nil => exact absurd rfl hne
  | cons x xs =>
    cases hxs : xs.reverse with
    | nil =>
      have hx : xs = [] := by
        have := congrArg List.reverse hxs
        simpa using this
      subst hx
      exact ⟨x, [], rfl, List.Perm.refl _⟩
    | cons b t =>
      have h1 : xs = t.reverse ++ [b] := by
        have := congrArg List.reverse hxs
        simpa using this
      have hxx : x :: xs = (x :: t.reverse) ++ [b] := by rw [h1]; rfl
      have hlast : (x :: xs).getLastD pqDefault = b := by
        rw [hxx]; exact List.getLastD_concat _ _ _
      have hdrop : (x :: xs).dropLast = x :: t.reverse := by
        rw [hxx]
        exact List.dropLast_concat ..
      refine ⟨x, siftup cmp ((x :: xs).dropLast.set 0
        ((x :: xs).getLastD pqDefault)) 0, ?_, ?_⟩
      · unfold heapPop
        dsimp only
        rw [hdrop]
      · rw [hlast, hdrop]
        have hperm := siftup_perm cmp ((x :: t.reverse).set 0 b) 0 (by simp)
        have h3 : (x :: t.reverse).set 0 b = b :: t.reverse := rfl
        rw [h3] at hperm
        have h2 : List.Perm xs (b :: t.reverse) := by
          rw [h1]; exact List.perm_append_singleton _ _
        exact List.Perm.cons x (h2.trans hperm.symm)

/-! ### Shape preservation and idempotence (C8) -/

theorem list_ext_getD {α : Type} (d : α) :
    ∀ (l l' : List α), l.length = l'.length →
      (∀ i, l.getD i d = l'.getD i d) → l = l' := by
  intro l
  induction l with
  | nil =>
    intro l' hlen _
    cases l' with
    | nil => rfl
    | cons b t' => simp at hlen
  | cons a t ih =>
    intro l' hlen h
    cases l' with
    | nil => simp at hlen
    | cons b t' =>
      have h0 := h 0
      simp only [List.getD_cons_zero] at h0
      subst h0
      have ht : t = t' := ih t' (by simpa using hlen) (fun i => h (i + 1))
      rw [ht]

theorem shapeEq_refl (mz : Maze) : ShapeEq mz mz :=
  ⟨rfl, fun _ => rfl, fun _ => ⟨rfl, rfl, rfl, rfl, rfl⟩⟩

theorem shapeEq_trans {mz1 mz2 mz3 : Maze} (h1 : ShapeEq mz1 mz2)
    (h2 : ShapeEq mz2 mz3) : ShapeEq mz1 mz3 := by
  obtain ⟨a1, b1, c1⟩ := h1
  obtain ⟨a2, b2, c2⟩ := h2
  refine ⟨a1.trans a2, fun r => (b1 r).trans (b2 r), fun p => ?_⟩
  obtain ⟨x1, x2, x3, x4, x5⟩ := c1 p
  obtain ⟨y1, y2, y3, y4, y5⟩ := c2 p
  exact ⟨x1.trans y1, x2.trans y2, x3.trans y3, x4.trans y4, x5.trans y5⟩

theorem shapeEq_resetMaze (mz : Maze) : ShapeEq mz (resetMaze mz) := by
  refine ⟨(resetMaze_length mz).symm, fun r => (resetMaze_rowLength mz r).symm,
    fun p => ?_⟩
  rw [cellAt_resetMaze]
  exact ⟨rfl, rfl, rfl, rfl, rfl⟩

theorem shapeEq_updateCell_vd (mz : Maze) (p : Coord) (f : Cell → Cell)
    (hf : ∀ c, (f c).left = c.left ∧ (f c).right = c.right ∧
      (f c).up = c.up ∧ (f c).down = c.down ∧ (f c).is_enemy = c.is_enemy) :
    ShapeEq mz (updateCell mz p f) := by
  refine ⟨(updateCell_length mz p f).symm,
    fun r => (updateCell_rowLength mz p f r).symm, fun q => ?_⟩
  rw [cellAt_updateCell]
  split
  · rename_i hc
    obtain ⟨h1, h2, h3, h4, h5⟩ := hf (cellAt mz p)
    rw [hc.1, h1, h2, h3, h4, h5]
    exact ⟨rfl, rfl, rfl, rfl, rfl⟩
  · exact ⟨rfl, rfl, rfl, rfl, rfl⟩

theorem resetMaze_congr (mz mz' : Maze) (h : ShapeEq mz mz') :
    resetMaze mz = resetMaze mz' := by
  obtain ⟨hlen, hrow, hcell⟩ := h
  apply list_ext_getD ([] : List Cell)
  · rw [resetMaze_length, resetMaze_length, hlen]
  · intro i
    have g1 := getD_map_fix (fun row : List Cell => row.map
      (fun c => { c with visited := false, distance := none })) mz i []
    have g2 := getD_map_fix (fun row : List Cell => row.map
      (fun c => { c with visited := false, distance := none })) mz' i []
    simp only [List.map_nil] at g1 g2
    show (resetMaze mz).getD i [] = (resetMaze mz').getD i []
    unfold resetMaze
    rw [g1, g2]
    apply list_ext_getD ({} : Cell)
    · rw [List.length_map, List.length_map]
      exact hrow i
    · intro j
      have c1 := getD_map_fix
        (fun c : Cell => { c with visited := false, distance := none })
        (mz.getD i []) j {}
      have c2 := getD_map_fix
        (fun c : Cell => { c with visited := false, distance := none })
        (mz'.getD i []) j {}
      rw [c1, c2]
      obtain ⟨h1, h2, h3, h4, h5⟩ := hcell (i, j)
      unfold cellAt at h1 h2 h3 h4 h5
      dsimp only at h1 h2 h3 h4 h5
      rw [show (mz.getD i []).getD j {} =
        { left := ((mz.getD i []).getD j {}).left,
          right := ((mz.getD i []).getD j {}).right,
          up := ((mz.getD i []).getD j {}).up,
          down := ((mz.getD i []).getD j {}).down,
          distance := ((mz.getD i []).getD j {}).distance,
          visited := ((mz.getD i []).getD j {}).visited,
          is_enemy := ((mz.getD i []).getD j {}).is_enemy } from rfl]
      rw [show (mz'.getD i []).getD j {} =
        { left := ((mz'.getD i []).getD j {}).left,
          right := ((mz'.getD i []).getD j {}).right,
          up := ((mz'.getD i []).getD j {}).up,
          down := ((mz'.getD i []).getD j {}).down,
          distance := ((mz'.getD i []).getD j {}).distance,
          visited := ((mz'.getD i []).getD j {}).visited,
          is_enemy := ((mz'.getD i []).getD j {}).is_enemy } from rfl]
      dsimp only
      rw [h1, h2, h3, h4, h5]

theorem relaxOne_shape (endc : Coord) (g : Nat) (st : Maze × List PQEntry)
    (q : Coord) : ShapeEq st.1 ((relaxOne endc g st q).1) := by
  unfold relaxOne
  dsimp only
  split
  · split
    · dsimp only
      exact shapeEq_updateCell_vd st.1 q
        (fun cc => { cc with distance := some (g + 1) })
        (fun c => ⟨rfl, rfl, rfl, rfl, rfl⟩)
    · exact shapeEq_refl _
  · exact shapeEq_refl _

theorem relaxFold_shape (endc : Coord) (g : Nat) :
    ∀ (l : List Coord) (st : Maze × List PQEntry),
      ShapeEq st.1 ((l.foldl (relaxOne endc g) st).1) := by
  intro l
  induction l with
  | nil => intro st; exact shapeEq_refl _
  | cons q t ih =>
    intro st
    rw [List.foldl_cons]
    exact shapeEq_trans (relaxOne_shape endc g st q) (ih _)

theorem astarLoop_shape (endc : Coord) :
    ∀ (fuel : Nat) (mz : Maze) (h : List PQEntry) (mz1 : Maze),
      astarLoop endc fuel mz h = some mz1 → ShapeEq mz mz1 := by
  intro fuel
  induction fuel with
  | zero =>
    intro mz h mz1 hl
    cases h with
    | nil =>
      simp only [astarLoop, Option.some.injEq] at hl
      rw [← hl]; exact shapeEq_refl mz
    | cons x xs => exact absurd hl (by simp [astarLoop])
  | succ f ih =>
    intro mz h mz1 hl
    cases h with
    | nil =>
      simp only [astarLoop, Option.some.injEq] at hl
      rw [← hl]; exact shapeEq_refl mz
    | cons x xs =>
      rw [astarLoop] at hl
      cases hp : heapPop (cmpEntry mz) (x :: xs) with
      | none =>
        rw [hp] at hl
        simp only [Option.some.injEq] at hl
        rw [← hl]; exact shapeEq_refl mz
      | some eh =>
        rw [hp] at hl
        by_cases hv : (cellAt mz eh.1.pos).visited
        · simp only [hv, if_true] at hl
          exact ih mz eh.2 mz1 hl
        · simp only [hv, Bool.false_eq_true, if_false] at hl
          refine shapeEq_trans ?_ (ih _ _ mz1 hl)
          exact shapeEq_trans
            (shapeEq_updateCell_vd mz eh.1.pos
              (fun c => { c with visited := true, distance := some eh.1.g })
              (fun c => ⟨rfl, rfl, rfl, rfl, rfl⟩))
            (relaxFold_shape endc eh.1.g _
              (updateCell mz eh.1.pos
                (fun c => { c with visited := true, distance := some eh.1.g }),
                eh.2))

theorem bool_eq_false {b : Bool} (h : ¬ b = true) : b = false := by
  cases b
  · rfl
  · exact absurd rfl h

/-! ### Real-number semantics of the float priorities -/

theorem sqrt_lt_split (a b D : ℝ) (ha : 0 ≤ a) (hb : 0 ≤ b) (hD : 0 ≤ D) :
    Real.sqrt a < D + Real.sqrt b ↔
      (a - D ^ 2 - b < 0 ∨ (a - D ^ 2 - b) ^ 2 < 4 * D ^ 2 * b) := by
  have hs : 0 ≤ Real.sqrt b := Real.sqrt_nonneg b
  have hq : Real.sqrt b ^ 2 = b := Real.sq_sqrt hb
  have key : Real.sqrt a < D + Real.sqrt b ↔
      a - D ^ 2 - b < 2 * D * Real.sqrt b := by
    rw [Real.sqrt_lt ha (by positivity)]
    constructor <;> intro h <;> nlinarith [hq, hs]
  rw [key]
  constructor
  · intro h
    by_cases hL : a - D ^ 2 - b < 0
    · exact Or.inl hL
    · push_neg at hL
      right
      have hpos : 0 < 2 * D * Real.sqrt b := lt_of_le_of_lt hL h
      nlinarith [mul_pos (sub_pos.mpr h)
        (by linarith : (0:ℝ) < 2 * D * Real.sqrt b + (a - D ^ 2 - b)), hq]
  · rintro (hL | hL)
    · have h0 : (0:ℝ) ≤ 2 * D * Real.sqrt b := by positivity
      linarith
    · by_contra hcon
      push_neg at hcon
      have h0 : (0:ℝ) ≤ 2 * D * Real.sqrt b := by positivity
      nlinarith [mul_le_mul hcon hcon h0 (le_trans h0 hcon), hq]

theorem add_lt_sqrt_split (a b E : ℝ) (ha : 0 ≤ a) (hb : 0 ≤ b) (hE : 0 ≤ E) :
    Real.sqrt a + E < Real.sqrt b ↔
      (0 < b - a - E ^ 2 ∧ 4 * E ^ 2 * a < (b - a - E ^ 2) ^ 2) := by
  have hs : 0 ≤ Real.sqrt a := Real.sqrt_nonneg a
  have hq : Real.sqrt a ^ 2 = a := Real.sq_sqrt ha
  have key : Real.sqrt a + E < Real.sqrt b ↔
      2 * E * Real.sqrt a < b - a - E ^ 2 := by
    rw [Real.lt_sqrt (by positivity)]
    constructor <;> intro h <;> nlinarith [hq, hs]
  rw [key]
  have h0 : (0:ℝ) ≤ 2 * E * Real.sqrt a := by positivity
  constructor
  · intro h
    refine ⟨lt_of_le_of_lt h0 h, ?_⟩
    nlinarith [mul_pos (sub_pos.mpr h)
      (by linarith : (0:ℝ) < (b - a - E ^ 2) + 2 * E * Real.sqrt a), hq]
  · rintro ⟨h1, h2⟩
    by_contra hcon
    push_neg at hcon
    nlinarith [mul_le_mul hcon hcon (le_of_lt h1) (le_trans (le_of_lt h1) hcon), hq]

theorem sqrt_eq_split (a b D : ℝ) (ha : 0 ≤ a) (hb : 0 ≤ b) (hD : 0 ≤ D) :
    Real.sqrt a = D + Real.sqrt b ↔
      (0 ≤ a - D ^ 2 - b ∧ (a - D ^ 2 - b) ^ 2 = 4 * D ^ 2 * b) := by
  have hs : 0 ≤ Real.sqrt b := Real.sqrt_nonneg b
  have hq : Real.sqrt b ^ 2 = b := Real.sq_sqrt hb
  have key : Real.sqrt a = D + Real.sqrt b ↔
      a - D ^ 2 - b = 2 * D * Real.sqrt b := by
    rw [Real.sqrt_eq_iff_eq_sq ha (by positivity)]
    constructor <;> intro h <;> nlinarith [hq, hs]
  rw [key]
  have h0 : (0:ℝ) ≤ 2 * D * Real.sqrt b := by positivity
  constructor
  · intro h
    refine ⟨by linarith, ?_⟩
    rw [h]
    linear_combination (4 * D ^ 2) * hq
  · rintro ⟨h1, h2⟩
    have hL : a - D ^ 2 - b = Real.sqrt ((a - D ^ 2 - b) ^ 2) :=
      (Real.sqrt_sq h1).symm
    have hT : Real.sqrt (4 * D ^ 2 * b) = 2 * D * Real.sqrt b := by
      rw [show 4 * D ^ 2 * b = (2 * D) ^ 2 * b by ring, Real.sqrt_mul
        (by positivity), Real.sqrt_sq (by positivity)]
    rw [hL, h2, hT]

theorem add_eq_sqrt_split (a b E : ℝ) (ha : 0 ≤ a) (hb : 0 ≤ b) (hE : 0 ≤ E) :
    Real.sqrt a + E = Real.sqrt b ↔
      (0 ≤ b - a - E ^ 2 ∧ 4 * E ^ 2 * a = (b - a - E ^ 2) ^ 2) := by
  have hs : 0 ≤ Real.sqrt a := Real.sqrt_nonneg a
  have hq : Real.sqrt a ^ 2 = a := Real.sq_sqrt ha
  have key : Real.sqrt a + E = Real.sqrt b ↔
      2 * E * Real.sqrt a = b - a - E ^ 2 := by
    constructor
    · intro h
      have hb' : Real.sqrt b ^ 2 = b := Real.sq_sqrt hb
      have hsq : (Real.sqrt a + E) ^ 2 = Real.sqrt b ^ 2 := by rw [h]
      nlinarith [hq, hb', hsq]
    · intro h
      have h2 : (Real.sqrt a + E) ^ 2 = b := by nlinarith [hq]
      rw [← h2, Real.sqrt_sq (by positivity)]
  rw [key]
  have h0 : (0:ℝ) ≤ 2 * E * Real.sqrt a := by positivity
  constructor
  · intro h
    refine ⟨by linarith, ?_⟩
    rw [← h]
    linear_combination (-(4 * E ^ 2)) * hq
  · rintro ⟨h1, h2⟩
    have hL : b - a - E ^ 2 = Real.sqrt ((b - a - E ^ 2) ^ 2) :=
      (Real.sqrt_sq h1).symm
    have hT : Real.sqrt (4 * E ^ 2 * a) = 2 * E * Real.sqrt a := by
      rw [show 4 * E ^ 2 * a = (2 * E) ^ 2 * a by ring, Real.sqrt_mul
        (by positivity), Real.sqrt_sq (by positivity)]
    rw [hL, ← h2, hT]

/-- `fLtB` decides the real comparison of the two priorities exactly. -/
theorem fLtB_iff (g1 m1 g2 m2 : Nat) :
    fLtB g1 m1 g2 m2 = true ↔
      (g1 : ℝ) + Real.sqrt (m1 : ℝ) < (g2 : ℝ) + Real.sqrt (m2 : ℝ) := by
  unfold fLtB
  by_cases hd : (0:ℤ) ≤ (g2 : ℤ) - (g1 : ℤ)
  · rw [if_pos hd]
    have hD : (0:ℝ) ≤ (g2 : ℝ) - (g1 : ℝ) := by exact_mod_cast hd
    have hsplit := sqrt_lt_split (m1 : ℝ) (m2 : ℝ) ((g2 : ℝ) - (g1 : ℝ))
      (by positivity) (by positivity) hD
    simp only [Bool.or_eq_true, decide_eq_true_eq]
    constructor
    · rintro (hL | hL)
      · have hL' : (m1 : ℝ) - ((g2 : ℝ) - (g1 : ℝ)) ^ 2 - (m2 : ℝ) < 0 := by
          exact_mod_cast hL
        have h3 := hsplit.mpr (Or.inl hL')
        linarith
      · have hL' : ((m1 : ℝ) - ((g2 : ℝ) - (g1 : ℝ)) ^ 2 - (m2 : ℝ)) ^ 2 <
            4 * ((g2 : ℝ) - (g1 : ℝ)) ^ 2 * (m2 : ℝ) := by
          exact_mod_cast hL
        have h3 := hsplit.mpr (Or.inr hL')
        linarith
    · intro h
      have h2 := hsplit.mp (by linarith)
      rcases h2 with hL | hL
      · exact Or.inl (by exact_mod_cast hL)
      · exact Or.inr (by exact_mod_cast hL)
  · rw [if_neg hd]
    push_neg at hd
    have hE : (0:ℝ) ≤ (g1 : ℝ) - (g2 : ℝ) := by
      have h9 : (g2 : ℝ) < (g1 : ℝ) := by exact_mod_cast (by omega : (g2 : ℤ) < (g1 : ℤ))
      linarith
    have hsplit := add_lt_sqrt_split (m1 : ℝ) (m2 : ℝ) ((g1 : ℝ) - (g2 : ℝ))
      (by positivity) (by positivity) hE
    simp only [Bool.and_eq_true, decide_eq_true_eq]
    constructor
    · rintro ⟨h1, h2⟩
      have h1' : 0 < (m2 : ℝ) - (m1 : ℝ) - ((g1 : ℝ) - (g2 : ℝ)) ^ 2 := by
        have h9 : (0:ℝ) < (m2 : ℝ) - (m1 : ℝ) - (-((g2 : ℝ) - (g1 : ℝ))) ^ 2 := by
          exact_mod_cast h1
        linarith [h9]
      have h2' : 4 * ((g1 : ℝ) - (g2 : ℝ)) ^ 2 * (m1 : ℝ) <
          ((m2 : ℝ) - (m1 : ℝ) - ((g1 : ℝ) - (g2 : ℝ)) ^ 2) ^ 2 := by
        have h9 : 4 * (-((g2 : ℝ) - (g1 : ℝ))) ^ 2 * (m1 : ℝ) <
            ((m2 : ℝ) - (m1 : ℝ) - (-((g2 : ℝ) - (g1 : ℝ))) ^ 2) ^ 2 := by
          exact_mod_cast h2
        have he : (-((g2 : ℝ) - (g1 : ℝ))) ^ 2 = ((g1 : ℝ) - (g2 : ℝ)) ^ 2 := by ring
        rw [he] at h9
        exact h9
      have h3 := hsplit.mpr ⟨h1', h2'⟩
      linarith
    · intro h
      have h2 := hsplit.mp (by linarith)
      constructor
      · have h9 : (0:ℝ) < (m2 : ℝ) - (m1 : ℝ) - (-((g2 : ℝ) - (g1 : ℝ))) ^ 2 := by
          have he : (-((g2 : ℝ) - (g1 : ℝ))) ^ 2 = ((g1 : ℝ) - (g2 : ℝ)) ^ 2 := by ring
          rw [he]
          exact h2.1
        exact_mod_cast h9
      · have h9 : 4 * (-((g2 : ℝ) - (g1 : ℝ))) ^ 2 * (m1 : ℝ) <
            ((m2 : ℝ) - (m1 : ℝ) - (-((g2 : ℝ) - (g1 : ℝ))) ^ 2) ^ 2 := by
          have he : (-((g2 : ℝ) - (g1 : ℝ))) ^ 2 = ((g1 : ℝ) - (g2 : ℝ)) ^ 2 := by ring
          rw [he]
          exact h2.2
        exact_mod_cast h9

/-- `fEqB` decides the real equality of the two priorities exactly. -/
theorem fEqB_iff (g1 m1 g2 m2 : Nat) :
    fEqB g1 m1 g2 m2 = true ↔
      (g1 : ℝ) + Real.sqrt (m1 : ℝ) = (g2 : ℝ) + Real.sqrt (m2 : ℝ) := by
  unfold fEqB
  by_cases hd : (0:ℤ) ≤ (g2 : ℤ) - (g1 : ℤ)
  · rw [if_pos hd]
    have hD : (0:ℝ) ≤ (g2 : ℝ) - (g1 : ℝ) := by exact_mod_cast hd
    have hsplit := sqrt_eq_split (m1 : ℝ) (m2 : ℝ) ((g2 : ℝ) - (g1 : ℝ))
      (by positivity) (by positivity) hD
    simp only [Bool.and_eq_true, decide_eq_true_eq]
    constructor
    · rintro ⟨h1, h2⟩
      have h1' : 0 ≤ (m1 : ℝ) - ((g2 : ℝ) - (g1 : ℝ)) ^ 2 - (m2 : ℝ) := by
        exact_mod_cast h1
      have h2' : ((m1 : ℝ) - ((g2 : ℝ) - (g1 : ℝ)) ^ 2 - (m2 : ℝ)) ^ 2 =
          4 * ((g2 : ℝ) - (g1 : ℝ)) ^ 2 * (m2 : ℝ) := by
        exact_mod_cast h2
      have h3 := hsplit.mpr ⟨h1', h2'⟩
      linarith
    · intro h
      have h2 := hsplit.mp (by linarith)
      exact ⟨by exact_mod_cast h2.1, by exact_mod_cast h2.2⟩
  · rw [if_neg hd]
    push_neg at hd
    have hE : (0:ℝ) ≤ (g1 : ℝ) - (g2 : ℝ) := by
      have h9 : (g2 : ℝ) < (g1 : ℝ) := by exact_mod_cast (by omega : (g2 : ℤ) < (g1 : ℤ))
      linarith
    have hsplit := add_eq_sqrt_split (m1 : ℝ) (m2 : ℝ) ((g1 : ℝ) - (g2 : ℝ))
      (by positivity) (by positivity) hE
    simp only [Bool.and_eq_true, decide_eq_true_eq]
    constructor
    · rintro ⟨h1, h2⟩
      have h1' : 0 ≤ (m2 : ℝ) - (m1 : ℝ) - ((g1 : ℝ) - (g2 : ℝ)) ^ 2 := by
        have h9 : (0:ℝ) ≤ (m2 : ℝ) - (m1 : ℝ) - (-((g2 : ℝ) - (g1 : ℝ))) ^ 2 := by
          exact_mod_cast h1
        have he : (-((g2 : ℝ) - (g1 : ℝ))) ^ 2 = ((g1 : ℝ) - (g2 : ℝ)) ^ 2 := by ring
        rw [he] at h9
        exact h9
      have h2' : 4 * ((g1 : ℝ) - (g2 : ℝ)) ^ 2 * (m1 : ℝ) =
          ((m2 : ℝ) - (m1 : ℝ) - ((g1 : ℝ) - (g2 : ℝ)) ^ 2) ^ 2 := by
        have h9 : 4 * (-((g2 : ℝ) - (g1 : ℝ))) ^ 2 * (m1 : ℝ) =
            ((m2 : ℝ) - (m1 : ℝ) - (-((g2 : ℝ) - (g1 : ℝ))) ^ 2) ^ 2 := by
          exact_mod_cast h2
        have he : (-((g2 : ℝ) - (g1 : ℝ))) ^ 2 = ((g1 : ℝ) - (g2 : ℝ)) ^ 2 := by ring
        rw [he] at h9
        exact h9
      have h3 := hsplit.mpr ⟨h1', h2'⟩
      linarith
    · intro h
      have h2 := hsplit.mp (by linarith)
      constructor
      · have h9 : (0:ℝ) ≤ (m2 : ℝ) - (m1 : ℝ) - (-((g2 : ℝ) - (g1 : ℝ))) ^ 2 := by
          have he : (-((g2 : ℝ) - (g1 : ℝ))) ^ 2 = ((g1 : ℝ) - (g2 : ℝ)) ^ 2 := by ring
          rw [he]
          exact h2.1
        exact_mod_cast h9
      · have h9 : 4 * (-((g2 : ℝ) - (g1 : ℝ))) ^ 2 * (m1 : ℝ) =
            ((m2 : ℝ) - (m1 : ℝ) - (-((g2 : ℝ) - (g1 : ℝ))) ^ 2) ^ 2 := by
          have he : (-((g2 : ℝ) - (g1 : ℝ))) ^ 2 = ((g1 : ℝ) - (g2 : ℝ)) ^ 2 := by ring
          rw [he]
          exact h2.2
        exact_mod_cast h9

theorem ltFG_iff (x y : PQEntry) :
    ltFG x y ↔
      ((x.g : ℝ) + Real.sqrt (x.m : ℝ) < (y.g : ℝ) + Real.sqrt (y.m : ℝ)) ∨
      ((x.g : ℝ) + Real.sqrt (x.m : ℝ) = (y.g : ℝ) + Real.sqrt (y.m : ℝ) ∧
        x.g < y.g) := by
  unfold ltFG
  rw [fLtB_iff, fEqB_iff]

theorem leFG_char (x y : PQEntry) :
    leFG x y ↔
      ((x.g : ℝ) + Real.sqrt (x.m : ℝ) < (y.g : ℝ) + Real.sqrt (y.m : ℝ)) ∨
      ((x.g : ℝ) + Real.sqrt (x.m : ℝ) = (y.g : ℝ) + Real.sqrt (y.m : ℝ) ∧
        x.g ≤ y.g) := by
  unfold leFG
  rw [ltFG_iff]
  constructor
  · intro h
    rcases lt_trichotomy ((x.g : ℝ) + Real.sqrt (x.m : ℝ))
      ((y.g : ℝ) + Real.sqrt (y.m : ℝ)) with hlt | heq | hgt
    · exact Or.inl hlt
    · refine Or.inr ⟨heq, ?_⟩
      by_contra hg
      exact h (Or.inr ⟨heq.symm, by omega⟩)
    · exact absurd (Or.inl hgt) h
  · rintro (h | ⟨heq, hg⟩) <;> rintro (h2 | ⟨heq2, hg2⟩)
    · linarith
    · linarith
    · rw [heq] at h2
      exact lt_irrefl _ h2
    · omega

theorem leFG_refl (x : PQEntry) : leFG x x :=
  (leFG_char x x).mpr (Or.inr ⟨rfl, le_refl _⟩)

theorem leFG_trans {x y z : PQEntry} (h1 : leFG x y) (h2 : leFG y z) :
    leFG x z := by
  rcases (leFG_char x y).mp h1 with ha | ⟨ha, hga⟩ <;>
    rcases (leFG_char y z).mp h2 with hb | ⟨hb, hgb⟩
  · exact (leFG_char x z).mpr (Or.inl (lt_trans ha hb))
  · exact (leFG_char x z).mpr (Or.inl (by linarith))
  · exact (leFG_char x z).mpr (Or.inl (by linarith))
  · exact (leFG_char x z).mpr (Or.inr ⟨by linarith, by omega⟩)

theorem leFG_f_le {x y : PQEntry} (h : leFG x y) :
    (x.g : ℝ) + Real.sqrt (x.m : ℝ) ≤ (y.g : ℝ) + Real.sqrt (y.m : ℝ) := by
  rcases (leFG_char x y).mp h with h2 | ⟨h2, -⟩
  · exact le_of_lt h2
  · exact le_of_eq h2

theorem cmpOK_cmpEntry (mz : Maze) : CmpOK (cmpEntry mz) := by
  intro x y
  unfold cmpEntry
  by_cases h1 : fLtB x.g x.m y.g y.m = true
  · rw [if_pos h1]
    refine ⟨fun _ => ?_, fun h => absurd h (by simp)⟩
    exact (leFG_char x y).mpr (Or.inl ((fLtB_iff x.g x.m y.g y.m).mp h1))
  · rw [if_neg h1]
    by_cases h2 : fEqB x.g x.m y.g y.m = true
    · rw [if_pos h2]
      have heq := (fEqB_iff x.g x.m y.g y.m).mp h2
      by_cases h3 : x.g < y.g
      · rw [if_pos h3]
        exact ⟨fun _ => (leFG_char x y).mpr (Or.inr ⟨heq, le_of_lt h3⟩),
          fun h => absurd h (by simp)⟩
      · rw [if_neg h3]
        by_cases h4 : y.g < x.g
        · rw [if_pos h4]
          exact ⟨fun h => absurd h (by simp),
            fun _ => (leFG_char y x).mpr (Or.inr ⟨heq.symm, le_of_lt h4⟩)⟩
        · rw [if_neg h4]
          exact ⟨fun _ => (leFG_char x y).mpr (Or.inr ⟨heq, by omega⟩),
            fun _ => (leFG_char y x).mpr (Or.inr ⟨heq.symm, by omega⟩)⟩
    · rw [if_neg h2]
      refine ⟨fun h => absurd h (by simp), fun _ => ?_⟩
      rcases lt_trichotomy ((x.g : ℝ) + Real.sqrt (x.m : ℝ))
        ((y.g : ℝ) + Real.sqrt (y.m : ℝ)) with hlt | heq | hgt
      · exact absurd ((fLtB_iff x.g x.m y.g y.m).mpr hlt) h1
      · exact absurd ((fEqB_iff x.g x.m y.g y.m).mpr heq) h2
      · exact (leFG_char y x).mpr (Or.inl hgt)

/-! ### Heap-ordering correctness of the transcribed heapq -/

theorem holeUp_set_heap {le : PQEntry → PQEntry → Prop}
    (l : List PQEntry) (pos : Nat) (x : PQEntry) (hpos : pos < l.length)
    (hh : HoleUp le l pos x)
    (hpar : pos = 0 ∨ le (l.getD ((pos - 1) / 2) pqDefault) x) :
    IsHeap le (l.set pos x) := by
  intro j hj hjlen
  rw [List.length_set] at hjlen
  by_cases hjp : j = pos
  · rw [hjp, getD_set_ne l x pqDefault (by omega : pos ≠ (pos - 1) / 2),
      getD_set_self l pos x pqDefault hpos]
    rcases hpar with h0 | h0
    · exact absurd h0 (by omega)
    · exact h0
  · by_cases hpp : (j - 1) / 2 = pos
    · rw [hpp, getD_set_self l pos x pqDefault hpos,
        getD_set_ne l x pqDefault (Ne.symm hjp)]
      exact hh.2.1 j hj hjlen hpp
    · rw [getD_set_ne l x pqDefault (fun hcon => hpp hcon.symm),
        getD_set_ne l x pqDefault (Ne.symm hjp)]
      exact hh.1 j hj hjlen hjp hpp

theorem holeUp_parent_step {le : PQEntry → PQEntry → Prop}
    (htrans : ∀ {x y z : PQEntry}, le x y → le y z → le x z)
    (l : List PQEntry) (pos : Nat) (x : PQEntry)
    (hpos : pos < l.length) (hp0 : 0 < pos)
    (hh : HoleUp le l pos x)
    (hxp : le x (l.getD ((pos - 1) / 2) pqDefault)) :
    HoleUp le (l.set pos (l.getD ((pos - 1) / 2) pqDefault))
      ((pos - 1) / 2) x := by
  refine ⟨?_, ?_, ?_⟩
  · intro j hj hjlen hjne hjpar
    rw [List.length_set] at hjlen
    by_cases hjpos : j = pos
    · rw [hjpos] at hjpar
      exact absurd rfl hjpar
    · by_cases hjc : (j - 1) / 2 = pos
      · rw [hjc, getD_set_self l pos _ pqDefault hpos,
          getD_set_ne l _ pqDefault (Ne.symm hjpos)]
        exact hh.2.2 j hj hjlen hjc hp0
      · rw [getD_set_ne l _ pqDefault (fun hcon => hjc hcon.symm),
          getD_set_ne l _ pqDefault (Ne.symm hjpos)]
        exact hh.1 j hj hjlen hjpos hjc
  · intro j hj hjlen hjpar
    rw [List.length_set] at hjlen
    by_cases hjpos : j = pos
    · rw [hjpos, getD_set_self l pos _ pqDefault hpos]
      exact hxp
    · rw [getD_set_ne l _ pqDefault (Ne.symm hjpos)]
      have hsib : le (l.getD ((pos - 1) / 2) pqDefault) (l.getD j pqDefault) := by
        rw [← hjpar]
        exact hh.1 j hj hjlen hjpos (by omega)
      exact htrans hxp hsib
  · intro j hj hjlen hjpar hpp0
    rw [List.length_set] at hjlen
    rw [getD_set_ne l _ pqDefault (by omega : pos ≠ ((pos - 1) / 2 - 1) / 2)]
    by_cases hjpos : j = pos
    · rw [hjpos, getD_set_self l pos _ pqDefault hpos]
      exact hh.1 ((pos - 1) / 2) (by omega) (by omega) (by omega) (by omega)
    · rw [getD_set_ne l _ pqDefault (Ne.symm hjpos)]
      have h1 : le (l.getD (((pos - 1) / 2 - 1) / 2) pqDefault)
          (l.getD ((pos - 1) / 2) pqDefault) :=
        hh.1 ((pos - 1) / 2) (by omega) (by omega) (by omega) (by omega)
      have h2 : le (l.getD ((pos - 1) / 2) pqDefault) (l.getD j pqDefault) := by
        rw [← hjpar]
        exact hh.1 j hj hjlen hjpos (by omega)
      exact htrans h1 h2

theorem siftdownLoop_heap {le : PQEntry → PQEntry → Prop}
    (htrans : ∀ {x y z : PQEntry}, le x y → le y z → le x z)
    (c : PQEntry → PQEntry → Bool)
    (hc : ∀ x y, (c x y = true → le x y) ∧ (c x y = false → le y x)) :
    ∀ (fuel pos : Nat) (l : List PQEntry) (x : PQEntry),
      pos < l.length → pos ≤ fuel → HoleUp le l pos x →
      IsHeap le (siftdownLoop c x fuel l 0 pos) := by
  intro fuel
  induction fuel with
  | zero =>
    intro pos l x hpos hf hh
    have hp0 : pos = 0 := by omega
    rw [hp0] at hh hpos ⊢
    rw [siftdownLoop]
    exact holeUp_set_heap l 0 x hpos hh (Or.inl rfl)
  | succ f ih =>
    intro pos l x hpos hf hh
    rw [siftdownLoop]
    by_cases hp0 : 0 < pos
    · rw [if_pos hp0]
      dsimp only
      by_cases hcx : c x (l.getD ((pos - 1) / 2) pqDefault) = true
      · rw [if_pos hcx]
        refine ih ((pos - 1) / 2)
          (l.set pos (l.getD ((pos - 1) / 2) pqDefault)) x ?_ ?_ ?_
        · rw [List.length_set]
          omega
        · omega
        · exact @holeUp_parent_step le htrans l pos x hpos hp0 hh
            ((hc x (l.getD ((pos - 1) / 2) pqDefault)).1 hcx)
      · rw [if_neg hcx]
        exact holeUp_set_heap l pos x hpos hh
          (Or.inr ((hc x _).2 (bool_eq_false hcx)))
    · rw [if_neg hp0]
      have hp0' : pos = 0 := by omega
      rw [hp0'] at hh hpos ⊢
      exact holeUp_set_heap l 0 x hpos hh (Or.inl rfl)

theorem holeDown_step {le : PQEntry → PQEntry → Prop}
    (htrans : ∀ {x y z : PQEntry}, le x y → le y z → le x z)
    (l : List PQEntry) (pos cp : Nat)
    (hpos : pos < l.length) (hcp : (cp - 1) / 2 = pos) (hcp0 : 0 < cp)
    (hcplen : cp < l.length)
    (hsib : ∀ j, 0 < j → j < l.length → (j - 1) / 2 = pos → j ≠ cp →
      le (l.getD cp pqDefault) (l.getD j pqDefault))
    (hh : HoleDown le l pos) :
    HoleDown le (l.set pos (l.getD cp pqDefault)) cp := by
  refine ⟨?_, ?_⟩
  · intro j hj hjlen hjne hjpar
    rw [List.length_set] at hjlen
    by_cases hjpos : j = pos
    · have hp0 : 0 < pos := by omega
      rw [hjpos, getD_set_ne l _ pqDefault (by omega : pos ≠ (pos - 1) / 2),
        getD_set_self l pos _ pqDefault hpos]
      exact hh.2 cp hcp0 hcplen hcp hp0
    · by_cases hjc : (j - 1) / 2 = pos
      · rw [hjc, getD_set_self l pos _ pqDefault hpos,
          getD_set_ne l _ pqDefault (Ne.symm hjpos)]
        exact hsib j hj hjlen hjc hjne
      · rw [getD_set_ne l _ pqDefault (fun hcon => hjc hcon.symm),
          getD_set_ne l _ pqDefault (Ne.symm hjpos)]
        exact hh.1 j hj hjlen hjpos hjc
  · intro j hj hjlen hjpar hcp0'
    rw [List.length_set] at hjlen
    have hjne_pos : j ≠ pos := by omega
    rw [hcp, getD_set_self l pos _ pqDefault hpos,
      getD_set_ne l _ pqDefault (Ne.symm hjne_pos)]
    rw [← hjpar]
    exact hh.1 j hj hjlen hjne_pos (by omega)

theorem siftupLoop_holeDown {le : PQEntry → PQEntry → Prop}
    (htrans : ∀ {x y z : PQEntry}, le x y → le y z → le x z)
    (c : PQEntry → PQEntry → Bool)
    (hc : ∀ x y, (c x y = true → le x y) ∧ (c x y = false → le y x)) :
    ∀ (fuel : Nat) (l : List PQEntry) (pos : Nat),
      pos < l.length → l.length ≤ fuel + pos → HoleDown le l pos →
      HoleDown le (siftupLoop c fuel l pos).1 (siftupLoop c fuel l pos).2 ∧
      (siftupLoop c fuel l pos).1.length = l.length ∧
      (siftupLoop c fuel l pos).2 < (siftupLoop c fuel l pos).1.length ∧
      (siftupLoop c fuel l pos).1.length ≤ 2 * (siftupLoop c fuel l pos).2 + 1 := by
  intro fuel
  induction fuel with
  | zero =>
    intro l pos hpos hfuel hh
    exact absurd hpos (by omega)
  | succ f ih =>
    intro l pos hpos hfuel hh
    rw [siftupLoop]
    dsimp only
    by_cases hch : 2 * pos + 1 < l.length
    · rw [if_pos hch]
      by_cases hcond : (decide (2 * pos + 1 + 1 < l.length) &&
          !(c (l.getD (2 * pos + 1) pqDefault)
            (l.getD (2 * pos + 1 + 1) pqDefault))) = true
      · rw [if_pos hcond]
        simp only [Bool.and_eq_true, decide_eq_true_eq,
          Bool.not_eq_eq_eq_not, Bool.not_true] at hcond
        have hsib : ∀ j, 0 < j → j < l.length → (j - 1) / 2 = pos →
            j ≠ 2 * pos + 1 + 1 →
            le (l.getD (2 * pos + 1 + 1) pqDefault) (l.getD j pqDefault) := by
          intro j hj hjl hjp hjne
          have hj' : j = 2 * pos + 1 := by omega
          rw [hj']
          exact (hc _ _).2 hcond.2
        have hstep := @holeDown_step le htrans l pos (2 * pos + 1 + 1) hpos
          (by omega) (by omega) hcond.1 hsib hh
        have hrec := ih (l.set pos (l.getD (2 * pos + 1 + 1) pqDefault))
          (2 * pos + 1 + 1) (by rw [List.length_set]; exact hcond.1)
          (by rw [List.length_set]; omega) hstep
        refine ⟨hrec.1, ?_, hrec.2.2.1, hrec.2.2.2⟩
        rw [hrec.2.1, List.length_set]
      · rw [if_neg hcond]
        have hsib : ∀ j, 0 < j → j < l.length → (j - 1) / 2 = pos →
            j ≠ 2 * pos + 1 →
            le (l.getD (2 * pos + 1) pqDefault) (l.getD j pqDefault) := by
          intro j hj hjl hjp hjne
          have hj' : j = 2 * pos + 1 + 1 := by omega
          rw [hj']
          have hB : c (l.getD (2 * pos + 1) pqDefault)
              (l.getD (2 * pos + 1 + 1) pqDefault) = true := by
            by_contra hBc
            apply hcond
            rw [bool_eq_false hBc]
            simp only [Bool.not_false, Bool.and_true, decide_eq_true_eq]
            omega
          exact (hc _ _).1 hB
        have hstep := @holeDown_step le htrans l pos (2 * pos + 1) hpos
          (by omega) (by omega) hch hsib hh
        have hrec := ih (l.set pos (l.getD (2 * pos + 1) pqDefault))
          (2 * pos + 1) (by rw [List.length_set]; exact hch)
          (by rw [List.length_set]; omega) hstep
        refine ⟨hrec.1, ?_, hrec.2.2.1, hrec.2.2.2⟩
        rw [hrec.2.1, List.length_set]
    · rw [if_neg hch]
      exact ⟨hh, rfl, hpos, by dsimp only; omega⟩

theorem siftup_heap {le : PQEntry → PQEntry → Prop}
    (htrans : ∀ {x y z : PQEntry}, le x y → le y z → le x z)
    (c : PQEntry → PQEntry → Bool)
    (hc : ∀ x y, (c x y = true → le x y) ∧ (c x y = false → le y x))
    (l : List PQEntry) (h0 : 0 < l.length) (hh : HoleDown le l 0) :
    IsHeap le (siftup c l 0) := by
  unfold siftup
  dsimp only
  obtain ⟨r1, r2, r3, r4⟩ := @siftupLoop_holeDown le htrans c hc l.length l 0
    h0 (by omega) hh
  apply @siftdownLoop_heap le htrans c hc _ _ _ _ r3 (le_refl _)
  refine ⟨r1.1, ?_, ?_⟩
  · intro j hj hjlen hjpar
    omega
  · intro j hj hjlen hjpar hpos0
    omega

theorem heapPush_heap {le : PQEntry → PQEntry → Prop}
    (htrans : ∀ {x y z : PQEntry}, le x y → le y z → le x z)
    (c : PQEntry → PQEntry → Bool)
    (hc : ∀ x y, (c x y = true → le x y) ∧ (c x y = false → le y x))
    (l : List PQEntry) (x : PQEntry) (hh : IsHeap le l) :
    IsHeap le (heapPush c l x) := by
  unfold heapPush
  apply @siftdownLoop_heap le htrans c hc l.length l.length (l ++ [x]) x
    (by rw [List.length_append]; simp) (le_refl _)
  refine ⟨?_, ?_, ?_⟩
  · intro j hj hjlen hjne hjpar
    rw [List.length_append, List.length_singleton] at hjlen
    have hjl : j < l.length := by omega
    rw [List.getD_append _ _ _ _ hjl, List.getD_append _ _ _ _ (by omega)]
    exact hh j hj hjl
  · intro j hj hjlen hjpar
    rw [List.length_append, List.length_singleton] at hjlen
    omega
  · intro j hj hjlen hjpar hpos0
    rw [List.length_append, List.length_singleton] at hjlen
    omega

theorem isHeap_root_min {le : PQEntry → PQEntry → Prop}
    (hrefl : ∀ x : PQEntry, le x x)
    (htrans : ∀ {x y z : PQEntry}, le x y → le y z → le x z)
    (l : List PQEntry) (hh : IsHeap le l) :
    ∀ j, j < l.length → le (l.getD 0 pqDefault) (l.getD j pqDefault) := by
  intro j
  induction j using Nat.strong_induction_on with
  | _ j ih =>
    intro hj
    rcases Nat.eq_zero_or_pos j with h0 | hpos
    · rw [h0]
      exact hrefl _
    · exact htrans (ih ((j - 1) / 2) (by omega) (by omega)) (hh j hpos hj)

theorem getD_dropLast (l : List PQEntry) (j : Nat)
    (h : j < l.dropLast.length) :
    l.dropLast.getD j pqDefault = l.getD j pqDefault := by
  have h2 : j < l.length := by
    rw [List.length_dropLast] at h
    omega
  rw [List.getD_eq_getElem _ _ h, List.getD_eq_getElem _ _ h2]
  exact List.getElem_dropLast l j h

theorem getLastD_cons_getD (x : PQEntry) (xs : List PQEntry) :
    (x :: xs).getLastD pqDefault =
      (x :: xs).getD ((x :: xs).length - 1) pqDefault := by
  rw [List.getLastD_eq_getLast?, List.getLast?_eq_getElem?,
    List.getD_eq_getElem?_getD]

theorem heapPop_heap {le : PQEntry → PQEntry → Prop}
    (hrefl : ∀ x : PQEntry, le x x)
    (htrans : ∀ {x y z : PQEntry}, le x y → le y z → le x z)
    (c : PQEntry → PQEntry → Bool)
    (hc : ∀ x y, (c x y = true → le x y) ∧ (c x y = false → le y x))
    (l : List PQEntry) (hh : IsHeap le l) (e : PQEntry) (h' : List PQEntry)
    (hpop : heapPop c l = some (e, h')) :
    IsHeap le h' ∧ ∀ y ∈ h', le e y := by
  cases l with
  | nil => exact absurd hpop (by simp [heapPop])
  | cons x xs =>
    have hroot := @isHeap_root_min le hrefl htrans (x :: xs) hh
    cases xs with
    | nil =>
      have hval : heapPop c [x] = some (x, []) := rfl
      rw [hval] at hpop
      injection hpop with h1
      injection h1 with he hh'
      rw [← he, ← hh']
      exact ⟨fun j hj hjlen => absurd hjlen (by simp),
        fun y hy => absurd hy (List.not_mem_nil _)⟩
    | cons x2 t =>
      have hval : heapPop c (x :: x2 :: t) =
          some (x, siftup c (((x :: x2 :: t).dropLast).set 0
            ((x :: x2 :: t).getLastD pqDefault)) 0) := rfl
      rw [hval] at hpop
      injection hpop with h1
      injection h1 with he hh'
      have hrl : (x :: x2 :: t).dropLast.length = (x :: x2 :: t).length - 1 :=
        List.length_dropLast _
      have hrpos : 0 < (x :: x2 :: t).dropLast.length := by
        rw [hrl]
        simp
      have hslen : (((x :: x2 :: t).dropLast).set 0
          ((x :: x2 :: t).getLastD pqDefault)).length =
          (x :: x2 :: t).dropLast.length := List.length_set _ _ _
      have hhd : HoleDown le (((x :: x2 :: t).dropLast).set 0
          ((x :: x2 :: t).getLastD pqDefault)) 0 := by
        refine ⟨?_, ?_⟩
        · intro j hj hjlen hjne hjpar
          rw [hslen] at hjlen
          rw [getD_set_ne _ _ pqDefault (fun hcon => hjpar hcon.symm),
            getD_set_ne _ _ pqDefault (Ne.symm hjne),
            getD_dropLast _ _ hjlen, getD_dropLast _ _ (by omega)]
          apply hh j hj
          rw [hrl] at hjlen
          simp only [List.length_cons] at hjlen ⊢
          omega
        · intro j hj hjlen hjpar h0
          exact absurd h0 (by omega)
      constructor
      · rw [← hh']
        exact @siftup_heap le htrans c hc _ (by rw [hslen]; exact hrpos) hhd
      · intro y hy
        rw [← hh'] at hy
        have hperm := siftup_perm c (((x :: x2 :: t).dropLast).set 0
          ((x :: x2 :: t).getLastD pqDefault)) 0 (by rw [hslen]; exact hrpos)
        have hy2 : y ∈ ((x :: x2 :: t).dropLast).set 0
            ((x :: x2 :: t).getLastD pqDefault) := hperm.mem_iff.mp hy
        rcases List.mem_or_eq_of_mem_set hy2 with hy3 | hy3
        · obtain ⟨i, hi, hiy⟩ := List.mem_iff_getElem.mp hy3
          have hix : y = (x :: x2 :: t).getD i pqDefault := by
            rw [← getD_dropLast _ _ hi, List.getD_eq_getElem _ _ hi, hiy]
          rw [← he, hix]
          have hi2 : i < (x :: x2 :: t).length := by
            rw [hrl] at hi
            simp only [List.length_cons] at hi ⊢
            omega
          exact hroot i hi2
        · rw [← he, hy3, getLastD_cons_getD]
          exact hroot _ (by simp)

/-! ### The light search-loop invariant and the reconstruction descent -/

theorem ptrNbrs_shapeEq {mz0 mz : Maze} (h : ShapeEq mz0 mz) (q : Coord) :
    ptrNbrs mz q = ptrNbrs mz0 q := by
  unfold ptrNbrs
  obtain ⟨h1, h2, h3, h4, -⟩ := h.2.2 q
  rw [← h1, ← h2, ← h3, ← h4]

theorem enemy_shapeEq {mz0 mz : Maze} (h : ShapeEq mz0 mz) (q : Coord) :
    (cellAt mz q).is_enemy = (cellAt mz0 q).is_enemy :=
  (h.2.2 q).2.2.2.2.symm

theorem cellAt_out (mz : Maze) (p : Coord)
    (h : ¬(p.1 < mz.length ∧ p.2 < (mz.getD p.1 []).length)) :
    cellAt mz p = ({} : Cell) := by
  unfold cellAt
  by_cases h1 : p.1 < mz.length
  · have h2 : (mz.getD p.1 []).length ≤ p.2 := by
      rcases Nat.lt_or_ge p.2 (mz.getD p.1 []).length with hlt | hge
      · exact absurd ⟨h1, hlt⟩ h
      · exact hge
    exact List.getD_eq_default _ _ h2
  · rw [List.getD_eq_default _ _ (Nat.le_of_not_lt h1)]
    exact List.getD_eq_default _ _ (Nat.zero_le _)

theorem ptrNbrs_out (mz : Maze) (p : Coord)
    (h : ¬(p.1 < mz.length ∧ p.2 < (mz.getD p.1 []).length)) :
    ptrNbrs mz p = [] := by
  unfold ptrNbrs
  rw [cellAt_out mz p h]
  rfl

theorem mem_ptrNbrs {mz : Maze} {a b : Coord} :
    a ∈ ptrNbrs mz b ↔ (cellAt mz b).left = some a ∨
      (cellAt mz b).right = some a ∨ (cellAt mz b).up = some a ∨
      (cellAt mz b).down = some a := by
  unfold ptrNbrs
  constructor
  · intro h
    rcases List.mem_filterMap.mp h with ⟨x, hx, hxa⟩
    simp only [List.mem_cons, List.not_mem_nil, or_false] at hx
    rcases hx with rfl | rfl | rfl | rfl
    · exact Or.inl hxa
    · exact Or.inr (Or.inl hxa)
    · exact Or.inr (Or.inr (Or.inl hxa))
    · exact Or.inr (Or.inr (Or.inr hxa))
  · intro h
    apply List.mem_filterMap.mpr
    rcases h with h | h | h | h
    · exact ⟨(cellAt mz b).left, by simp, h⟩
    · exact ⟨(cellAt mz b).right, by simp, h⟩
    · exact ⟨(cellAt mz b).up, by simp, h⟩
    · exact ⟨(cellAt mz b).down, by simp, h⟩

theorem cellAt_dims_out (mz : Maze) (rows cols : Nat) (hd : Dims mz rows cols)
    (p : Coord) (h : ¬(p.1 < rows ∧ p.2 < cols)) : cellAt mz p = ({} : Cell) := by
  apply cellAt_out
  intro hc
  apply h
  obtain ⟨h1, h2⟩ := hc
  rw [hd.1] at h1
  rcases hd.2 p.1 with hr | hr
  · rw [hr] at h2
    exact ⟨h1, h2⟩
  · omega

theorem ptrNbrs_mutual {mz : Maze} {rows cols : Nat} (hwf : WF mz rows cols)
    {a b : Coord} (h : a ∈ ptrNbrs mz b) : b ∈ ptrNbrs mz a := by
  have hb : b.1 < rows ∧ b.2 < cols := by
    by_contra hc
    rw [mem_ptrNbrs, cellAt_dims_out mz rows cols hwf.1 b hc] at h
    rcases h with h | h | h | h <;> exact Option.noConfusion h
  obtain ⟨hr, hc⟩ := hb
  have hm := hwf.2 b.1 b.2 hr hc
  rw [mem_ptrNbrs] at h
  rcases h with h | h | h | h
  · obtain ⟨ha, hpos, hmir⟩ := hm.2.1 a h
    subst ha
    exact mem_ptrNbrs.mpr (Or.inr (Or.inl hmir))
  · obtain ⟨ha, hpos, hmir⟩ := hm.1 a h
    subst ha
    exact mem_ptrNbrs.mpr (Or.inl hmir)
  · obtain ⟨ha, hpos, hmir⟩ := hm.2.2.2 a h
    subst ha
    exact mem_ptrNbrs.mpr (Or.inr (Or.inr (Or.inr hmir)))
  · obtain ⟨ha, hpos, hmir⟩ := hm.2.2.1 a h
    subst ha
    exact mem_ptrNbrs.mpr (Or.inr (Or.inr (Or.inl hmir)))

theorem head_append_some {α : Type} (l l' : List α) (a : α)
    (h : l.head? = some a) : (l ++ l').head? = some a := by
  cases l with
  | nil => exact absurd h (by simp)
  | cons x t => exact h

theorem distLt_self (a : Option Nat) : distLt a a = false := by
  cases a <;> simp [distLt]

theorem distLt_trans {a b c : Option Nat} (h1 : distLt a b = true)
    (h2 : distLt b c = true) : distLt a c = true := by
  cases a <;> cases b <;> cases c <;> simp_all [distLt] <;> omega

theorem distLt_le_trans {a b c : Option Nat} (h1 : distLt b a = false)
    (h2 : distLt b c = true) : distLt a c = true := by
  cases a <;> cases b <;> cases c <;> simp_all [distLt] <;> omega

theorem minByDist_mem (mz : Maze) (v : Coord) (vs : List Coord) :
    minByDist mz v vs ∈ v :: vs := by
  induction vs generalizing v with
  | nil => exact List.mem_cons_self _ _
  | cons q t ih =>
    by_cases hlt : distLt (cellAt mz q).distance (cellAt mz v).distance = true
    · have heq : minByDist mz v (q :: t) = minByDist mz q t := by
        unfold minByDist
        rw [List.foldl_cons, if_pos hlt]
      rw [heq]
      rcases List.mem_cons.mp (ih q) with h1 | h1
      · rw [h1]
        exact List.mem_cons_of_mem _ (List.mem_cons_self _ _)
      · exact List.mem_cons_of_mem _ (List.mem_cons_of_mem _ h1)
    · have heq : minByDist mz v (q :: t) = minByDist mz v t := by
        unfold minByDist
        rw [List.foldl_cons, if_neg hlt]
      rw [heq]
      rcases List.mem_cons.mp (ih v) with h1 | h1
      · rw [h1]
        exact List.mem_cons_self _ _
      · exact List.mem_cons_of_mem _ (List.mem_cons_of_mem _ h1)

theorem minByDist_min (mz : Maze) (v : Coord) (vs : List Coord) :
    ∀ q ∈ v :: vs,
      distLt (cellAt mz q).distance
        (cellAt mz (minByDist mz v vs)).distance = false := by
  induction vs generalizing v with
  | nil =>
    intro q hq
    rcases List.mem_cons.mp hq with rfl | h
    · exact distLt_self _
    · exact absurd h (List.not_mem_nil _)
  | cons w t ih =>
    intro q hq
    by_cases hlt : distLt (cellAt mz w).distance (cellAt mz v).distance = true
    · have heq : minByDist mz v (w :: t) = minByDist mz w t := by
        unfold minByDist
        rw [List.foldl_cons, if_pos hlt]
      rw [heq]
      rcases List.mem_cons.mp hq with rfl | hq2
      · cases hcon : distLt (cellAt mz q).distance
          (cellAt mz (minByDist mz w t)).distance
        · rfl
        · have hmin := ih w w (List.mem_cons_self _ _)
          rw [distLt_trans hlt hcon] at hmin
          exact (Bool.true_eq_false.mp hmin).elim
      · exact ih w q hq2
    · have heq : minByDist mz v (w :: t) = minByDist mz v t := by
        unfold minByDist
        rw [List.foldl_cons, if_neg hlt]
      rw [heq]
      rcases List.mem_cons.mp hq with h1 | hq2
      · rw [h1]
        exact ih v v (List.mem_cons_self _ _)
      · rcases List.mem_cons.mp hq2 with h2 | hq3
        · rw [h2]
          cases hcon : distLt (cellAt mz w).distance
            (cellAt mz (minByDist mz v t)).distance
          · rfl
          · have hv := ih v v (List.mem_cons_self _ _)
            rw [distLt_le_trans (bool_eq_false hlt) hcon] at hv
            exact (Bool.true_eq_false.mp hv).elim
        · exact ih v q (List.mem_cons_of_mem _ hq3)

theorem relaxOne_light {mz0 : Maze} {s : Coord} (endc : Coord) (g : Nat)
    (epos : Coord) (st : Maze × List PQEntry) (q : Coord)
    (hinv : LightInv mz0 s st.1 st.2)
    (hev : (cellAt st.1 epos).visited = true)
    (hed : (cellAt st.1 epos).distance = some g)
    (hq : q ∈ ptrNbrs mz0 epos) :
    LightInv mz0 s (relaxOne endc g st q).1 (relaxOne endc g st q).2 ∧
    (cellAt (relaxOne endc g st q).1 epos).visited = true ∧
    (cellAt (relaxOne endc g st q).1 epos).distance = some g := by
  unfold relaxOne
  dsimp only
  split
  · rename_i hguard
    split
    · rename_i hlt
      dsimp only
      have hqv : (cellAt st.1 q).visited = false := by
        cases hcc : (cellAt st.1 q).visited
        · rfl
        · rw [hcc] at hguard
          simp at hguard
      have hqe : (cellAt st.1 q).is_enemy = false := by
        cases hcc : (cellAt st.1 q).is_enemy
        · rfl
        · rw [hcc] at hguard
          simp at hguard
      have hqe0 : (cellAt mz0 q).is_enemy = false := by
        rw [← enemy_shapeEq hinv.shape q]
        exact hqe
      have hqep : q ≠ epos := by
        intro hcon
        rw [hcon, hev] at hqv
        exact Bool.noConfusion hqv
      have hcell : ∀ p : Coord,
          cellAt (updateCell st.1 q
            (fun cc => { cc with distance := some (g + 1) })) p =
          if p = q ∧ q.1 < st.1.length ∧ q.2 < (st.1.getD q.1 []).length then
            { cellAt st.1 q with distance := some (g + 1) }
          else cellAt st.1 p := by
        intro p
        rw [cellAt_updateCell]
      have hfix : ∀ u du, (cellAt st.1 u).visited = true →
          (cellAt st.1 u).distance = some du →
          (cellAt (updateCell st.1 q
            (fun cc => { cc with distance := some (g + 1) })) u).visited = true ∧
          (cellAt (updateCell st.1 q
            (fun cc => { cc with distance := some (g + 1) })) u).distance
            = some du := by
        intro u du huv hud
        have huq : u ≠ q := by
          intro hcon
          rw [hcon, hqv] at huv
          exact Bool.noConfusion huv
        rw [hcell u, if_neg (fun hc2 => huq hc2.1)]
        exact ⟨huv, hud⟩
      refine ⟨⟨?_, ?_, ?_, ?_⟩, (hfix epos g hev hed).1, (hfix epos g hev hed).2⟩
      · exact shapeEq_trans hinv.shape (shapeEq_updateCell_vd st.1 q
          (fun cc => { cc with distance := some (g + 1) })
          (fun c => ⟨rfl, rfl, rfl, rfl, rfl⟩))
      · intro p hp
        rw [hcell p] at hp ⊢
        split at hp
        · rename_i hc
          exfalso
          have hp2 : (cellAt st.1 q).visited = true := hp
          rw [hqv] at hp2
          exact Bool.noConfusion hp2
        · rename_i hc
          rw [if_neg hc]
          exact hinv.vfin p hp
      · intro p d hp
        rw [hcell p] at hp
        split at hp
        · rename_i hc
          have hp2 : some (g + 1) = some d := hp
          injection hp2 with hd
          refine Or.inr ⟨epos, g, ?_, (hfix epos g hev hed).1,
            (hfix epos g hev hed).2, by omega, ?_⟩
          · rw [hc.1]
            exact hq
          · rw [hc.1]
            exact hqe0
        · rename_i hc
          rcases hinv.dsrc p d hp with hh | ⟨u, du, hu1, hu2, hu3, hu4, hu5⟩
          · exact Or.inl hh
          · exact Or.inr ⟨u, du, hu1, (hfix u du hu2 hu3).1,
              (hfix u du hu2 hu3).2, hu4, hu5⟩
      · intro en hen
        have hmem : en ∈ (⟨g + 1, hArg q endc, q⟩ : PQEntry) :: st.2 :=
          (heapPush_perm _ _ _).mem_iff.mp hen
        cases hmem with
        | head =>
          exact Or.inr ⟨epos, g, hq, (hfix epos g hev hed).1,
            (hfix epos g hev hed).2, rfl, hqe0⟩
        | tail _ htl =>
          rcases hinv.ent en htl with hh | ⟨u, du, hu1, hu2, hu3, hu4, hu5⟩
          · exact Or.inl hh
          · exact Or.inr ⟨u, du, hu1, (hfix u du hu2 hu3).1,
              (hfix u du hu2 hu3).2, hu4, hu5⟩
    · exact ⟨hinv, hev, hed⟩
  · exact ⟨hinv, hev, hed⟩

theorem relaxFold_light {mz0 : Maze} {s : Coord} (endc : Coord) (g : Nat)
    (epos : Coord) :
    ∀ (l : List Coord) (st : Maze × List PQEntry),
      LightInv mz0 s st.1 st.2 →
      (cellAt st.1 epos).visited = true →
      (cellAt st.1 epos).distance = some g →
      (∀ q ∈ l, q ∈ ptrNbrs mz0 epos) →
      LightInv mz0 s ((l.foldl (relaxOne endc g) st).1)
        ((l.foldl (relaxOne endc g) st).2) := by
  intro l
  induction l with
  | nil =>
    intro st h _ _ _
    exact h
  | cons q t ih =>
    intro st h hev hed hsub
    rw [List.foldl_cons]
    obtain ⟨h1, h2, h3⟩ := relaxOne_light endc g epos st q h hev hed
      (hsub q (List.mem_cons_self _ _))
    exact ih _ h1 h2 h3 (fun x hx => hsub x (List.mem_cons_of_mem _ hx))

theorem markVisited_light {mz0 : Maze} {s : Coord} (mzC : Maze) (e : PQEntry)
    (hp h' : List PQEntry) (hinv : LightInv mz0 s mzC hp) (hmem : e ∈ hp)
    (hrest : ∀ e2 ∈ h', e2 ∈ hp)
    (hvfalse : (cellAt mzC e.pos).visited = false)
    (hb : e.pos.1 < mzC.length ∧ e.pos.2 < (mzC.getD e.pos.1 []).length) :
    LightInv mz0 s (updateCell mzC e.pos
      (fun c => { c with visited := true, distance := some e.g })) h' ∧
    (cellAt (updateCell mzC e.pos
      (fun c => { c with visited := true, distance := some e.g }))
      e.pos).visited = true ∧
    (cellAt (updateCell mzC e.pos
      (fun c => { c with visited := true, distance := some e.g }))
      e.pos).distance = some e.g := by
  have hcell : ∀ p : Coord,
      cellAt (updateCell mzC e.pos
        (fun c => { c with visited := true, distance := some e.g })) p =
      if p = e.pos ∧ e.pos.1 < mzC.length ∧
          e.pos.2 < (mzC.getD e.pos.1 []).length then
        { cellAt mzC e.pos with visited := true, distance := some e.g }
      else cellAt mzC p := by
    intro p
    rw [cellAt_updateCell]
  have hfix : ∀ u du, (cellAt mzC u).visited = true →
      (cellAt mzC u).distance = some du →
      (cellAt (updateCell mzC e.pos
        (fun c => { c with visited := true, distance := some e.g })) u).visited
        = true ∧
      (cellAt (updateCell mzC e.pos
        (fun c => { c with visited := true, distance := some e.g })) u).distance
        = some du := by
    intro u du huv hud
    have hue : u ≠ e.pos := by
      intro hcon
      rw [hcon, hvfalse] at huv
      exact Bool.noConfusion huv
    rw [hcell u, if_neg (fun hc2 => hue hc2.1)]
    exact ⟨huv, hud⟩
  have hev1 : (cellAt (updateCell mzC e.pos
      (fun c => { c with visited := true, distance := some e.g }))
      e.pos).visited = true := by
    rw [hcell e.pos, if_pos ⟨rfl, hb⟩]
  have hed1 : (cellAt (updateCell mzC e.pos
      (fun c => { c with visited := true, distance := some e.g }))
      e.pos).distance = some e.g := by
    rw [hcell e.pos, if_pos ⟨rfl, hb⟩]
  have hee := hinv.ent e hmem
  refine ⟨⟨?_, ?_, ?_, ?_⟩, hev1, hed1⟩
  · exact shapeEq_trans hinv.shape (shapeEq_updateCell_vd mzC e.pos
      (fun c => { c with visited := true, distance := some e.g })
      (fun c => ⟨rfl, rfl, rfl, rfl, rfl⟩))
  · intro p hp2
    rw [hcell p] at hp2 ⊢
    split at hp2
    · rename_i hc
      rw [if_pos hc]
      exact ⟨e.g, rfl⟩
    · rename_i hc
      rw [if_neg hc]
      exact hinv.vfin p hp2
  · intro p d hp2
    rw [hcell p] at hp2
    split at hp2
    · rename_i hc
      have hp3 : some e.g = some d := hp2
      injection hp3 with hd
      rcases hee with hh | ⟨u, du, hu1, hu2, hu3, hu4, hu5⟩
      · exact Or.inl ⟨hc.1.trans hh.1, by omega⟩
      · refine Or.inr ⟨u, du, ?_, (hfix u du hu2 hu3).1,
          (hfix u du hu2 hu3).2, by omega, ?_⟩
        · rw [hc.1]
          exact hu1
        · rw [hc.1]
          exact hu5
    · rename_i hc
      rcases hinv.dsrc p d hp2 with hh | ⟨u, du, hu1, hu2, hu3, hu4, hu5⟩
      · exact Or.inl hh
      · exact Or.inr ⟨u, du, hu1, (hfix u du hu2 hu3).1,
          (hfix u du hu2 hu3).2, hu4, hu5⟩
  · intro e2 he2
    rcases hinv.ent e2 (hrest e2 he2) with hh | ⟨u, du, hu1, hu2, hu3, hu4, hu5⟩
    · exact Or.inl hh
    · exact Or.inr ⟨u, du, hu1, (hfix u du hu2 hu3).1,
        (hfix u du hu2 hu3).2, hu4, hu5⟩

theorem astarLoop_light {mz0 : Maze} {s : Coord} (endc : Coord) :
    ∀ (fuel : Nat) (mzC : Maze) (hp : List PQEntry) (mz1 : Maze),
      LightInv mz0 s mzC hp → astarLoop endc fuel mzC hp = some mz1 →
      LightInv mz0 s mz1 [] := by
  intro fuel
  induction fuel with
  | zero =>
    intro mzC hp mz1 hinv hl
    cases hp with
    | nil =>
      rw [astarLoop_nil] at hl
      injection hl with h
      rw [← h]
      exact ⟨hinv.shape, hinv.vfin, hinv.dsrc, fun en hen => nomatch hen⟩
    | cons x xs => exact absurd hl (by simp [astarLoop])
  | succ f ih =>
    intro mzC hp mz1 hinv hl
    cases hp with
    | nil =>
      rw [astarLoop_nil] at hl
      injection hl with h
      rw [← h]
      exact ⟨hinv.shape, hinv.vfin, hinv.dsrc, fun en hen => nomatch hen⟩
    | cons x xs =>
      rw [astarLoop] at hl
      obtain ⟨e, h', hpop, hperm⟩ := heapPop_perm (cmpEntry mzC) (x :: xs)
        (by simp)
      rw [hpop] at hl
      have hent' : ∀ e2 ∈ h', e2 ∈ x :: xs :=
        fun e2 he2 => hperm.mem_iff.mpr (List.mem_cons_of_mem _ he2)
      by_cases hv : (cellAt mzC e.pos).visited = true
      · simp only [hv, if_true] at hl
        exact ih mzC h' mz1
          ⟨hinv.shape, hinv.vfin, hinv.dsrc, fun e2 he2 => hinv.ent e2 (hent' e2 he2)⟩ hl
      · simp only [hv, Bool.false_eq_true, if_false] at hl
        have hvfalse : (cellAt mzC e.pos).visited = false := bool_eq_false hv
        by_cases hb : e.pos.1 < mzC.length ∧ e.pos.2 < (mzC.getD e.pos.1 []).length
        · obtain ⟨hinv1, hev1, hed1⟩ := markVisited_light mzC e (x :: xs) h' hinv
            (hperm.mem_iff.mpr (List.mem_cons_self _ _)) hent' hvfalse hb
          exact ih _ _ mz1
            (relaxFold_light endc e.g e.pos _ _ hinv1 hev1 hed1
              (fun q hq => by rwa [ptrNbrs_shapeEq hinv1.shape] at hq)) hl
        · rw [updateCell_out mzC e.pos _ hb, ptrNbrs_out mzC e.pos hb] at hl
          simp only [List.foldl_nil] at hl
          exact ih mzC h' mz1
            ⟨hinv.shape, hinv.vfin, hinv.dsrc, fun e2 he2 => hinv.ent e2 (hent' e2 he2)⟩ hl

theorem lightInv_init (mz : Maze) (s e : Coord) :
    LightInv (resetMaze mz) s (resetMaze mz) [⟨0, hArg s e, s⟩] := by
  refine ⟨shapeEq_refl _, ?_, ?_, ?_⟩
  · intro p hp
    rw [cellAt_resetMaze] at hp
    have hp2 : false = true := hp
    exact Bool.noConfusion hp2
  · intro p d hp
    rw [cellAt_resetMaze] at hp
    have hp2 : (none : Option Nat) = some d := hp
    exact Option.noConfusion hp2
  · intro en hen
    have h2 := List.mem_singleton.mp hen
    subst h2
    exact Or.inl ⟨rfl, rfl⟩

theorem lightInv_enemy (mz : Maze) (s : Coord) (mzS : Maze)
    (hsrc : (cellAt mz s).is_enemy = false)
    (hinv : LightInv (resetMaze mz) s mzS []) :
    ∀ p d, (cellAt mzS p).distance = some d →
      (cellAt mz p).is_enemy = false := by
  intro p d hp
  rcases hinv.dsrc p d hp with ⟨h1, -⟩ | ⟨u, du, -, -, -, -, h5⟩
  · rw [h1]
    exact hsrc
  · rw [← enemy_shapeEq (shapeEq_resetMaze mz) p]
    exact h5

theorem lightInv_zero (mz : Maze) (s : Coord) (mzS : Maze)
    (hinv : LightInv (resetMaze mz) s mzS []) :
    ∀ p, (cellAt mzS p).distance = some 0 → p = s := by
  intro p hp
  rcases hinv.dsrc p 0 hp with ⟨h1, -⟩ | ⟨u, du, -, -, -, h4, -⟩
  · exact h1
  · omega

theorem lightInv_step (mz : Maze) (rows cols : Nat) (s : Coord) (mzS : Maze)
    (hwf : WF mz rows cols) (hsrc : (cellAt mz s).is_enemy = false)
    (hinv : LightInv (resetMaze mz) s mzS []) :
    ∀ cur d, (cellAt mzS cur).distance = some d → cur ≠ s →
      ∃ u, u ∈ ptrNbrs mzS cur ∧ (cellAt mzS u).is_enemy = false ∧
        ∃ du, (cellAt mzS u).distance = some du ∧ du < d := by
  intro cur d hd hne
  rcases hinv.dsrc cur d hd with ⟨h1, -⟩ | ⟨u, du, hu1, hu2, hu3, hu4, -⟩
  · exact absurd h1 hne
  · refine ⟨u, ?_, ?_, du, hu3, by omega⟩
    · rw [ptrNbrs_shapeEq hinv.shape]
      rw [ptrNbrs_shapeEq (shapeEq_resetMaze mz)] at hu1 ⊢
      exact ptrNbrs_mutual hwf hu1
    · rw [enemy_shapeEq hinv.shape u, enemy_shapeEq (shapeEq_resetMaze mz) u]
      exact lightInv_enemy mz s mzS hsrc hinv u du hu3

theorem reconLoop_success (mzR : Maze) (s : Coord) :
    ∀ (fuel : Nat) (cur : Coord) (acc p : List Coord),
      reconLoop s fuel mzR cur acc = some (some p) →
      ∃ pre, p = pre ++ cur :: acc ∧
        (pre ++ [cur]).head? = some s ∧
        (pre ++ [cur]).Chain' (fun a b => a ∈ ptrNbrs mzR b) ∧
        ∀ q ∈ pre, q = s ∨ (cellAt mzR q).is_enemy = false := by
  intro fuel
  induction fuel with
  | zero =>
    intro cur acc p hl
    exact absurd hl (by simp [reconLoop])
  | succ f ih =>
    intro cur acc p hl
    rw [reconLoop] at hl
    by_cases hcur : cur = s
    · rw [if_pos hcur] at hl
      injection hl with hl1
      injection hl1 with hl2
      refine ⟨[], ?_, ?_, List.chain'_singleton _, ?_⟩
      · rw [hcur]
        exact hl2.symm
      · rw [hcur]
        rfl
      · intro q hq
        exact absurd hq (List.not_mem_nil _)
    · rw [if_neg hcur] at hl
      cases hval : (ptrNbrs mzR cur).filter (fun q => !(cellAt mzR q).is_enemy) with
      | nil =>
        simp only [hval] at hl
        injection hl with hl1
        exact Option.noConfusion hl1
      | cons v vs =>
        simp only [hval] at hl
        obtain ⟨pre', h1, h2, h3, h4⟩ := ih (minByDist mzR v vs) (cur :: acc) p hl
        have hwmem : minByDist mzR v vs ∈
            (ptrNbrs mzR cur).filter (fun q => !(cellAt mzR q).is_enemy) := by
          rw [hval]
          exact minByDist_mem mzR v vs
        have hw1 : minByDist mzR v vs ∈ ptrNbrs mzR cur :=
          (List.mem_filter.mp hwmem).1
        have hw2 : (cellAt mzR (minByDist mzR v vs)).is_enemy = false := by
          have h5 := (List.mem_filter.mp hwmem).2
          cases hcc : (cellAt mzR (minByDist mzR v vs)).is_enemy
          · rfl
          · rw [hcc] at h5
            exact absurd h5 (by simp)
        refine ⟨pre' ++ [minByDist mzR v vs], ?_, ?_, ?_, ?_⟩
        · rw [h1, List.append_assoc, List.singleton_append]
        · exact head_append_some _ _ _ h2
        · refine List.chain'_append.mpr ⟨h3, List.chain'_singleton _, ?_⟩
          intro x hx y hy
          rw [List.getLast?_concat] at hx
          simp only [Option.mem_def, List.head?_cons, Option.some.injEq] at hx hy
          rw [← hx, ← hy]
          exact hw1
        · intro q hq
          rcases List.mem_append.mp hq with hq1 | hq2
          · exact h4 q hq1
          · have h5 := List.mem_singleton.mp hq2
            subst h5
            exact Or.inr hw2

theorem reconLoop_total (mzR : Maze) (s : Coord)
    (hstep : ∀ cur d, (cellAt mzR cur).distance = some d → cur ≠ s →
      ∃ u, u ∈ ptrNbrs mzR cur ∧ (cellAt mzR u).is_enemy = false ∧
        ∃ du, (cellAt mzR u).distance = some du ∧ du < d) :
    ∀ (fuel : Nat) (d : Nat) (cur : Coord) (acc : List Coord), d < fuel →
      (cellAt mzR cur).distance = some d →
      ∃ r, reconLoop s fuel mzR cur acc = some (some r) := by
  intro fuel
  induction fuel with
  | zero =>
    intro d cur acc hdf
    omega
  | succ f ih =>
    intro d cur acc hdf hdist
    rw [reconLoop]
    by_cases hcur : cur = s
    · rw [if_pos hcur]
      exact ⟨s :: acc, rfl⟩
    · rw [if_neg hcur]
      obtain ⟨u, hu1, hu2, du, hu3, hu4⟩ := hstep cur d hdist hcur
      have humem : u ∈ (ptrNbrs mzR cur).filter
          (fun q => !(cellAt mzR q).is_enemy) := by
        rw [List.mem_filter]
        refine ⟨hu1, ?_⟩
        rw [hu2]
        rfl
      cases hval : (ptrNbrs mzR cur).filter (fun q => !(cellAt mzR q).is_enemy) with
      | nil =>
        rw [hval] at humem
        exact absurd humem (List.not_mem_nil _)
      | cons v vs =>
        simp only [hval]
        have hmin := minByDist_min mzR v vs u (by rw [← hval]; exact humem)
        rw [hu3] at hmin
        cases hdw : (cellAt mzR (minByDist mzR v vs)).distance with
        | none =>
          rw [hdw] at hmin
          exact absurd hmin (by simp [distLt])
        | some dw =>
          rw [hdw] at hmin
          have hle : dw ≤ du := by
            simp only [distLt, decide_eq_false_iff_not] at hmin
            omega
          exact ih dw (minByDist mzR v vs) (cur :: acc) (by omega) hdw

theorem generated_wf (rows cols num : Nat) (rs : Rand) (k : Nat) (mz' : Maze)
    (k' : Nat) (h : generate_random_maze rows cols num rs k = .ok (mz', k')) :
    WF mz' rows cols := by
  unfold generate_random_maze at h
  have hfold := connectFold_wf rows cols rs (rowMajor rows cols)
    (emptyMaze rows cols, k) (dims_emptyMaze rows cols)
    (mutual_emptyMaze rows cols)
  obtain ⟨hd, hm⟩ := enemiesLoop_wf rows cols rs num _ _ _ _ h hfold.1 hfold.2
  exact ⟨hd, hm⟩

theorem corr_cycle : ∀ (fuel : Nat) (acc : List Coord),
    reconLoop (0, 0) fuel corrSearched (0, 2) acc = none ∧
    reconLoop (0, 0) fuel corrSearched (0, 1) acc = none := by
  intro fuel
  induction fuel with
  | zero =>
    intro acc
    exact ⟨rfl, rfl⟩
  | succ f ih =>
    intro acc
    constructor
    · have hstep : reconLoop (0, 0) (f + 1) corrSearched (0, 2) acc =
          reconLoop (0, 0) f corrSearched (0, 1) ((0, 2) :: acc) := rfl
      rw [hstep]
      exact (ih _).2
    · have hstep : reconLoop (0, 0) (f + 1) corrSearched (0, 1) acc =
          reconLoop (0, 0) f corrSearched (0, 2) ((0, 1) :: acc) := rfl
      rw [hstep]
      exact (ih _).1

/-- C2 counterexample.  With source = destination = the lone obstacle cell,
`astar` returns a path (rather than the no-path value) whose single
coordinate is an obstacle, contradicting the claim that no coordinate on a
returned path is an obstacle cell. -/
theorem path_validity_counterexample :
    astar 10 10 mzObs1 (0, 0) (0, 0) =
      .found [[{ is_enemy := true, visited := true, distance := some 0 }]]
        [(0, 0)] ∧
    (cellAt mzObs1 (0, 0)).is_enemy = true :=
  ⟨rfl, rfl⟩

/-- C2 (amended).  On a well-formed grid whose source cell is not an
obstacle, every path `astar` returns starts at the source, ends at the
destination, follows present adjacencies, and avoids all obstacle cells. -/
theorem astar_path_valid_amended (fuel rf rows cols : Nat) (mz mz1 : Maze)
    (s e : Coord) (p : List Coord) (hwf : WF mz rows cols)
    (hsrc : (cellAt mz s).is_enemy = false)
    (hrun : astar fuel rf mz s e = .found mz1 p) :
    FreeRoute mz s e p := by
  unfold astar at hrun
  dsimp only at hrun
  cases h1 : astarLoop e fuel (resetMaze mz) [⟨0, hArg s e, s⟩] with
  | none =>
    rw [h1] at hrun
    exact absurd hrun (by simp)
  | some mzS =>
    rw [h1] at hrun
    dsimp only at hrun
    cases h2 : (cellAt mzS e).distance with
    | none =>
      rw [h2] at hrun
      exact absurd hrun (by simp)
    | some d =>
      rw [h2] at hrun
      dsimp only at hrun
      cases h3 : reconLoop s rf mzS e [] with
      | none =>
        rw [h3] at hrun
        exact absurd hrun (by simp)
      | some o =>
        cases o with
        | none =>
          rw [h3] at hrun
          exact absurd hrun (by simp)
        | some p' =>
          rw [h3] at hrun
          dsimp only at hrun
          injection hrun with hm hp
          rw [← hp]
          have hinvE := astarLoop_light e fuel (resetMaze mz) _ mzS
            (lightInv_init mz s e) h1
          obtain ⟨pre, hsplit, hhead, hchain, henem⟩ :=
            reconLoop_success mzS s rf e [] p' h3
          have henemy_mz : ∀ q d', (cellAt mzS q).distance = some d' →
              (cellAt mz q).is_enemy = false :=
            lightInv_enemy mz s mzS hsrc hinvE
          refine ⟨?_, ?_, ?_, ?_⟩
          · rw [hsplit]
            exact hhead
          · rw [hsplit]
            exact List.getLast?_concat _
          · rw [hsplit]
            refine List.Chain'.imp ?_ hchain
            intro a b hab
            rw [ptrNbrs_shapeEq hinvE.shape,
              ptrNbrs_shapeEq (shapeEq_resetMaze mz)] at hab
            exact ptrNbrs_mutual hwf hab
          · intro q hq
            rw [hsplit] at hq
            rcases List.mem_append.mp hq with hq1 | hq2
            · rcases henem q hq1 with rfl | hq3
              · exact hsrc
              · rw [enemy_shapeEq hinvE.shape q,
                  enemy_shapeEq (shapeEq_resetMaze mz) q] at hq3
                exact hq3
            · have h5 := List.mem_singleton.mp hq2
              subst h5
              exact henemy_mz q d h2

/-- Closed witness for the amended C2 on a generated 3 × 3 maze. -/
theorem astar_path_valid_amended_witness :
    FreeRoute full3 (1, 0) (1, 2) [(1, 0), (1, 1), (1, 2)] :=
  astar_path_valid_amended 100 100 3 3 full3 (resMaze runFull3) (1, 0) (1, 2)
    [(1, 0), (1, 1), (1, 2)] (generated_wf 3 3 0 zRand 0 full3 12 rfl) rfl rfl

/-- C3 counterexample.  In the 1 × 3 corridor whose source cell is an
obstacle, the search loop completes and leaves the destination at finite
distance 2, yet the greedy descent oscillates between `(0,1)` and `(0,2)`
forever: it fails for every amount of fuel, and the program loops
without returning. -/
theorem descent_termination_counterexample :
    astarLoop (0, 2) 100 (resetMaze mzCorr) [⟨0, hArg (0, 0) (0, 2), (0, 0)⟩]
      = some corrSearched ∧
    (cellAt corrSearched (0, 2)).distance = some 2 ∧
    (∀ fuel acc, reconLoop (0, 0) fuel corrSearched (0, 2) acc = none) ∧
    ∀ rf, astar 100 rf mzCorr (0, 0) (0, 2) = .fuelOut := by
  refine ⟨rfl, rfl, fun fuel acc => (corr_cycle fuel acc).1, fun rf => ?_⟩
  unfold astar
  dsimp only
  rw [show astarLoop (0, 2) 100 (resetMaze mzCorr)
      [⟨0, hArg (0, 0) (0, 2), (0, 0)⟩] = some corrSearched from rfl]
  dsimp only
  rw [show (cellAt corrSearched (0, 2)).distance = some 2 from rfl]
  dsimp only
  rw [(corr_cycle rf []).1]

/-- C3 (amended).  On a well-formed grid whose source cell is not an
obstacle, if the search loop completes leaving the destination at finite
distance `d`, the greedy descent terminates at the source: it succeeds with
any fuel greater than `d`. -/
theorem descent_terminates_amended (rows cols fuel : Nat) (mz : Maze)
    (s e : Coord) (mzS : Maze) (d : Nat) (hwf : WF mz rows cols)
    (hsrc : (cellAt mz s).is_enemy = false)
    (hloop : astarLoop e fuel (resetMaze mz) [⟨0, hArg s e, s⟩] = some mzS)
    (hdist : (cellAt mzS e).distance = some d) :
    ∀ rf, d < rf → ∃ p, reconLoop s rf mzS e [] = some (some p) := by
  intro rf hrf
  have hinvE := astarLoop_light e fuel (resetMaze mz) _ mzS
    (lightInv_init mz s e) hloop
  exact reconLoop_total mzS s
    (lightInv_step mz rows cols s mzS hwf hsrc hinvE) rf d e [] hrf hdist

/-- Closed witness for the amended C3 on a generated 3 × 3 maze. -/
theorem descent_terminates_amended_witness :
    ∃ p, reconLoop (1, 0) 10 full3S (1, 2) [] = some (some p) :=
  descent_terminates_amended 3 3 100 full3 (1, 0) (1, 2) full3S 2
    (generated_wf 3 3 0 zRand 0 full3 12 rfl) rfl rfl rfl 10 (by decide)

/-! ### Routes, parity, and the popped-entry optimality bound -/

theorem sqrt_add_le (a b : ℝ) (ha : 0 ≤ a) (hb : 0 ≤ b) :
    Real.sqrt (a + b) ≤ Real.sqrt a + Real.sqrt b := by
  have h1 : a + b ≤ (Real.sqrt a + Real.sqrt b) ^ 2 := by
    nlinarith [Real.sq_sqrt ha, Real.sq_sqrt hb, Real.sqrt_nonneg a,
      Real.sqrt_nonneg b, mul_nonneg (Real.sqrt_nonneg a) (Real.sqrt_nonneg b)]
  calc Real.sqrt (a + b) ≤ Real.sqrt ((Real.sqrt a + Real.sqrt b) ^ 2) :=
        Real.sqrt_le_sqrt h1
  _ = Real.sqrt a + Real.sqrt b := Real.sqrt_sq (by positivity)

theorem sqrt_two_mul_le (k : Nat) :
    Real.sqrt ((2 * k : Nat) : ℝ) ≤ (k : ℝ) + 1 := by
  have h0 : ((2 * k : Nat) : ℝ) = 2 * (k : ℝ) := by push_cast; ring
  rw [h0]
  have h1 : 2 * (k : ℝ) ≤ ((k : ℝ) + 1) ^ 2 := by nlinarith [sq_nonneg ((k : ℝ) - 1)]
  calc Real.sqrt (2 * (k : ℝ)) ≤ Real.sqrt (((k : ℝ) + 1) ^ 2) :=
        Real.sqrt_le_sqrt h1
  _ = (k : ℝ) + 1 := Real.sqrt_sq (by positivity)

theorem hArg_eq (p e : Coord) :
    hArg p e = 2 * (((p.1 : ℤ) + p.2) - ((e.1 : ℤ) + e.2)).natAbs := by
  unfold hArg
  rw [show ((p.1 : ℤ) - e.1) * 2 + ((p.2 : ℤ) - e.2) * 2 =
    2 * (((p.1 : ℤ) + p.2) - ((e.1 : ℤ) + e.2)) by ring, Int.natAbs_mul]
  rfl

theorem ptrNbrs_target_in {mz : Maze} {rows cols : Nat}
    (hwf : WF mz rows cols) {u q : Coord} (h : q ∈ ptrNbrs mz u) :
    q.1 < rows ∧ q.2 < cols := by
  have hb : u.1 < rows ∧ u.2 < cols := by
    by_contra hc
    rw [mem_ptrNbrs, cellAt_dims_out mz rows cols hwf.1 u hc] at h
    rcases h with h | h | h | h <;> exact Option.noConfusion h
  have hm := hwf.2 u.1 u.2 hb.1 hb.2
  rw [mem_ptrNbrs] at h
  rcases h with h | h | h | h
  · obtain ⟨hq, hpos, -⟩ := hm.2.1 q h
    rw [hq]
    exact ⟨hb.1, by omega⟩
  · obtain ⟨hq, hpos, -⟩ := hm.1 q h
    rw [hq]
    exact ⟨hb.1, hpos⟩
  · obtain ⟨hq, hpos, -⟩ := hm.2.2.2 q h
    rw [hq]
    exact ⟨by omega, hb.2⟩
  · obtain ⟨hq, hpos, -⟩ := hm.2.2.1 q h
    rw [hq]
    exact ⟨hpos, hb.2⟩

theorem ptrNbrs_step {mz : Maze} {rows cols : Nat} (hwf : WF mz rows cols)
    {u q : Coord} (h : q ∈ ptrNbrs mz u) :
    ((q.1 : ℤ) + q.2 = (u.1 : ℤ) + u.2 + 1) ∨
    ((q.1 : ℤ) + q.2 + 1 = (u.1 : ℤ) + u.2) := by
  have hb : u.1 < rows ∧ u.2 < cols := by
    by_contra hc
    rw [mem_ptrNbrs, cellAt_dims_out mz rows cols hwf.1 u hc] at h
    rcases h with h | h | h | h <;> exact Option.noConfusion h
  have hm := hwf.2 u.1 u.2 hb.1 hb.2
  rw [mem_ptrNbrs] at h
  rcases h with h | h | h | h
  · obtain ⟨hq, hpos, -⟩ := hm.2.1 q h
    rw [hq]
    right
    dsimp only
    omega
  · obtain ⟨hq, hpos, -⟩ := hm.1 q h
    rw [hq]
    left
    dsimp only
    omega
  · obtain ⟨hq, hpos, -⟩ := hm.2.2.2 q h
    rw [hq]
    right
    dsimp only
    omega
  · obtain ⟨hq, hpos, -⟩ := hm.2.2.1 q h
    rw [hq]
    left
    dsimp only
    omega

theorem chain_disp {mz : Maze} {rows cols : Nat} (hwf : WF mz rows cols) :
    ∀ (l : List Coord) (a b : Coord),
      l.Chain' (fun x y => y ∈ ptrNbrs mz x) → l.head? = some a →
      l.getLast? = some b →
      (((b.1 : ℤ) + b.2) - ((a.1 : ℤ) + a.2)).natAbs ≤ l.length - 1 ∧
      ((((b.1 : ℤ) + b.2) - ((a.1 : ℤ) + a.2)) - ((l.length : ℤ) - 1)) % 2
        = 0 := by
  intro l
  induction l with
  | nil =>
    intro a b _ hh _
    exact absurd hh (by simp)
  | cons x t ih =>
    intro a b hch hhead hlast
    simp only [List.head?_cons, Option.some.injEq] at hhead
    cases t with
    | nil =>
      simp only [List.getLast?_singleton, Option.some.injEq] at hlast
      rw [← hhead, ← hlast]
      constructor
      · simp
      · simp
    | cons y t2 =>
      have hstep : y ∈ ptrNbrs mz x := (List.chain'_cons.mp hch).1
      have hch2 := (List.chain'_cons.mp hch).2
      rw [List.getLast?_cons_cons] at hlast
      obtain ⟨ih1, ih2⟩ := ih y b hch2 (by simp) hlast
      have hstep' := ptrNbrs_step hwf hstep
      rw [← hhead]
      constructor
      · simp only [List.length_cons] at ih1 ⊢
        rcases hstep' with h | h <;> omega
      · simp only [List.length_cons] at ih2 ⊢
        rcases hstep' with h | h <;> omega

theorem routeN_disp {mz : Maze} {rows cols : Nat} (hwf : WF mz rows cols)
    {s p : Coord} {n : Nat} (h : RouteN mz s p n) :
    (((p.1 : ℤ) + p.2) - ((s.1 : ℤ) + s.2)).natAbs ≤ n ∧
    ((((p.1 : ℤ) + p.2) - ((s.1 : ℤ) + s.2)) - (n : ℤ)) % 2 = 0 := by
  obtain ⟨l, ⟨hhead, hchain, -⟩, hlast, hlen⟩ := h
  obtain ⟨t1, t2⟩ := chain_disp hwf l s p hchain hhead hlast
  rw [hlen] at t1 t2
  exact ⟨by omega, by omega⟩

theorem routeN_endpoint_in {mz : Maze} {rows cols : Nat}
    (hwf : WF mz rows cols) {s p : Coord} {n : Nat}
    (hs : s.1 < rows ∧ s.2 < cols) (h : RouteN mz s p n) :
    p.1 < rows ∧ p.2 < cols := by
  obtain ⟨l, ⟨hhead, hchain, -⟩, hlast, hlen⟩ := h
  rcases l.eq_nil_or_concat with rfl | ⟨L, b, rfl⟩
  · exact absurd hhead (by simp)
  · simp only [List.concat_eq_append] at hhead hchain hlast hlen
    rw [List.getLast?_concat] at hlast
    injection hlast with hlast
    cases L with
    | nil =>
      simp only [List.nil_append, List.head?_cons, Option.some.injEq] at hhead
      rw [← hlast, hhead]
      exact hs
    | cons x0 t0 =>
      have hlast2 : ∀ z ∈ (x0 :: t0).getLast?, ∀ y ∈ [b].head?,
          y ∈ ptrNbrs mz z := (List.chain'_append.mp hchain).2.2
      cases hz : (x0 :: t0).getLast? with
      | none => exact absurd hz (by simp)
      | some z =>
        have hb2 : b ∈ ptrNbrs mz z := by
          apply hlast2 z _ b _
          · rw [hz]
            rfl
          · rfl
        rw [← hlast]
        exact ptrNbrs_target_in hwf hb2

theorem routeN_extend {mz : Maze} {s v q : Coord} {n : Nat}
    (h : RouteN mz s v n) (hq : q ∈ ptrNbrs mz v)
    (he : (cellAt mz q).is_enemy = false) : RouteN mz s q (n + 1) := by
  obtain ⟨l, ⟨hhead, hchain, henem⟩, hlast, hlen⟩ := h
  refine ⟨l ++ [q], ⟨head_append_some l [q] s hhead, ?_, ?_⟩, ?_, ?_⟩
  · refine List.chain'_append.mpr ⟨hchain, List.chain'_singleton _, ?_⟩
    intro x hx y hy
    simp only [Option.mem_def, List.head?_cons, Option.some.injEq] at hx hy
    rw [hlast] at hx
    injection hx with hx
    rw [← hx, ← hy]
    exact hq
  · intro r hr
    cases l with
    | nil => exact absurd hlen (by simp)
    | cons a t =>
      simp only [List.cons_append, List.tail_cons] at hr
      rcases List.mem_append.mp hr with hr1 | hr2
      · exact henem r hr1
      · have h5 := List.mem_singleton.mp hr2
        rw [h5]
        exact he
  · rw [List.getLast?_concat]
  · rw [List.length_append, hlen]
    rfl

theorem freeRoute_routeN {mz : Maze} {s e : Coord} {l : List Coord}
    (h : FreeRoute mz s e l) : RouteN mz s e (l.length - 1) ∧ 1 ≤ l.length := by
  obtain ⟨hhead, hlast, hchain, henem⟩ := h
  have hlen : 1 ≤ l.length := by
    cases l
    · exact absurd hhead (by simp)
    · simp
  refine ⟨⟨l, ⟨hhead, hchain, fun q hq => henem q (List.mem_of_mem_tail hq)⟩,
    hlast, by omega⟩, hlen⟩

theorem core_ineq {mz : Maze} {rows cols : Nat} (hwf : WF mz rows cols)
    {s e : Coord} {x y : PQEntry} {k : Nat}
    (hx : RouteN mz s x.pos x.g) (hy : RouteN mz s y.pos y.g)
    (hmx : x.m = hArg x.pos e) (hmy : y.m = hArg y.pos e)
    (hle : leFG x y)
    (hdisp : (((x.pos.1 : ℤ) + x.pos.2) - ((y.pos.1 : ℤ) + y.pos.2)).natAbs ≤ k)
    (hpar : ((((x.pos.1 : ℤ) + x.pos.2) - ((y.pos.1 : ℤ) + y.pos.2)) - (k : ℤ))
      % 2 = 0) :
    x.g ≤ y.g + k := by
  have hfle := leFG_f_le hle
  have hym : y.m ≤ x.m + 2 * k := by
    rw [hmx, hmy, hArg_eq, hArg_eq]
    omega
  have hsq : Real.sqrt (y.m : ℝ) ≤ Real.sqrt (x.m : ℝ) + ((k : ℝ) + 1) := by
    have h1 : ((y.m : Nat) : ℝ) ≤ ((x.m + 2 * k : Nat) : ℝ) :=
      Nat.cast_le.mpr hym
    have h2 : ((x.m + 2 * k : Nat) : ℝ) = (x.m : ℝ) + ((2 * k : Nat) : ℝ) := by
      push_cast
      ring
    calc Real.sqrt (y.m : ℝ) ≤ Real.sqrt ((x.m : ℝ) + ((2 * k : Nat) : ℝ)) := by
          rw [← h2]
          exact Real.sqrt_le_sqrt h1
    _ ≤ Real.sqrt (x.m : ℝ) + Real.sqrt ((2 * k : Nat) : ℝ) :=
          sqrt_add_le _ _ (by positivity) (by positivity)
    _ ≤ Real.sqrt (x.m : ℝ) + ((k : ℝ) + 1) := by
          linarith [sqrt_two_mul_le k]
  have hreal : (x.g : ℝ) ≤ ((y.g + k + 1 : Nat) : ℝ) := by
    push_cast
    linarith [hfle, hsq]
  have hineq : x.g ≤ y.g + k + 1 := by exact_mod_cast hreal
  obtain ⟨-, hpx⟩ := routeN_disp hwf hx
  obtain ⟨-, hpy⟩ := routeN_disp hwf hy
  omega

theorem routeN_refl (mz : Maze) (s : Coord) : RouteN mz s s 0 :=
  ⟨[s], ⟨rfl, List.chain'_singleton _, fun _ hq => absurd hq
    (List.not_mem_nil _)⟩, rfl, rfl⟩

theorem searchInv_init (mz : Maze) (s e : Coord) :
    SearchInv mz s e (resetMaze mz) [⟨0, hArg s e, s⟩] := by
  refine ⟨shapeEq_resetMaze mz, ?_, ?_, ?_, ?_, ?_, ?_⟩
  · intro j hj hjl
    simp only [List.length_singleton] at hjl
    omega
  · intro en hen
    have h1 := List.mem_singleton.mp hen
    rw [h1]
  · intro en hen
    have h1 := List.mem_singleton.mp hen
    rw [h1]
    exact routeN_refl mz s
  · intro p hp
    rw [cellAt_resetMaze] at hp
    exact Bool.noConfusion hp
  · intro q dq hqv hqd
    rw [cellAt_resetMaze] at hqd
    have h2 : (none : Option Nat) = some dq := hqd
    exact Option.noConfusion h2
  · intro p n hr hv
    refine ⟨⟨0, hArg s e, s⟩, List.mem_singleton.mpr rfl, ?_⟩
    obtain ⟨l, ⟨hhead, hchain, henem⟩, hlast, hlen⟩ := hr
    refine ⟨l, hhead, hlast, hchain, ?_, henem, by dsimp only; omega⟩
    intro q _
    rw [cellAt_resetMaze]

theorem last_occ_split {α : Type} [DecidableEq α] {a : α} :
    ∀ {l : List α}, a ∈ l → ∃ l1 l2, l = l1 ++ a :: l2 ∧ a ∉ l2 := by
  intro l
  induction l with
  | nil => intro h; exact absurd h (List.not_mem_nil _)
  | cons x t ih =>
    intro h
    by_cases hat : a ∈ t
    · obtain ⟨l1, l2, h1, h2⟩ := ih hat
      exact ⟨x :: l1, l2, by rw [h1]; rfl, h2⟩
    · rcases List.mem_cons.mp h with h3 | h3
      · exact ⟨[], t, by rw [h3, List.nil_append], hat⟩
      · exact absurd h3 hat

theorem popped_opt {mz : Maze} {rows cols : Nat} {s e : Coord} {mzC : Maze}
    {hp : List PQEntry} (hwf : WF mz rows cols)
    (hinv : SearchInv mz s e mzC hp) {epop : PQEntry} {h' : List PQEntry}
    (hperm : List.Perm hp (epop :: h'))
    (hmin : ∀ y ∈ h', leFG epop y)
    (hv : (cellAt mzC epop.pos).visited = false) :
    ∀ n2, RouteN mz s epop.pos n2 → epop.g ≤ n2 := by
  intro n2 hr2
  obtain ⟨en, hen, l, hl1, hl2, hl3, hl4, hl5, hl6⟩ :=
    hinv.cover epop.pos n2 hr2 hv
  have hlen1 : 1 ≤ l.length := by
    cases l
    · exact absurd hl1 (by simp)
    · simp
  rcases List.mem_cons.mp (hperm.mem_iff.mp hen) with heq | hh'
  · rw [heq] at hl6
    omega
  · have hle := hmin en hh'
    obtain ⟨hd1, hd2⟩ := chain_disp hwf l en.pos epop.pos hl3 hl1 hl2
    have hkey := core_ineq hwf
      (hinv.went epop (hperm.mem_iff.mpr (List.mem_cons_self _ _)))
      (hinv.went en hen)
      (hinv.hm epop (hperm.mem_iff.mpr (List.mem_cons_self _ _)))
      (hinv.hm en hen) hle hd1 (by omega)
    omega

theorem searchInv_pop_visited {mz : Maze} {s e : Coord} {mzC : Maze}
    {hp : List PQEntry} (hinv : SearchInv mz s e mzC hp)
    {epop : PQEntry} {h' : List PQEntry}
    (hperm : List.Perm hp (epop :: h')) (hheap' : IsHeap leFG h')
    (hv : (cellAt mzC epop.pos).visited = true) :
    SearchInv mz s e mzC h' := by
  have hsub : ∀ en ∈ h', en ∈ hp := fun en hen =>
    hperm.mem_iff.mpr (List.mem_cons_of_mem _ hen)
  refine ⟨hinv.shape, hheap', fun en hen => hinv.hm en (hsub en hen),
    fun en hen => hinv.went en (hsub en hen), hinv.vopt, ?_, ?_⟩
  · intro q dq hqv hqd
    obtain ⟨en, hen, hpos, hg⟩ := hinv.uent q dq hqv hqd
    have hne : en ≠ epop := by
      intro hcon
      rw [hcon] at hpos
      rw [hpos, hqv] at hv
      exact Bool.noConfusion hv
    rcases List.mem_cons.mp (hperm.mem_iff.mp hen) with heq | hh'
    · exact absurd heq hne
    · exact ⟨en, hh', hpos, hg⟩
  · intro p n hr hpv
    obtain ⟨en, hen, l, hl1, hl2, hl3, hl4, hl5, hl6⟩ :=
      hinv.cover p n hr hpv
    have henv : (cellAt mzC en.pos).visited = false :=
      hl4 en.pos (List.mem_of_mem_head? (by rw [hl1]; rfl))
    have hne : en ≠ epop := by
      intro hcon
      rw [hcon] at henv
      rw [hv] at henv
      exact Bool.noConfusion henv
    rcases List.mem_cons.mp (hperm.mem_iff.mp hen) with heq | hh'
    · exact absurd heq hne
    · exact ⟨en, hh', l, hl1, hl2, hl3, hl4, hl5, hl6⟩

theorem relaxOne_heavy {mz : Maze} {s e : Coord} {mzV : Maze} {g : Nat}
    {epos : Coord} (hroute : RouteN mz s epos g)
    (st : Maze × List PQEntry) (q : Coord)
    (hinv : RelaxInv mz s e mzV st)
    (hq : q ∈ ptrNbrs mz epos) :
    RelaxInv mz s e mzV (relaxOne e g st q) ∧
    (∀ en ∈ st.2, en ∈ (relaxOne e g st q).2) ∧
    ((cellAt st.1 q).visited = false → (cellAt mz q).is_enemy = false →
      ∃ en ∈ (relaxOne e g st q).2, en.pos = q ∧ en.g ≤ g + 1) := by
  have htr : ∀ {x y z : PQEntry}, leFG x y → leFG y z → leFG x z :=
    fun h1 h2 => leFG_trans h1 h2
  unfold relaxOne
  dsimp only
  split
  · rename_i hguard
    split
    · rename_i hlt
      dsimp only
      have hqv : (cellAt st.1 q).visited = false := by
        cases hcc : (cellAt st.1 q).visited
        · rfl
        · rw [hcc] at hguard
          simp at hguard
      have hqe : (cellAt st.1 q).is_enemy = false := by
        cases hcc : (cellAt st.1 q).is_enemy
        · rfl
        · rw [hcc] at hguard
          simp at hguard
      have hqe0 : (cellAt mz q).is_enemy = false := by
        rw [← enemy_shapeEq hinv.shape q]
        exact hqe
      have hcell : ∀ p : Coord,
          cellAt (updateCell st.1 q
            (fun cc => { cc with distance := some (g + 1) })) p =
          if p = q ∧ q.1 < st.1.length ∧ q.2 < (st.1.getD q.1 []).length then
            { cellAt st.1 q with distance := some (g + 1) }
          else cellAt st.1 p := by
        intro p
        rw [cellAt_updateCell]
      have hvis1 : ∀ p : Coord,
          (cellAt (updateCell st.1 q
            (fun cc => { cc with distance := some (g + 1) })) p).visited =
          (cellAt st.1 p).visited := by
        intro p
        rw [hcell p]
        split
        · rename_i hc
          rw [hc.1]
        · rfl
      have hpmem : ∀ en ∈ st.2, en ∈ heapPush (cmpEntry (updateCell st.1 q
          (fun cc => { cc with distance := some (g + 1) }))) st.2
          ⟨g + 1, hArg q e, q⟩ := by
        intro en hen
        exact (heapPush_perm _ _ _).mem_iff.mpr (List.mem_cons_of_mem _ hen)
      have hnew : (⟨g + 1, hArg q e, q⟩ : PQEntry) ∈
          heapPush (cmpEntry (updateCell st.1 q
            (fun cc => { cc with distance := some (g + 1) }))) st.2
          ⟨g + 1, hArg q e, q⟩ :=
        (heapPush_perm _ _ _).mem_iff.mpr (List.mem_cons_self _ _)
      refine ⟨⟨?_, ?_, ?_, ?_, ?_, ?_, ?_⟩, hpmem,
        fun _ _ => ⟨⟨g + 1, hArg q e, q⟩, hnew, rfl, le_refl _⟩⟩
      · exact shapeEq_trans hinv.shape (shapeEq_updateCell_vd st.1 q
          (fun cc => { cc with distance := some (g + 1) })
          (fun c => ⟨rfl, rfl, rfl, rfl, rfl⟩))
      · exact fun p => (hvis1 p).trans (hinv.hvis p)
      · exact @heapPush_heap leFG htr
          (cmpEntry (updateCell st.1 q
            (fun cc => { cc with distance := some (g + 1) })))
          (cmpOK_cmpEntry _) st.2 ⟨g + 1, hArg q e, q⟩ hinv.heap
      · intro en hen
        have hmem : en ∈ (⟨g + 1, hArg q e, q⟩ : PQEntry) :: st.2 :=
          (heapPush_perm _ _ _).mem_iff.mp hen
        cases hmem with
        | head => rfl
        | tail _ htl => exact hinv.hm en htl
      · intro en hen
        have hmem : en ∈ (⟨g + 1, hArg q e, q⟩ : PQEntry) :: st.2 :=
          (heapPush_perm _ _ _).mem_iff.mp hen
        cases hmem with
        | head => exact routeN_extend hroute hq hqe0
        | tail _ htl => exact hinv.went en htl
      · intro p hp
        rw [hvis1 p] at hp
        have hpq : p ≠ q := by
          intro hcon
          rw [hcon, hqv] at hp
          exact Bool.noConfusion hp
        obtain ⟨n, hd, hr, hmin2⟩ := hinv.vopt p hp
        rw [hcell p, if_neg (fun hc => hpq hc.1)]
        exact ⟨n, hd, hr, hmin2⟩
      · intro q2 dq hv2 hd2
        rw [hvis1 q2] at hv2
        rw [hcell q2] at hd2
        split at hd2
        · rename_i hc
          have hd3 : some (g + 1) = some dq := hd2
          injection hd3 with hd4
          exact ⟨⟨g + 1, hArg q e, q⟩, hnew, hc.1.symm, hd4⟩
        · obtain ⟨en, hen, he1, he2⟩ := hinv.uent q2 dq hv2 hd2
          exact ⟨en, hpmem en hen, he1, he2⟩
    · rename_i hlt
      refine ⟨hinv, fun en hen => hen, ?_⟩
      intro hvq _
      cases hd : (cellAt st.1 q).distance with
      | none =>
        exfalso
        apply hlt
        rw [hd]
        rfl
      | some v =>
        have hv2 : v ≤ g + 1 := by
          by_contra hcon
          apply hlt
          rw [hd]
          exact decide_eq_true (by omega)
        obtain ⟨en, hen, he1, he2⟩ := hinv.uent q v hvq hd
        exact ⟨en, hen, he1, by omega⟩
  · rename_i hguard
    refine ⟨hinv, fun en hen => hen, ?_⟩
    intro hvq heq
    exfalso
    apply hguard
    have hes : (cellAt st.1 q).is_enemy = false := by
      rw [enemy_shapeEq hinv.shape q]
      exact heq
    rw [hvq, hes]
    rfl

theorem relaxFold_heavy {mz : Maze} {s e : Coord} {mzV : Maze} {g : Nat}
    {epos : Coord} (hroute : RouteN mz s epos g) :
    ∀ (l : List Coord) (st : Maze × List PQEntry),
      RelaxInv mz s e mzV st →
      (∀ q ∈ l, q ∈ ptrNbrs mz epos) →
      RelaxInv mz s e mzV (l.foldl (relaxOne e g) st) ∧
      (∀ en ∈ st.2, en ∈ (l.foldl (relaxOne e g) st).2) ∧
      (∀ q ∈ l, (cellAt mzV q).visited = false →
        (cellAt mz q).is_enemy = false →
        ∃ en ∈ (l.foldl (relaxOne e g) st).2, en.pos = q ∧ en.g ≤ g + 1) := by
  intro l
  induction l with
  | nil =>
    intro st h _
    exact ⟨h, fun en hen => hen, fun q hq => absurd hq (List.not_mem_nil _)⟩
  | cons q t ih =>
    intro st h hsub
    rw [List.foldl_cons]
    obtain ⟨h1, h2, h3⟩ := relaxOne_heavy hroute st q h
      (hsub q (List.mem_cons_self _ _))
    obtain ⟨ihinv, ihold, ihq⟩ := ih (relaxOne e g st q) h1
      (fun x hx => hsub x (List.mem_cons_of_mem _ hx))
    refine ⟨ihinv, fun en hen => ihold en (h2 en hen), ?_⟩
    intro x hx hxv hxe
    rcases List.mem_cons.mp hx with hx1 | hx2
    · obtain ⟨en, hen, he1, he2⟩ := h3
        (by rw [h.hvis q, ← hx1]; exact hxv) (by rw [← hx1]; exact hxe)
      exact ⟨en, ihold en hen, by rw [he1, hx1], he2⟩
    · exact ihq x hx2 hxv hxe

theorem searchInv_step {mz : Maze} {rows cols : Nat} {s e : Coord}
    {mzC : Maze} {hp : List PQEntry} (hwf : WF mz rows cols)
    (hs : s.1 < rows ∧ s.2 < cols)
    (hinv : SearchInv mz s e mzC hp)
    {epop : PQEntry} {h' : List PQEntry}
    (hperm : List.Perm hp (epop :: h'))
    (hheap' : IsHeap leFG h')
    (hmin : ∀ y ∈ h', leFG epop y)
    (hv : (cellAt mzC epop.pos).visited = false) :
    SearchInv mz s e
      ((ptrNbrs (updateCell mzC epop.pos
          (fun c => { c with visited := true, distance := some epop.g }))
          epop.pos).foldl (relaxOne e epop.g)
        (updateCell mzC epop.pos
          (fun c => { c with visited := true, distance := some epop.g }),
          h')).1
      ((ptrNbrs (updateCell mzC epop.pos
          (fun c => { c with visited := true, distance := some epop.g }))
          epop.pos).foldl (relaxOne e epop.g)
        (updateCell mzC epop.pos
          (fun c => { c with visited := true, distance := some epop.g }),
          h')).2 := by
  set mz1 := updateCell mzC epop.pos
    (fun c => { c with visited := true, distance := some epop.g }) with hmz1
  have hmem : epop ∈ hp := hperm.mem_iff.mpr (List.mem_cons_self _ _)
  have hroute : RouteN mz s epop.pos epop.g := hinv.went epop hmem
  have hopt := popped_opt hwf hinv hperm hmin hv
  have hbr : epop.pos.1 < rows ∧ epop.pos.2 < cols :=
    routeN_endpoint_in hwf hs hroute
  have hb : epop.pos.1 < mzC.length ∧
      epop.pos.2 < (mzC.getD epop.pos.1 []).length := by
    obtain ⟨hd1, hd2⟩ := hwf.1
    obtain ⟨hs1, hs2, -⟩ := hinv.shape
    constructor
    · rw [← hs1, hd1]
      exact hbr.1
    · rcases hd2 epop.pos.1 with hr | hr
      · rw [← hs2 epop.pos.1, hr]
        exact hbr.2
      · omega
  have hcell : ∀ p : Coord, cellAt mz1 p =
      if p = epop.pos ∧ epop.pos.1 < mzC.length ∧
          epop.pos.2 < (mzC.getD epop.pos.1 []).length then
        { cellAt mzC epop.pos with visited := true, distance := some epop.g }
      else cellAt mzC p := by
    intro p
    rw [hmz1, cellAt_updateCell]
  have hshape1 : ShapeEq mz mz1 :=
    shapeEq_trans hinv.shape (shapeEq_updateCell_vd mzC epop.pos
      (fun c => { c with visited := true, distance := some epop.g })
      (fun c => ⟨rfl, rfl, rfl, rfl, rfl⟩))
  have hev1 : (cellAt mz1 epop.pos).visited = true := by
    rw [hcell epop.pos, if_pos ⟨rfl, hb⟩]
  have hed1 : (cellAt mz1 epop.pos).distance = some epop.g := by
    rw [hcell epop.pos, if_pos ⟨rfl, hb⟩]
  have hinit : RelaxInv mz s e mz1 (mz1, h') := by
    refine ⟨hshape1, fun p => rfl, hheap', ?_, ?_, ?_, ?_⟩
    · intro en hen
      exact hinv.hm en (hperm.mem_iff.mpr (List.mem_cons_of_mem _ hen))
    · intro en hen
      exact hinv.went en (hperm.mem_iff.mpr (List.mem_cons_of_mem _ hen))
    · intro p hp2
      by_cases hpe : p = epop.pos
      · subst hpe
        exact ⟨epop.g, hed1, hroute, hopt⟩
      · rw [hcell p, if_neg (fun hc => hpe hc.1)] at hp2 ⊢
        obtain ⟨n, hd, hr, hm2⟩ := hinv.vopt p hp2
        exact ⟨n, hd, hr, hm2⟩
    · intro q dq hv2 hd2
      have hqe : q ≠ epop.pos := by
        intro hcon
        rw [hcon, hev1] at hv2
        exact Bool.noConfusion hv2
      rw [hcell q, if_neg (fun hc => hqe hc.1)] at hv2 hd2
      obtain ⟨en, hen, he1, he2⟩ := hinv.uent q dq hv2 hd2
      have hne : en ≠ epop := by
        intro hcon
        rw [hcon] at he1
        exact hqe he1.symm
      rcases List.mem_cons.mp (hperm.mem_iff.mp hen) with h5 | h5
      · exact absurd h5 hne
      · exact ⟨en, h5, he1, he2⟩
  obtain ⟨hfin, hold, hpush⟩ := relaxFold_heavy hroute
    (ptrNbrs mz1 epop.pos) (mz1, h') hinit
    (fun q hq => by rwa [ptrNbrs_shapeEq hshape1] at hq)
  refine ⟨hfin.shape, hfin.heap, hfin.hm, hfin.went, hfin.vopt, hfin.uent, ?_⟩
  intro p n hr hpv
  have hpv1 : (cellAt mz1 p).visited = false := by
    rw [← hfin.hvis p]
    exact hpv
  have hpe : p ≠ epop.pos := by
    intro hcon
    rw [hcon, hev1] at hpv1
    exact Bool.noConfusion hpv1
  have hpvC : (cellAt mzC p).visited = false := by
    rw [hcell p, if_neg (fun hc => hpe hc.1)] at hpv1
    exact hpv1
  obtain ⟨en, hen, l, hl1, hl2, hl3, hl4, hl5, hl6⟩ := hinv.cover p n hr hpvC
  by_cases hel : epop.pos ∈ l
  · obtain ⟨l1, l2, hsplit, hnotin⟩ := last_occ_split hel
    cases l2 with
    | nil =>
      exfalso
      rw [hsplit, List.getLast?_concat] at hl2
      injection hl2 with hl2'
      exact hpe hl2'.symm
    | cons q0 l2' =>
      rw [hsplit] at hl3
      obtain ⟨hch1, hch2, hlink⟩ := List.chain'_append.mp hl3
      have hq0 : q0 ∈ ptrNbrs mz epop.pos := (List.chain'_cons.mp hch2).1
      have hq0tail : q0 ∈ l.tail := by
        rw [hsplit]
        cases l1 with
        | nil =>
          simp only [List.nil_append, List.tail_cons]
          exact List.mem_cons_self _ _
        | cons a t1 =>
          simp only [List.cons_append, List.tail_cons]
          exact List.mem_append.mpr (Or.inr
            (List.mem_cons_of_mem _ (List.mem_cons_self _ _)))
      have hq0enemy : (cellAt mz q0).is_enemy = false := hl5 q0 hq0tail
      have hq0ne : q0 ≠ epop.pos := by
        intro hcon
        exact hnotin (by rw [← hcon]; exact List.mem_cons_self _ _)
      have hq0mem : q0 ∈ l := by
        rw [hsplit]
        exact List.mem_append.mpr (Or.inr
          (List.mem_cons_of_mem _ (List.mem_cons_self _ _)))
      have hq0v1 : (cellAt mz1 q0).visited = false := by
        rw [hcell q0, if_neg (fun hc => hq0ne hc.1)]
        exact hl4 q0 hq0mem
      obtain ⟨enq, henq, henq1, henq2⟩ := hpush q0
        (by rw [ptrNbrs_shapeEq hshape1]; exact hq0) hq0v1 hq0enemy
      have hpre : List.Chain' (fun a b => b ∈ ptrNbrs mz a)
          (l1 ++ [epop.pos]) := by
        refine List.chain'_append.mpr ⟨hch1, List.chain'_singleton _, ?_⟩
        intro x hx y hy
        simp only [Option.mem_def, List.head?_cons, Option.some.injEq] at hy
        rw [← hy]
        exact hlink x hx epop.pos rfl
      have hpreHead : (l1 ++ [epop.pos]).head? = some en.pos := by
        cases l1 with
        | nil =>
          rw [hsplit] at hl1
          simp only [List.nil_append, List.head?_cons,
            Option.some.injEq] at hl1
          simp only [List.nil_append, List.head?_cons, hl1]
        | cons a t1 =>
          rw [hsplit] at hl1
          simp only [List.cons_append, List.head?_cons] at hl1 ⊢
          exact hl1
      have hpreLast : (l1 ++ [epop.pos]).getLast? = some epop.pos :=
        List.getLast?_concat _
      obtain ⟨hd1, hd2⟩ := chain_disp hwf (l1 ++ [epop.pos]) en.pos epop.pos
        hpre hpreHead hpreLast
      have hlen1 : (l1 ++ [epop.pos]).length = l1.length + 1 := by
        rw [List.length_append, List.length_singleton]
      have hle : leFG epop en := by
        rcases List.mem_cons.mp (hperm.mem_iff.mp hen) with h5 | h5
        · rw [h5]
          exact leFG_refl _
        · exact hmin en h5
      have hkey : epop.g ≤ en.g + l1.length :=
        core_ineq hwf hroute (hinv.went en hen)
          (hinv.hm epop hmem) (hinv.hm en hen) hle
          (by rw [hlen1] at hd1; omega)
          (by rw [hlen1] at hd2; omega)
      have hlast2 : (q0 :: l2').getLast? = some p := by
        rw [hsplit] at hl2
        rw [List.getLast?_append_of_ne_nil _ (by simp),
          List.getLast?_cons_cons] at hl2
        exact hl2
      have hlenl : l.length = l1.length + (l2'.length + 2) := by
        rw [hsplit]
        simp only [List.length_append, List.length_cons]
      refine ⟨enq, henq, q0 :: l2', by rw [List.head?_cons, henq1],
        hlast2, (List.chain'_cons.mp hch2).2, ?_, ?_, ?_⟩
      · intro x hx
        have hxl : x ∈ l := by
          rw [hsplit]
          exact List.mem_append.mpr (Or.inr (List.mem_cons_of_mem _ hx))
        have hxne : x ≠ epop.pos := fun hcon => hnotin (hcon ▸ hx)
        rw [hfin.hvis x, hcell x, if_neg (fun hc => hxne hc.1)]
        exact hl4 x hxl
      · intro x hx
        apply hl5
        rw [hsplit]
        cases l1 with
        | nil =>
          simp only [List.nil_append, List.tail_cons]
          exact List.mem_cons_of_mem _ hx
        | cons a t1 =>
          simp only [List.cons_append, List.tail_cons]
          exact List.mem_append.mpr (Or.inr
            (List.mem_cons_of_mem _ (List.mem_cons_of_mem _ hx)))
      · simp only [List.length_cons]
        omega
  · have hheadmem : en.pos ∈ l := List.mem_of_mem_head? (by rw [hl1]; rfl)
    have henp : en ≠ epop := fun hcon => hel (by rw [← hcon]; exact hheadmem)
    have hen' : en ∈ h' := by
      rcases List.mem_cons.mp (hperm.mem_iff.mp hen) with h5 | h5
      · exact absurd h5 henp
      · exact h5
    refine ⟨en, hold en hen', l, hl1, hl2, hl3, ?_, hl5, hl6⟩
    intro x hx
    have hxne : x ≠ epop.pos := fun hcon => hel (hcon ▸ hx)
    rw [hfin.hvis x, hcell x, if_neg (fun hc => hxne hc.1)]
    exact hl4 x hx

theorem astarLoop_heavy {mz : Maze} {rows cols : Nat} {s e : Coord}
    (hwf : WF mz rows cols) (hs : s.1 < rows ∧ s.2 < cols) :
    ∀ (fuel : Nat) (mzC : Maze) (hp : List PQEntry) (mz1 : Maze),
      SearchInv mz s e mzC hp → astarLoop e fuel mzC hp = some mz1 →
      SearchInv mz s e mz1 [] := by
  intro fuel
  induction fuel with
  | zero =>
    intro mzC hp mz1 hinv hl
    cases hp with
    | nil =>
      rw [astarLoop_nil] at hl
      injection hl with h
      rw [← h]
      exact hinv
    | cons x xs => exact absurd hl (by simp [astarLoop])
  | succ f ih =>
    intro mzC hp mz1 hinv hl
    cases hp with
    | nil =>
      rw [astarLoop_nil] at hl
      injection hl with h
      rw [← h]
      exact hinv
    | cons x xs =>
      rw [astarLoop] at hl
      obtain ⟨e0, h', hpop, hperm⟩ := heapPop_perm (cmpEntry mzC) (x :: xs)
        (by simp)
      rw [hpop] at hl
      have htr : ∀ {a b c : PQEntry}, leFG a b → leFG b c → leFG a c :=
        fun h1 h2 => leFG_trans h1 h2
      obtain ⟨hheap', hmin⟩ := @heapPop_heap leFG leFG_refl htr
        (cmpEntry mzC) (cmpOK_cmpEntry mzC) (x :: xs) hinv.heap e0 h' hpop
      by_cases hv : (cellAt mzC e0.pos).visited = true
      · simp only [hv, if_true] at hl
        exact ih mzC h' mz1 (searchInv_pop_visited hinv hperm hheap' hv) hl
      · simp only [hv, Bool.false_eq_true, if_false] at hl
        have hvfalse : (cellAt mzC e0.pos).visited = false := bool_eq_false hv
        exact ih _ _ mz1
          (searchInv_step hwf hs hinv hperm hheap' hmin hvfalse) hl

theorem reconLoop_len (mzR : Maze) (s : Coord)
    (hstep : ∀ cur d, (cellAt mzR cur).distance = some d → cur ≠ s →
      ∃ u, u ∈ ptrNbrs mzR cur ∧ (cellAt mzR u).is_enemy = false ∧
        ∃ du, (cellAt mzR u).distance = some du ∧ du < d) :
    ∀ (fuel : Nat) (d : Nat) (cur : Coord) (acc r : List Coord),
      (cellAt mzR cur).distance = some d →
      reconLoop s fuel mzR cur acc = some (some r) →
      r.length ≤ d + 1 + acc.length := by
  intro fuel
  induction fuel with
  | zero =>
    intro d cur acc r _ hl
    exact absurd hl (by simp [reconLoop])
  | succ f ih =>
    intro d cur acc r hdist hl
    rw [reconLoop] at hl
    by_cases hcur : cur = s
    · rw [if_pos hcur] at hl
      injection hl with hl1
      injection hl1 with hl2
      rw [← hl2]
      simp only [List.length_cons]
      omega
    · rw [if_neg hcur] at hl
      obtain ⟨u, hu1, hu2, du, hu3, hu4⟩ := hstep cur d hdist hcur
      have humem : u ∈ (ptrNbrs mzR cur).filter
          (fun q => !(cellAt mzR q).is_enemy) := by
        rw [List.mem_filter]
        refine ⟨hu1, ?_⟩
        rw [hu2]
        rfl
      cases hval : (ptrNbrs mzR cur).filter
          (fun q => !(cellAt mzR q).is_enemy) with
      | nil =>
        rw [hval] at humem
        exact absurd humem (List.not_mem_nil _)
      | cons v vs =>
        simp only [hval] at hl
        have hmin := minByDist_min mzR v vs u (by rw [← hval]; exact humem)
        rw [hu3] at hmin
        cases hdw : (cellAt mzR (minByDist mzR v vs)).distance with
        | none =>
          rw [hdw] at hmin
          exact absurd hmin (by simp [distLt])
        | some dw =>
          rw [hdw] at hmin
          have hle : dw ≤ du := by
            simp only [distLt, decide_eq_false_iff_not] at hmin
            omega
          have hrec := ih dw (minByDist mzR v vs) (cur :: acc) r hdw hl
          simp only [List.length_cons] at hrec
          omega

/-- C1.  On a well-formed grid (the data-model invariant of every maze the
program builds), for distinct endpoints joined by at least one
obstacle-free route, any path the search returns is itself an obstacle-free
route from source to destination and its coordinate count is minimal among
all obstacle-free routes — the returned path is globally shortest, the
non-admissible `√(2·|Δrow| + 2·|Δcol|)` heuristic notwithstanding (a parity
argument shows the heuristic's overshoot never exceeds the slack available
between routes of the same endpoints). -/
theorem astar_returns_shortest (fuel rf rows cols : Nat) (mz mz1 : Maze)
    (s e : Coord) (p : List Coord) (hwf : WF mz rows cols)
    (hne : s ≠ e) (hex : ∃ q, FreeRoute mz s e q)
    (hrun : astar fuel rf mz s e = .found mz1 p) :
    FreeRoute mz s e p ∧ ∀ q, FreeRoute mz s e q → p.length ≤ q.length := by
  obtain ⟨q0, hq0head, hq0last, hq0chain, hq0enem⟩ := hex
  have hsrc : (cellAt mz s).is_enemy = false :=
    hq0enem s (List.mem_of_mem_head? (by rw [hq0head]; rfl))
  have hroute0 : RouteN mz s e (q0.length - 1) ∧ 1 ≤ q0.length :=
    freeRoute_routeN ⟨hq0head, hq0last, hq0chain, hq0enem⟩
  have hsb : s.1 < rows ∧ s.2 < cols := by
    by_contra hsb
    have hc0 : cellAt mz s = ({} : Cell) :=
      cellAt_dims_out mz rows cols hwf.1 s hsb
    have hemp : ptrNbrs mz s = [] := by
      unfold ptrNbrs
      rw [hc0]
      rfl
    cases q0 with
    | nil => exact absurd hq0head (by simp)
    | cons x t =>
      simp only [List.head?_cons, Option.some.injEq] at hq0head
      cases t with
      | nil =>
        simp only [List.getLast?_singleton, Option.some.injEq] at hq0last
        exact hne (hq0head.symm.trans hq0last)
      | cons y t2 =>
        have hy : y ∈ ptrNbrs mz x := (List.chain'_cons.mp hq0chain).1
        rw [hq0head, hemp] at hy
        exact absurd hy (List.not_mem_nil _)
  unfold astar at hrun
  dsimp only at hrun
  cases h1 : astarLoop e fuel (resetMaze mz) [⟨0, hArg s e, s⟩] with
  | none =>
    rw [h1] at hrun
    exact absurd hrun (by simp)
  | some mzS =>
    rw [h1] at hrun
    dsimp only at hrun
    cases h2 : (cellAt mzS e).distance with
    | none =>
      rw [h2] at hrun
      exact absurd hrun (by simp)
    | some d =>
      rw [h2] at hrun
      dsimp only at hrun
      cases h3 : reconLoop s rf mzS e [] with
      | none =>
        rw [h3] at hrun
        exact absurd hrun (by simp)
      | some o =>
        cases o with
        | none =>
          rw [h3] at hrun
          exact absurd hrun (by simp)
        | some p' =>
          rw [h3] at hrun
          dsimp only at hrun
          injection hrun with hm hp
          rw [← hp]
          have hinvE := astarLoop_light e fuel (resetMaze mz) _ mzS
            (lightInv_init mz s e) h1
          have hinvH := astarLoop_heavy hwf hsb fuel (resetMaze mz)
            [⟨0, hArg s e, s⟩] mzS (searchInv_init mz s e) h1
          have hstep := lightInv_step mz rows cols s mzS hwf hsrc hinvE
          -- the destination must have been visited: a route to an
          -- unvisited cell would demand an entry in the empty frontier
          have hvisE : (cellAt mzS e).visited = true := by
            cases hcc : (cellAt mzS e).visited
            · exfalso
              obtain ⟨en, hen, -⟩ :=
                hinvH.cover e (q0.length - 1) hroute0.1 hcc
              exact absurd hen (List.not_mem_nil _)
            · rfl
          obtain ⟨nE, hdE, hrE, hminE⟩ := hinvH.vopt e hvisE
          have hnEd : nE = d := by
            rw [h2] at hdE
            injection hdE with h7
            exact h7.symm
          -- the returned path is an obstacle-free route (as for C2)
          obtain ⟨pre, hsplit, hhead, hchain, henem⟩ :=
            reconLoop_success mzS s rf e [] p' h3
          have henemy_mz : ∀ q d', (cellAt mzS q).distance = some d' →
              (cellAt mz q).is_enemy = false :=
            lightInv_enemy mz s mzS hsrc hinvE
          have hfree : FreeRoute mz s e p' := by
            refine ⟨?_, ?_, ?_, ?_⟩
            · rw [hsplit]
              exact hhead
            · rw [hsplit]
              exact List.getLast?_concat _
            · rw [hsplit]
              refine List.Chain'.imp ?_ hchain
              intro a b hab
              rw [ptrNbrs_shapeEq hinvE.shape,
                ptrNbrs_shapeEq (shapeEq_resetMaze mz)] at hab
              exact ptrNbrs_mutual hwf hab
            · intro q hq
              rw [hsplit] at hq
              rcases List.mem_append.mp hq with hq1 | hq2
              · rcases henem q hq1 with rfl | hq3
                · exact hsrc
                · rw [enemy_shapeEq hinvE.shape q,
                    enemy_shapeEq (shapeEq_resetMaze mz) q] at hq3
                  exact hq3
              · have h5 := List.mem_singleton.mp hq2
                subst h5
                exact henemy_mz q d h2
          refine ⟨hfree, ?_⟩
          -- the returned path has at most d + 1 coordinates, and every
          -- obstacle-free route has at least d + 1
          have hup : p'.length ≤ d + 1 := by
            have h6 := reconLoop_len mzS s hstep rf d e [] p' h2 h3
            simp only [List.length_nil] at h6
            omega
          intro q hqfree
          obtain ⟨hqr, hq1⟩ := freeRoute_routeN hqfree
          have hlow : nE ≤ q.length - 1 := hminE (q.length - 1) hqr
          omega

/-- Closed witness for C1 on a generated 3 × 3 maze: the returned
three-cell path is an obstacle-free route of minimal coordinate count. -/
theorem astar_returns_shortest_witness :
    FreeRoute full3 (1, 0) (1, 2) [(1, 0), (1, 1), (1, 2)] ∧
    ∀ q, FreeRoute full3 (1, 0) (1, 2) q →
      ([(1, 0), (1, 1), (1, 2)] : List Coord).length ≤ q.length :=
  astar_returns_shortest 100 100 3 3 full3 (resMaze runFull3) (1, 0) (1, 2)
    [(1, 0), (1, 1), (1, 2)] (generated_wf 3 3 0 zRand 0 full3 12 rfl)
    (by decide) ⟨[(1, 0), (1, 1), (1, 2)], by
      unfold FreeRoute
      exact ⟨by decide, by decide, List.chain'_cons.mpr ⟨by decide,
        List.chain'_cons.mpr ⟨by decide, List.chain'_singleton _⟩⟩,
        by decide⟩⟩ rfl

/-- C8.  Running `astar` a second time on the maze object left by a first
run (with the same endpoints) gives the identical result: the entry reset
wipes the only state the first run mutated. -/
theorem astar_idempotent (fuel rf : Nat) (mz : Maze) (s e : Coord) :
    (∀ mz1 p, astar fuel rf mz s e = .found mz1 p →
      astar fuel rf mz1 s e = .found mz1 p) ∧
    (∀ mz1, astar fuel rf mz s e = .noPath mz1 →
      astar fuel rf mz1 s e = .noPath mz1) := by
  have hrerun : ∀ mz1 : Maze,
      astarLoop e fuel (resetMaze mz) [⟨0, hArg s e, s⟩] = some mz1 →
      astar fuel rf mz1 s e = astar fuel rf mz s e := by
    intro mz1 hl
    have hshape : ShapeEq mz mz1 :=
      shapeEq_trans (shapeEq_resetMaze mz) (astarLoop_shape e fuel _ _ _ hl)
    unfold astar
    rw [resetMaze_congr mz1 mz ⟨hshape.1.symm, fun r => (hshape.2.1 r).symm,
      fun p => by
        obtain ⟨a, b, c, d, f⟩ := hshape.2.2 p
        exact ⟨a.symm, b.symm, c.symm, d.symm, f.symm⟩⟩]
  constructor
  · intro mz1 p hfound
    simp only [astar] at hfound
    cases hl : astarLoop e fuel (resetMaze mz) [⟨0, hArg s e, s⟩] with
    | none => rw [hl] at hfound; exact absurd hfound (by simp)
    | some mzL =>
      rw [hl] at hfound
      dsimp only at hfound
      have hmz1 : mzL = mz1 := by
        cases hd : (cellAt mzL e).distance with
        | none => rw [hd] at hfound; exact absurd hfound (by simp)
        | some dv =>
          rw [hd] at hfound
          cases hrc : reconLoop s rf mzL e [] with
          | none => rw [hrc] at hfound; exact absurd hfound (by simp)
          | some o =>
            rw [hrc] at hfound
            cases o with
            | none => exact absurd hfound (by simp)
            | some pp =>
              simp only [AstarResult.found.injEq] at hfound
              exact hfound.1
      subst hmz1
      rw [hrerun mzL hl]
      simp only [astar]
      rw [hl]
      exact hfound
  · intro mz1 hnp
    simp only [astar] at hnp
    cases hl : astarLoop e fuel (resetMaze mz) [⟨0, hArg s e, s⟩] with
    | none => rw [hl] at hnp; exact absurd hnp (by simp)
    | some mzL =>
      rw [hl] at hnp
      dsimp only at hnp
      have hmz1 : mzL = mz1 := by
        cases hd : (cellAt mzL e).distance with
        | none =>
          rw [hd] at hnp
          simp only [AstarResult.noPath.injEq] at hnp
          exact hnp
        | some dv =>
          rw [hd] at hnp
          cases hrc : reconLoop s rf mzL e [] with
          | none => rw [hrc] at hnp; exact absurd hnp (by simp)
          | some o =>
            rw [hrc] at hnp
            cases o with
            | none => exact absurd hnp (by simp)
            | some pp => exact absurd hnp (by simp)
      subst hmz1
      rw [hrerun mzL hl]
      simp only [astar]
      rw [hl]
      exact hnp

/-- Closed witness for C8: the end-to-end 3 × 3 example re-run on its own
output maze returns the same path. -/
theorem astar_idempotent_witness :
    astar 100 100 (resMaze runFull3) (1, 0) (1, 2) =
      .found (resMaze runFull3) (resPath runFull3) :=
  (astar_idempotent 100 100 full3 (1, 0) (1, 2)).1 (resMaze runFull3)
    (resPath runFull3) (by decide)

/-- Closed witness for C6 on an adjacency-free 2 × 2 grid. -/
theorem astar_unreachable_witness :
    ∃ mz1, astar 1 5 (emptyMaze 2 2) (0, 0) (1, 1) = .noPath mz1 :=
  astar_unreachable.1 (emptyMaze 2 2) (0, 0) (1, 1) 1 5
    (noAdj_emptyMaze 2 2) (by decide) (by norm_num)

/-! ### Border endpoints (`generate_end_on_border`) -/

/-- C7.  For grids of side at least 3, any source the program's
`generate_start_on_border` produced, and any draw sequence, whenever the
recursive `generate_end_on_border` returns a coordinate it differs from the
source and lies on the grid boundary. -/
theorem border_destination_ok (rows cols : Nat)
    (h3r : 3 ≤ rows) (h3c : 3 ≤ cols) (rs1 : Rand) (k1 : Nat) (s : Coord)
    (ks : Nat) (hs : generate_start_on_border rows rs1 k1 = .ok (s, ks))
    (rs2 : Rand) (fuel k2 : Nat) (e : Coord) (ke : Nat)
    (he : generate_end_on_border rows cols s rs2 fuel k2 = some (.ok (e, ke))) :
    e ≠ s ∧ (e.1 = 0 ∨ e.1 = rows - 1 ∨ e.2 = 0 ∨ e.2 = cols - 1) := by
  induction fuel generalizing k2 with
  | zero => exact absurd he (by simp [generate_end_on_border])
  | succ n ih =>
    simp only [generate_end_on_border] at he
    split at he
    · rename_i hcond
      rw [Option.some.injEq] at he
      cases hr : randint 1 ((cols : Int) - 2) rs2 (k2 + 1) with
      | error er => rw [hr] at he; exact absurd he (by simp [Bind.bind, Except.bind])
      | ok ck =>
        rw [hr] at he
        simp only [Bind.bind, Except.bind, Except.ok.injEq, Prod.mk.injEq] at he
        obtain ⟨he1, -⟩ := he
        subst he1
        exact ⟨fun hq => hcond.2 (by rw [← hq]), Or.inl rfl⟩
    · split at he
      · rename_i hcond
        rw [Option.some.injEq] at he
        cases hr : randint 1 ((cols : Int) - 2) rs2 (k2 + 1) with
        | error er =>
          rw [hr] at he; exact absurd he (by simp [Bind.bind, Except.bind])
        | ok ck =>
          rw [hr] at he
          simp only [Bind.bind, Except.bind, Except.ok.injEq, Prod.mk.injEq] at he
          obtain ⟨he1, -⟩ := he
          subst he1
          exact ⟨fun hq => hcond.2 (by rw [← hq]), Or.inr (Or.inl rfl)⟩
      · split at he
        · rename_i hcond
          rw [Option.some.injEq] at he
          cases hr : randint 1 ((rows : Int) - 2) rs2 (k2 + 1) with
          | error er =>
            rw [hr] at he; exact absurd he (by simp [Bind.bind, Except.bind])
          | ok rk =>
            rw [hr] at he
            simp only [Bind.bind, Except.bind, Except.ok.injEq, Prod.mk.injEq] at he
            obtain ⟨he1, -⟩ := he
            subst he1
            exact ⟨fun hq => hcond.2 (by rw [← hq]), Or.inr (Or.inr (Or.inl rfl))⟩
        · split at he
          · rename_i hcond
            rw [Option.some.injEq] at he
            cases hr : randint 1 ((rows : Int) - 2) rs2 (k2 + 1) with
            | error er =>
              rw [hr] at he; exact absurd he (by simp [Bind.bind, Except.bind])
            | ok rk =>
              rw [hr] at he
              simp only [Bind.bind, Except.bind, Except.ok.injEq,
                Prod.mk.injEq] at he
              obtain ⟨he1, -⟩ := he
              subst he1
              exact ⟨fun hq => hcond.2 (by rw [← hq]),
                Or.inr (Or.inr (Or.inr rfl))⟩
          · exact ih (k2 + 1) he

/-- Closed witness for C7 on a 3 × 3 grid with the all-zero draw sequence. -/
theorem border_destination_ok_witness :
    ((0, 1) : Coord) ≠ ((1, 0) : Coord) ∧
    ((0 : Nat) = 0 ∨ (0 : Nat) = 3 - 1 ∨ (1 : Nat) = 0 ∨ (1 : Nat) = 3 - 1) :=
  border_destination_ok 3 3 (by norm_num) (by norm_num) zRand 0 (1, 0) 1 rfl
    zRand 1 0 (0, 1) 2 rfl

/-! ### Obstacle counting (`generate_random_maze`) -/

theorem getD_default_irrel {α : Type} (l : List α) (i : Nat) (d1 d2 : α)
    (h : i < l.length) : l.getD i d1 = l.getD i d2 := by
  induction l generalizing i with
  | nil => simp at h
  | cons a t ih =>
    cases i with
    | zero => rfl
    | succ j => exact ih j (by simpa using h)

theorem filter_length_set_le {α : Type} (p : α → Bool) (l : List α) (i : Nat)
    (x : α) : ((l.set i x).filter p).length ≤ (l.filter p).length + 1 := by
  induction l generalizing i with
  | nil => simp
  | cons a t ih =>
    cases i with
    | zero =>
      simp only [List.set, List.filter]
      cases p x <;> cases p a <;> simp <;> omega
    | succ j =>
      simp only [List.set, List.filter]
      cases p a <;> simp only [List.length_cons] <;> have := ih j <;> omega

theorem filter_length_set_eq {α : Type} (p : α → Bool) (l : List α) (i : Nat)
    (x : α) (h : p x = p (l.getD i x)) :
    ((l.set i x).filter p).length = (l.filter p).length := by
  induction l generalizing i with
  | nil => simp
  | cons a t ih =>
    cases i with
    | zero =>
      simp only [List.getD_cons_zero] at h
      simp only [List.set, List.filter]
      rw [h]
      cases p a <;> simp
    | succ j =>
      simp only [List.getD_cons_succ] at h
      simp only [List.set, List.filter]
      cases p a <;> simp [ih j h]

theorem countEnemies_set_le (mz : Maze) (r : Nat) (row' : List Cell)
    (h : (row'.filter (fun c => c.is_enemy)).length ≤
      ((mz.getD r []).filter (fun c => c.is_enemy)).length + 1) :
    countEnemies (mz.set r row') ≤ countEnemies mz + 1 := by
  induction mz generalizing r with
  | nil => simp [countEnemies]
  | cons a t ih =>
    cases r with
    | zero =>
      simp only [List.getD_cons_zero] at h
      simp only [List.set, countEnemies, List.map_cons, List.sum_cons]
      have : countEnemies t = (t.map (fun row =>
        (row.filter (fun c => c.is_enemy)).length)).sum := rfl
      omega
    | succ j =>
      simp only [List.getD_cons_succ] at h
      simp only [List.set, countEnemies, List.map_cons, List.sum_cons]
      have := ih j h
      simp only [countEnemies] at this
      omega

theorem countEnemies_set_eq (mz : Maze) (r : Nat) (row' : List Cell)
    (h : (row'.filter (fun c => c.is_enemy)).length =
      ((mz.getD r []).filter (fun c => c.is_enemy)).length) :
    countEnemies (mz.set r row') = countEnemies mz := by
  induction mz generalizing r with
  | nil => simp
  | cons a t ih =>
    cases r with
    | zero =>
      simp only [List.getD_cons_zero] at h
      simp only [List.set, countEnemies, List.map_cons, List.sum_cons, h]
    | succ j =>
      simp only [List.getD_cons_succ] at h
      simp only [List.set, countEnemies, List.map_cons, List.sum_cons]
      have := ih j h
      simp only [countEnemies] at this
      omega

theorem countEnemies_updateCell_le (mz : Maze) (p : Coord) (f : Cell → Cell) :
    countEnemies (updateCell mz p f) ≤ countEnemies mz + 1 := by
  unfold updateCell
  exact countEnemies_set_le mz p.1 _ (filter_length_set_le _ _ _ _)

theorem countEnemies_updateCell_keep (mz : Maze) (p : Coord) (f : Cell → Cell)
    (hf : ∀ c, (f c).is_enemy = c.is_enemy) :
    countEnemies (updateCell mz p f) = countEnemies mz := by
  unfold updateCell
  apply countEnemies_set_eq
  apply filter_length_set_eq
  by_cases hb : p.2 < (mz.getD p.1 []).length
  · rw [getD_default_irrel _ _ _ _ hb]
    exact hf _
  · rw [List.getD_eq_default _ _ (Nat.le_of_not_lt hb)]

theorem countEnemies_setRight (mz : Maze) (p q : Coord) :
    countEnemies (updateCell mz p (fun cc => { cc with right := some q })) =
      countEnemies mz :=
  countEnemies_updateCell_keep _ _ _ (fun _ => rfl)

theorem countEnemies_setLeft (mz : Maze) (p q : Coord) :
    countEnemies (updateCell mz p (fun cc => { cc with left := some q })) =
      countEnemies mz :=
  countEnemies_updateCell_keep _ _ _ (fun _ => rfl)

theorem countEnemies_setDown (mz : Maze) (p q : Coord) :
    countEnemies (updateCell mz p (fun cc => { cc with down := some q })) =
      countEnemies mz :=
  countEnemies_updateCell_keep _ _ _ (fun _ => rfl)

theorem countEnemies_setUp (mz : Maze) (p q : Coord) :
    countEnemies (updateCell mz p (fun cc => { cc with up := some q })) =
      countEnemies mz :=
  countEnemies_updateCell_keep _ _ _ (fun _ => rfl)

theorem connectStep_count (rows cols : Nat) (rs : Rand) (st : Maze × Nat)
    (rc : Coord) : countEnemies ((connectStep rows cols rs st rc).1) =
      countEnemies st.1 := by
  unfold connectStep
  dsimp only
  repeat' split
  all_goals simp only [countEnemies_setRight, countEnemies_setLeft,
    countEnemies_setDown, countEnemies_setUp]

theorem connectFold_count (rows cols : Nat) (rs : Rand) (l : List Coord) :
    ∀ st : Maze × Nat,
      countEnemies ((l.foldl (connectStep rows cols rs) st).1) =
        countEnemies st.1 := by
  induction l with
  | nil => intro st; rfl
  | cons a t ih =>
    intro st
    rw [List.foldl_cons, ih (connectStep rows cols rs st a),
      connectStep_count]

theorem countEnemies_emptyMaze (rows cols : Nat) :
    countEnemies (emptyMaze rows cols) = 0 := by
  unfold countEnemies emptyMaze
  apply List.sum_eq_zero
  intro x hx
  simp only [List.mem_map] at hx
  obtain ⟨row, ⟨r, -, hrow⟩, hval⟩ := hx
  subst hval
  rw [← hrow]
  simp [List.filter_map, Function.comp]

theorem enemiesLoop_count (rows cols : Nat) (rs : Rand) :
    ∀ (n : Nat) (mz : Maze) (k : Nat) (mz' : Maze) (k' : Nat),
      enemiesLoop rows cols rs n mz k = .ok (mz', k') →
      countEnemies mz' ≤ countEnemies mz + n := by
  intro n
  induction n with
  | zero =>
    intro mz k mz' k' h
    simp only [enemiesLoop, Except.ok.injEq, Prod.mk.injEq] at h
    rw [← h.1]
    omega
  | succ m ih =>
    intro mz k mz' k' h
    simp only [enemiesLoop] at h
    cases h1 : randint 0 ((rows : Int) - 1) rs k with
    | error e => rw [h1] at h; exact absurd h (by simp [Bind.bind, Except.bind])
    | ok rk =>
      rw [h1] at h
      simp only [Bind.bind, Except.bind] at h
      cases h2 : randint 0 ((cols : Int) - 1) rs rk.2 with
      | error e =>
        rw [h2] at h; exact absurd h (by simp)
      | ok ck =>
        rw [h2] at h
        simp only [Except.bind] at h
        have := ih _ _ _ _ h
        have hle := countEnemies_updateCell_le mz (rk.1.toNat, ck.1.toNat)
          (fun cc => { cc with is_enemy := true })
        omega

/-- C4 (counterexample).  With `rows = 1, cols = 2, numObstacles = 2`
(satisfying `numObstacles ≤ rows * cols`) and the all-zero draw sequence,
both obstacle draws land on `(0,0)`: only one distinct cell is marked, not
two. -/
theorem generator_distinct_counterexample :
    generate_random_maze 1 2 2 zRand 0 = .ok (mzC4, 5) ∧
    countEnemies mzC4 = 1 ∧ 2 ≤ 1 * 2 := by
  refine ⟨rfl, rfl, by norm_num⟩

/-- C4 (amended).  `generate_random_maze` marks *at most* `numObstacles`
cells as obstacles; the draws are independent, so the same cell can be
chosen twice and fewer distinct cells may be marked. -/
theorem generator_marks_at_most_amended (rows cols num : Nat) (rs : Rand)
    (k : Nat) (mz' : Maze) (k' : Nat)
    (h : generate_random_maze rows cols num rs k = .ok (mz', k')) :
    countEnemies mz' ≤ num := by
  unfold generate_random_maze at h
  have h1 := enemiesLoop_count rows cols rs num _ _ _ _ h
  rw [connectFold_count, countEnemies_emptyMaze] at h1
  omega

/-- Closed witness for the amended C4 on a concrete 2 × 2 generation. -/
theorem generator_marks_at_most_amended_witness :
    countEnemies c4wMaze ≤ 1 :=
  generator_marks_at_most_amended 2 2 1 zRand 0 c4wMaze c4wK rfl

/-- Closed witness for C10 at concrete inputs: a 2-coordinate path errors,
a 3-coordinate path succeeds. -/
theorem insertion_short_path_error_witness :
    add_enemies_along_path zRand [(0, 0), (0, 1)] 1 mzOne 0 0 = .error () ∧
    ∃ mz' a k', add_enemies_along_path zRand [(0, 0), (0, 1), (0, 2)] 1
      (fullMaze 1 3) 0 0 = .ok (mz', a, k') := by
  refine ⟨(insertion_short_path_error zRand [(0, 0), (0, 1)] 1 mzOne 0 0).1 rfl
      (by norm_num),
    (insertion_short_path_error zRand [(0, 0), (0, 1), (0, 2)] 1
      (fullMaze 1 3) 0 0).2 (by norm_num)⟩

end MazeSolver
